import Mathlib

/-!
# Netlist-Analyzer: sparse tableau assembly and Gaussian elimination

A shallow embedding of `src/main.cpp`.  The program keeps its working data in
globals (`components`, `numNodes`, `numBranches`, `size`, the four matrices,
`circuitSolution`, `isSingularMatrix`); here every function of the source takes
the globals it reads as arguments and returns the ones it writes.

* `double` is modelled by `ℚ` (exact arithmetic).
* `vector<vector<double>>` is modelled by `List (List ℚ)`.
* A conversion `double → int` truncates toward zero; it is undefined in C++
  when the truncated value does not fit a 32-bit `int`, and the model then
  returns `none`.  The same holds for an out-of-range vector index that the
  input can cause, and for `string::at(0)` on an empty identifier (which throws).
* A component is the record of its four tokens as the program reads them:
  the identifier, `stoi` of tokens 1 and 2, `stod` of token 3.
-/

namespace NetlistAnalyzer

/-- Matrices of the program: `vector< vector<double> >`. -/
abbrev Mat := List (List ℚ)

/-- One entry of `components`: the identifier token, the two node tokens as
`stoi` returns them and the value token as `stod` returns it. -/
structure Component where
  ident : String
  sourceNode : Int
  destNode : Int
  value : ℚ
deriving DecidableEq, Repr

/-- The global variables of the program. `console` collects the lines that
`guassianElimination` prints. -/
structure Session where
  components : List Component
  numNodes : Nat
  numBranches : Nat
  size : Nat
  incidenceMatrix : Mat
  voltageCoefMatrix : Mat
  currentCoefMatrix : Mat
  sparseMatrix : Mat
  circuitSolution : List ℚ
  isSingularMatrix : Bool
  console : List String
deriving DecidableEq, Repr

/-! ## Loops, vectors -/

/-- Run `body k` for `k = lo, lo+1, …, lo+n-1`, threading the state. -/
def iterUp {σ : Type} (body : Nat → σ → σ) : Nat → Nat → σ → σ
  | 0, _, s => s
  | n + 1, lo, s => iterUp body n (lo + 1) (body lo s)

/-- The loop `for (k = lo; k < hi; k++) body`. -/
def forLoop {σ : Type} (body : Nat → σ → σ) (lo hi : Nat) (s : σ) : σ :=
  iterUp body (hi - lo) lo s

/-- The loop `for (k = n-1; k >= 0; k--) body`. -/
def forDown {σ : Type} (body : Nat → σ → σ) : Nat → σ → σ
  | 0, s => s
  | n + 1, s => forDown body n (body n s)

/-- The constructor `vector<vector<double>> vec(r, vector<double>(c, 0))`. -/
def zeros (r c : Nat) : Mat := List.replicate r (List.replicate c 0)

/-- Read `M[r][c]`. -/
def getEntry (M : Mat) (r c : Nat) : ℚ := (M.getD r []).getD c 0

/-- Write `M[r][c] = v`. -/
def setEntry (M : Mat) (r c : Nat) (v : ℚ) : Mat := M.set r ((M.getD r []).set c v)

/-- The call `M[r].push_back(v)`. -/
def pushBack (M : Mat) (r : Nat) (v : ℚ) : Mat := M.set r (M.getD r [] ++ [v])

/-- Truncation toward zero, the value of a `double → int` conversion. -/
def truncate (q : ℚ) : Int := Int.tdiv q.num q.den

/-- A `double → int` conversion: defined when the truncated value fits `int`. -/
def toInt (q : ℚ) : Option Int :=
  if -2147483648 ≤ truncate q ∧ truncate q ≤ 2147483647 then some (truncate q) else none

/-- The call `ident.at(0)`: the first character, or an exception when empty. -/
def firstChar (ident : String) : Option Char := ident.toList.head?

/-! ## Matrix assembly -/

/-- The state after `clearNetList`. -/
def clearNetList : Session :=
  { components := [], numNodes := 0, numBranches := 0, size := 0,
    incidenceMatrix := [], voltageCoefMatrix := [], currentCoefMatrix := [],
    sparseMatrix := [], circuitSolution := [], isSingularMatrix := false,
    console := [] }

/-- The value of `numNodes` as an `int` after the loop of
`countNumBranchesAndNodes`, started from 0. -/
def largestNode (components : List Component) : Int :=
  components.foldl (fun numNodes c => max numNodes (max c.sourceNode c.destNode)) 0

/-- The function `countNumBranchesAndNodes`: returns `(numNodes, numBranches, size)`. -/
def countNumBranchesAndNodes (components : List Component) : Nat × Nat × Nat :=
  let numBranches := components.length
  let numNodes := (largestNode components).toNat
  (numNodes, numBranches, numNodes + numBranches * 2)

/-- The token `components[branch][j]` read by `stoi`, for `j = 1, 2`. -/
def nodeToken (c : Component) (j : Nat) : Int :=
  if j = 1 then c.sourceNode else c.destNode

/-- The function `createIncidenceMatrix`. -/
def createIncidenceMatrix (components : List Component) (numNodes numBranches : Nat) :
    Option Mat :=
  forLoop (fun branch acc =>
    forLoop (fun j acc =>
      acc.bind fun M =>
      (components.get? branch).bind fun comp =>
        let node := nodeToken comp j
        if node ≠ 0 then
          let val : ℚ := if j = 1 then 1 else -1
          if 1 ≤ node ∧ node ≤ numNodes then
            some (setEntry M (node - 1).toNat branch val)
          else none
        else some M) 1 3 acc)
    0 numBranches (some (zeros numNodes numBranches))

/-- The function `createVoltageCoefMartix`. -/
def createVoltageCoefMartix (numBranches : Nat) : Mat :=
  forLoop (fun i M => setEntry M i i 1) 0 numBranches (zeros numBranches numBranches)

/-- The function `createCurrentCoefMatrix`. -/
def createCurrentCoefMatrix (components : List Component) (numBranches : Nat) : Option Mat :=
  forLoop (fun i acc =>
    acc.bind fun M =>
    (components.get? i).bind fun comp =>
    (firstChar comp.ident).bind fun componentType =>
      if componentType = 'V' then some (setEntry M i i 0)
      else if componentType = 'R' then some (setEntry M i i (comp.value * (-1)))
      else some M)
    0 numBranches (some (zeros numBranches numBranches))

/-- The function `createSparseMatrix`; the counters `k` and `l` of the source
are carried in the loop state. -/
def createSparseMatrix (numNodes numBranches size : Nat)
    (incidenceMatrix voltageCoefMatrix currentCoefMatrix : Mat) : Mat :=
  let M0 := zeros size size
  -- Input Incidence Matrix
  let M1 := (forLoop (fun i (st : Mat × Nat) =>
      ((forLoop (fun j (st2 : Mat × Nat) =>
          (setEntry st2.1 i j (getEntry incidenceMatrix st.2 st2.2), st2.2 + 1))
        (numNodes + numBranches) size (st.1, 0)).1, st.2 + 1))
    0 numNodes (M0, 0)).1
  -- Input Negative Transposed Incidence Matrix
  let M2 := (forLoop (fun i (st : Mat × Nat) =>
      ((forLoop (fun j (st2 : Mat × Nat) =>
          (setEntry st2.1 i j (getEntry incidenceMatrix st2.2 st.2 * (-1)), st2.2 + 1))
        0 numNodes (st.1, 0)).1, st.2 + 1))
    numNodes (numNodes + numBranches) (M1, 0)).1
  -- Input Identity Matrix
  let M3 := forLoop (fun i M => setEntry M i i 1) numNodes (numNodes + numBranches) M2
  -- Input Voltage Coefficient Matrix
  let M4 := (forLoop (fun i (st : Mat × Nat) =>
      ((forLoop (fun j (st2 : Mat × Nat) =>
          (setEntry st2.1 i j (getEntry voltageCoefMatrix st.2 st2.2), st2.2 + 1))
        numNodes (numNodes + numBranches) (st.1, 0)).1, st.2 + 1))
    (numNodes + numBranches) size (M3, 0)).1
  -- Input Current Coefficient Matrix
  (forLoop (fun i (st : Mat × Nat) =>
      ((forLoop (fun j (st2 : Mat × Nat) =>
          (setEntry st2.1 i j (getEntry currentCoefMatrix st.2 st2.2), st2.2 + 1))
        (numNodes + numBranches) size (st.1, 0)).1, st.2 + 1))
    (numNodes + numBranches) size (M4, 0)).1

/-- The function `appendInputToSpareMatrix`: `val` is an `int`, so the value
read by `stod` is converted to `int` before it is pushed. -/
def appendInputToSpareMatrix (components : List Component) (numNodes numBranches : Nat)
    (sparseMatrix : Mat) : Option Mat :=
  (forLoop (fun i (acc : Option (Mat × Nat)) =>
    acc.bind fun st =>
      if numNodes + numBranches ≤ i then
        (components.get? st.2).bind fun comp =>
        (firstChar comp.ident).bind fun c =>
          if c = 'V' then
            (toInt comp.value).bind fun val => some (pushBack st.1 i (val : ℚ), st.2 + 1)
          else some (pushBack st.1 i 0, st.2 + 1)
      else some (pushBack st.1 i 0, st.2))
    0 sparseMatrix.length (some (sparseMatrix, 0))).map Prod.fst

/-! ## Gaussian elimination -/

/-- The scan of `rref` for pivot column `i`: returns `(i_max, i_max_val)`.
Both `i_max_val` and `abs_cur_val` are `int`: `i_max_val` starts as the
truncated (signed) entry `sparseMatrix[i][i]`, and `abs_cur_val` is the
truncated magnitude of `sparseMatrix[k][i]` (whether `abs` is taken on the
`double` or on the `int`, the value is the same). -/
def findMaxRow (size i : Nat) (M : Mat) : Option (Nat × Int) :=
  forLoop (fun k (acc : Option (Nat × Int)) =>
    acc.bind fun st =>
    (toInt |getEntry M k i|).bind fun abs_cur_val =>
      if abs_cur_val > st.2 then some (k, abs_cur_val) else some st)
    i size ((toInt (getEntry M i i)).map fun v => (i, v))

/-- The row swap of `rref`. -/
def swapWithTop (i i_max : Nat) (M : Mat) : Mat :=
  if i_max ≠ i then
    let temp := M.getD i []
    (M.set i (M.getD i_max [])).set i_max temp
  else M

/-- The block "Reduce max row" of `rref`. -/
def reduceMaxRow (size i : Nat) (M : Mat) : Mat :=
  let d := getEntry M i i
  forLoop (fun I M => setEntry M i I (getEntry M i I / d)) i (size + 1) M

/-- The block "Reduce other rows" of `rref`. -/
def reduceOtherRows (size i : Nat) (M : Mat) : Mat :=
  forLoop (fun I M =>
    if getEntry M I i = 0 then M
    else
      let temp := getEntry M I i
      forLoop (fun J M => setEntry M I J (getEntry M I J + (-1) * temp * getEntry M i J))
        i (size + 1) M)
    (i + 1) size M

/-- The loop of `rref` from pivot index `i` with `n` iterations left; returns the
flag (`-1` or the singular row) and the matrix. -/
def rrefFrom (size : Nat) : Nat → Nat → Mat → Option (Int × Mat)
  | 0, _, M => some (-1, M)
  | n + 1, i, M =>
    (findMaxRow size i M).bind fun p =>
      if p.2 = 0 then some ((i : Int), M)
      else rrefFrom size n (i + 1)
        (reduceOtherRows size i (reduceMaxRow size i (swapWithTop i p.1 M)))

/-- The function `rref`. -/
def rref (size : Nat) (sparseMatrix : Mat) : Option (Int × Mat) :=
  rrefFrom size size 0 sparseMatrix

/-- The function `backSubstitutioh`. -/
def backSubstitutioh (size : Nat) (M : Mat) : List ℚ :=
  forDown (fun i sol =>
    let sol1 := sol.set i (getEntry M i size)
    let sol2 := forLoop (fun j s => s.set i (s.getD i 0 - getEntry M i j * s.getD j 0))
      (i + 1) size sol1
    sol2.set i (sol2.getD i 0 / getEntry M i i))
    size (List.replicate size 10)

/-- The function `guassianElimination`, on the session: in the singular case
the solution vector is left as it was and one of two messages is printed,
chosen by the right-hand side of the row at which `rref` stopped. -/
def guassianElimination (s : Session) : Option Session :=
  (rref s.size s.sparseMatrix).bind fun res =>
    let singular_flag := res.1
    if singular_flag ≠ -1 then
      if getEntry res.2 singular_flag.toNat s.size ≠ 0 then
        some { s with sparseMatrix := res.2, isSingularMatrix := true,
                      console := s.console ++ ["Singular Matrix: Inconsistent System"] }
      else
        some { s with sparseMatrix := res.2, isSingularMatrix := true,
                      console := s.console ++
                        ["Singular Matrix: May have infinitely many solutions."] }
    else
      some { s with sparseMatrix := res.2, isSingularMatrix := false,
                    circuitSolution := backSubstitutioh s.size res.2 }

/-- The assembly part of option `A` of `main`, after `readNewNetlist` has
stored `netlist` in `components`: everything up to `appendInputToSpareMatrix`. -/
def assemble (netlist : List Component) : Option Session :=
  let cnt := countNumBranchesAndNodes netlist
  let numNodes := cnt.1
  let numBranches := cnt.2.1
  let size := cnt.2.2
  (createIncidenceMatrix netlist numNodes numBranches).bind fun inc =>
  let vol := createVoltageCoefMartix numBranches
  (createCurrentCoefMatrix netlist numBranches).bind fun cur =>
  let sp := createSparseMatrix numNodes numBranches size inc vol cur
  (appendInputToSpareMatrix netlist numNodes numBranches sp).bind fun aug =>
  some { clearNetList with
    components := netlist, numNodes := numNodes, numBranches := numBranches, size := size,
    incidenceMatrix := inc, voltageCoefMatrix := vol, currentCoefMatrix := cur,
    sparseMatrix := aug }

/-- Option `A` of `main` after a successful `readNewNetlist`. -/
def loadNetlist (netlist : List Component) : Option Session :=
  (assemble netlist).bind guassianElimination

/-! ## Example netlists -/

/-- The netlist `V1 1 0 5`, `R1 1 0 1`. -/
def scenarioA : List Component := [⟨"V1", 1, 0, 5⟩, ⟨"R1", 1, 0, 1⟩]

/-- The netlist `V1 1 0 5`, `R1 1 0 0.5`: a source across half an ohm. -/
def halfOhm : List Component := [⟨"V1", 1, 0, 5⟩, ⟨"R1", 1, 0, 1 / 2⟩]

/-- The netlist `V1 1 0 5`, `V2 1 0 5`: two equal sources in parallel. -/
def parallelSources : List Component := [⟨"V1", 1, 0, 5⟩, ⟨"V2", 1, 0, 5⟩]

/-- The netlist `V1 1 0 5`, `V2 1 0 3`: two contradictory sources. -/
def contradictorySources : List Component := [⟨"V1", 1, 0, 5⟩, ⟨"V2", 1, 0, 3⟩]

/-- The netlist `V1 1 0 2.5`, `R1 1 0 1`: a source of 2.5 V. -/
def fractionalSource : List Component := [⟨"V1", 1, 0, 5 / 2⟩, ⟨"R1", 1, 0, 1⟩]

/-- The netlist `V1 1 0 5`, `R1 1 1 2`: both terminals of `R1` on node 1. -/
def selfLoop : List Component := [⟨"V1", 1, 0, 5⟩, ⟨"R1", 1, 1, 2⟩]

/-- The netlist `V1 1 0 5`, `R1 3 0 1`: node 2 is a terminal of no component. -/
def isolatedNode : List Component := [⟨"V1", 1, 0, 5⟩, ⟨"R1", 3, 0, 1⟩]

/-! ## Predicates used in the statements -/

/-- The matrix has `r` rows and each of them has `c` entries. -/
def Dims (M : Mat) (r c : Nat) : Prop :=
  M.length = r ∧ ∀ k, k < r → (M.getD k []).length = c

/-- Row `r` of the augmented `n × (n+1)` matrix `M` holds at `x`:
the sum over `j < n` of `M[r][j] * x j` equals `M[r][n]`. -/
def RowSat (M : Mat) (n : Nat) (x : Nat → ℚ) (r : Nat) : Prop :=
  ∑ j in Finset.range n, getEntry M r j * x j = getEntry M r n

/-- The vector `x` satisfies every row of the augmented `n × (n+1)` matrix `M`. -/
def Solves (M : Mat) (n : Nat) (x : Nat → ℚ) : Prop :=
  ∀ r, r < n → RowSat M n x r

/-- The vector of a `vector<double>`, read by index. -/
def vecOf (v : List ℚ) : Nat → ℚ := fun j => v.getD j 0

/-- The solved voltage of node `n`: 0 for ground (node 0), `solution[n-1]` for
a node `n ≥ 1` (as `printVoltageValues` prints them). -/
def nodeVoltage (solution : List ℚ) (n : Int) : ℚ :=
  if n = 0 then 0 else solution.getD (n - 1).toNat 0

/-- No node in `[1, N]` is isolated: each is a terminal of some component. -/
def NoIsolatedNode (netlist : List Component) : Prop :=
  ∀ n : Int, 1 ≤ n → n ≤ largestNode netlist →
    ∃ c, c ∈ netlist ∧ (c.sourceNode = n ∨ c.destNode = n)

/-- Two nodes are the terminals of one component. -/
def Adjacent (netlist : List Component) (u v : Int) : Prop :=
  ∃ c, c ∈ netlist ∧ ((c.sourceNode = u ∧ c.destNode = v) ∨ (c.sourceNode = v ∧ c.destNode = u))

/-- Some voltage source lies on a path of branches to ground: one of its
terminals is joined to node 0 by a chain of components. -/
def SourcePathToGround (netlist : List Component) : Prop :=
  ∃ c, c ∈ netlist ∧ firstChar c.ident = some 'V' ∧
    (Relation.ReflTransGen (Adjacent netlist) c.sourceNode 0 ∨
     Relation.ReflTransGen (Adjacent netlist) c.destNode 0)

/-- The state of the outer loop of `rref` on entering pivot index `i`: the
matrix is `size × (size+1)`, the first `i` columns are zero below the diagonal
and the first `i` diagonal entries are 1. -/
def Echelon (size i : Nat) (M : Mat) : Prop :=
  Dims M size (size + 1) ∧
  (∀ r c, c < i → c < r → r < size → getEntry M r c = 0) ∧
  (∀ r, r < i → getEntry M r r = 1)

/-- Closed form of entry `(r, b)` of the incidence matrix: the write for the
destination node comes last. -/
def incidenceEntry (components : List Component) (r b : Nat) : ℚ :=
  match components.get? b with
  | none => 0
  | some c =>
    if c.destNode = (r : Int) + 1 then -1
    else if c.sourceNode = (r : Int) + 1 then 1 else 0

/-- The diagonal entry that `createCurrentCoefMatrix` leaves for a component. -/
def currentCoef (c : Component) : ℚ :=
  if firstChar c.ident = some 'V' then 0
  else if firstChar c.ident = some 'R' then c.value * (-1) else 0

/-- The value that `appendInputToSpareMatrix` pushes for a component. -/
def sourceValue (c : Component) : ℚ :=
  if firstChar c.ident = some 'V' then ((truncate c.value : Int) : ℚ) else 0

/-- The coefficient `currentCoef` of branch `b`. -/
def currentCoefAt (components : List Component) (b : Nat) : ℚ :=
  match components.get? b with
  | none => 0
  | some comp => currentCoef comp

/-- The value `sourceValue` of branch `b`. -/
def sourceValueAt (components : List Component) (b : Nat) : ℚ :=
  match components.get? b with
  | none => 0
  | some comp => sourceValue comp

/-- Closed form of the entry `(r, c)` of the augmented tableau of a netlist,
with `N` the largest node index and `B` the number of components. -/
def tableauEntry (netlist : List Component) (r c : Nat) : ℚ :=
  let N := (largestNode netlist).toNat
  let B := netlist.length
  if c < N + B * 2 then
    if r < N then
      (if N + B ≤ c then incidenceEntry netlist r (c - (N + B)) else 0)
    else if r < N + B then
      (if c < N then incidenceEntry netlist c (r - N) * (-1) else if c = r then 1 else 0)
    else
      (if N + B ≤ c then (if c = r then currentCoefAt netlist (r - (N + B)) else 0)
       else if N ≤ c then (if c - N = r - (N + B) then 1 else 0) else 0)
  else if c = N + B * 2 then
    (if N + B ≤ r then sourceValueAt netlist (r - (N + B)) else 0)
  else 0

/-- The netlists on which the assembly runs without an exception or an
undefined operation: no negative node, no empty identifier, and the value of
every voltage source fits an `int` after truncation. -/
def WellFormed (netlist : List Component) : Prop :=
  ∀ c, c ∈ netlist → 0 ≤ c.sourceNode ∧ 0 ≤ c.destNode ∧ firstChar c.ident ≠ none ∧
    (firstChar c.ident = some 'V' → toInt c.value ≠ none)

/-- The netlist `R1 1 0 1`, `V1 1 0 5`: scenario A with the lines swapped. -/
def scenarioASwapped : List Component := [⟨"R1", 1, 0, 1⟩, ⟨"V1", 1, 0, 5⟩]

/-- The netlist `V1 1 0 10`, `R1 1 2 2`, `R2 2 0 3`. -/
def scenarioB : List Component := [⟨"V1", 1, 0, 10⟩, ⟨"R1", 1, 2, 2⟩, ⟨"R2", 2, 0, 3⟩]

/-- The netlist `V1 1 0 5`, `I1 1 2 3`, `R1 2 0 1`: `I1` is neither a voltage
source nor a resistor for the program. -/
def unknownKind : List Component := [⟨"V1", 1, 0, 5⟩, ⟨"I1", 1, 2, 3⟩, ⟨"R1", 2, 0, 1⟩]

/-- The sum of the solved branch currents `solution[N+B+b]` over the branches
`b` whose `destNode` is `n`. -/
def currentInto (netlist : List Component) (solution : List ℚ) (n : Int) : ℚ :=
  ∑ b in Finset.range netlist.length,
    match netlist.get? b with
    | none => 0
    | some c =>
      if c.destNode = n
      then solution.getD ((largestNode netlist).toNat + netlist.length + b) 0 else 0

/-- The sum of the solved branch currents `solution[N+B+b]` over the branches
`b` whose `sourceNode` is `n`. -/
def currentOutOf (netlist : List Component) (solution : List ℚ) (n : Int) : ℚ :=
  ∑ b in Finset.range netlist.length,
    match netlist.get? b with
    | none => 0
    | some c =>
      if c.sourceNode = n
      then solution.getD ((largestNode netlist).toNat + netlist.length + b) 0 else 0

/-- The splitting loop of `readNewNetlist` on one line: returns the vector
`comp`.  `line[i]` at `i = line.length()` is the terminating null character. -/
def splitLine (line : String) : List String :=
  (forLoop (fun i (st : List String × String) =>
      if line.toList.getD i (Char.ofNat 0) = ' ' ∨ i = line.length then (st.1 ++ [st.2], "")
      else (st.1, st.2.push (line.toList.getD i (Char.ofNat 0))))
    0 (line.length + 1) ([], "")).1

/-- The splitting loop as a recursion on the characters still to read, with `w`
the word collected so far. -/
def splitChars : List Char → String → List String
  | [], w => [w]
  | c :: cs, w => if c = ' ' then w :: splitChars cs "" else splitChars cs (w.push c)

/-- The matrix on entry to iteration `i` of the loop of `rref`, when the `i`
iterations before it ran without returning. -/
def rrefAt (size : Nat) : Nat → Mat → Option Mat
  | 0, M => some M
  | i + 1, M =>
    (rrefAt size i M).bind fun Mi =>
    (findMaxRow size i Mi).bind fun p =>
      if p.2 = 0 then none
      else some (reduceOtherRows size i (reduceMaxRow size i (swapWithTop i p.1 Mi)))

/-- The netlist `R1 1 0 1.5`, `V1 1 0 5`. -/
def pivotTie : List Component := [⟨"R1", 1, 0, 3 / 2⟩, ⟨"V1", 1, 0, 5⟩]

/-- An augmented `2 × 3` matrix. -/
def sampleMatrix : Mat := [[2, 1, 3], [1, 3, 5]]

/-- The netlist `V1 1 0 5`, `V2 1 0 3`, `R1 3 0 1`: two contradictory sources
and a node (2) that is a terminal of no component. -/
def contradictoryWithIsolatedNode : List Component :=
  [⟨"V1", 1, 0, 5⟩, ⟨"V2", 1, 0, 3⟩, ⟨"R1", 3, 0, 1⟩]

/-- Two resistors and a voltage source in parallel between node 1 and ground,
all values whole numbers: `R1 1 0 1`, `R2 1 0 9`, `V3 1 0 5`. -/
def parallelResistors : List Component :=
  [⟨"R1", 1, 0, 1⟩, ⟨"R2", 1, 0, 9⟩, ⟨"V3", 1, 0, 5⟩]

/-! ## Loops -/

theorem iterUp_last {σ : Type} (body : Nat → σ → σ) (n lo : Nat) (s : σ) :
    iterUp body (n + 1) lo s = body (lo + n) (iterUp body n lo s) := by
  induction n generalizing lo s with
  | zero => simp [iterUp]
  | succ m ih =>
    rw [iterUp, ih (lo + 1) (body lo s)]
    have e : lo + 1 + m = lo + (m + 1) := by omega
    rw [e]
    rfl

theorem iterUp_inv {σ : Type} (P : Nat → σ → Prop) (body : Nat → σ → σ) (n lo : Nat) (s : σ)
    (h0 : P lo s)
    (hstep : ∀ k t, lo ≤ k → k < lo + n → P k t → P (k + 1) (body k t)) :
    P (lo + n) (iterUp body n lo s) := by
  induction n with
  | zero => simpa [iterUp] using h0
  | succ m ih =>
    rw [iterUp_last]
    have hm := ih (fun k t h1 h2 hp => hstep k t h1 (by omega) hp)
    exact hstep (lo + m) _ (by omega) (by omega) hm

theorem forLoop_inv {σ : Type} (P : Nat → σ → Prop) (body : Nat → σ → σ) (lo hi : Nat) (s : σ)
    (hle : lo ≤ hi) (h0 : P lo s)
    (hstep : ∀ k t, lo ≤ k → k < hi → P k t → P (k + 1) (body k t)) :
    P hi (forLoop body lo hi s) := by
  have h := iterUp_inv P body (hi - lo) lo s h0
    (fun k t h1 h2 hp => hstep k t h1 (by omega) hp)
  have e : lo + (hi - lo) = hi := by omega
  rw [e] at h
  exact h

theorem forLoop_empty {σ : Type} (body : Nat → σ → σ) (lo hi : Nat) (s : σ) (h : hi ≤ lo) :
    forLoop body lo hi s = s := by
  have e : hi - lo = 0 := by omega
  simp [forLoop, e, iterUp]

theorem forDown_inv {σ : Type} (P : Nat → σ → Prop) (body : Nat → σ → σ) (n : Nat) (s : σ)
    (h0 : P n s)
    (hstep : ∀ k t, k < n → P (k + 1) t → P k (body k t)) :
    P 0 (forDown body n s) := by
  induction n generalizing s with
  | zero => simpa [forDown] using h0
  | succ m ih =>
    rw [forDown]
    exact ih (body m s) (hstep m s (by omega) h0)
      (fun k t hk hp => hstep k t (by omega) hp)

/-! ## Vectors and matrices -/

theorem getD_set (l : List ℚ) (i j : Nat) (v : ℚ) :
    (l.set i v).getD j 0 = if j = i ∧ i < l.length then v else l.getD j 0 := by
  simp only [List.getD_eq_getElem?_getD, List.getElem?_set]
  by_cases h : i = j
  · subst h
    by_cases h2 : i < l.length
    · simp [h2]
    · simp [h2, List.getElem?_eq_none (Nat.le_of_not_lt h2)]
  · have h' : ¬ j = i := fun e => h e.symm
    simp [h, h']

theorem row_set (M : Mat) (r k : Nat) (row : List ℚ) :
    (M.set r row).getD k [] = if k = r ∧ r < M.length then row else M.getD k [] := by
  simp only [List.getD_eq_getElem?_getD, List.getElem?_set]
  by_cases h : r = k
  · subst h
    by_cases h2 : r < M.length
    · simp [h2]
    · simp [h2, List.getElem?_eq_none (Nat.le_of_not_lt h2)]
  · have h' : ¬ k = r := fun e => h e.symm
    simp [h, h']

theorem getEntry_setEntry (M : Mat) (r c : Nat) (v : ℚ) (r' c' : Nat) :
    getEntry (setEntry M r c v) r' c' =
      if r' = r ∧ c' = c ∧ r < M.length ∧ c < (M.getD r []).length then v
      else getEntry M r' c' := by
  unfold getEntry setEntry
  rw [row_set]
  by_cases h : r' = r ∧ r < M.length
  · rw [if_pos h, getD_set]
    obtain ⟨h1, h2⟩ := h
    subst h1
    by_cases h3 : c' = c ∧ c < (M.getD r' []).length
    · rw [if_pos h3, if_pos ⟨rfl, h3.1, h2, h3.2⟩]
    · rw [if_neg h3, if_neg]
      intro h4
      exact h3 ⟨h4.2.1, h4.2.2.2⟩
  · rw [if_neg h, if_neg]
    intro h4
    exact h ⟨h4.1, h4.2.2.1⟩

theorem Dims_setEntry {M : Mat} {R C : Nat} (h : Dims M R C) (r c : Nat) (v : ℚ) :
    Dims (setEntry M r c v) R C := by
  obtain ⟨h1, h2⟩ := h
  refine ⟨by simp [setEntry, h1], fun k hk => ?_⟩
  unfold setEntry
  rw [row_set]
  by_cases hc : k = r ∧ r < M.length
  · rw [if_pos hc, List.length_set]
    exact h2 r (by omega)
  · rw [if_neg hc]
    exact h2 k hk

theorem getEntry_setEntry_of_dims {M : Mat} {R C : Nat} (h : Dims M R C) {r c : Nat}
    (hr : r < R) (hc : c < C) (v : ℚ) (r' c' : Nat) :
    getEntry (setEntry M r c v) r' c' =
      if r' = r ∧ c' = c then v else getEntry M r' c' := by
  rw [getEntry_setEntry]
  have h1 : r < M.length := by rw [h.1]; exact hr
  have h2 : c < (M.getD r []).length := by rw [h.2 r hr]; exact hc
  by_cases hh : r' = r ∧ c' = c
  · rw [if_pos hh, if_pos ⟨hh.1, hh.2, h1, h2⟩]
  · rw [if_neg hh, if_neg]
    intro h4
    exact hh ⟨h4.1, h4.2.1⟩

theorem Dims_zeros (R C : Nat) : Dims (zeros R C) R C := by
  refine ⟨by simp [zeros], fun k hk => ?_⟩
  simp [zeros, List.getD_eq_getElem?_getD, List.getElem?_replicate, hk]

theorem getEntry_zeros (R C r c : Nat) : getEntry (zeros R C) r c = 0 := by
  unfold getEntry zeros
  simp only [List.getD_eq_getElem?_getD, List.getElem?_replicate]
  by_cases h : r < R
  · by_cases h2 : c < C <;> simp [h, h2]
  · simp [h]

theorem getEntry_of_row_ge {M : Mat} {R C : Nat} (h : Dims M R C) {r : Nat} (hr : R ≤ r)
    (c : Nat) : getEntry M r c = 0 := by
  unfold getEntry
  have : M.length ≤ r := by rw [h.1]; exact hr
  simp [List.getD_eq_getElem?_getD, List.getElem?_eq_none this]

theorem getEntry_of_col_ge {M : Mat} {R C : Nat} (h : Dims M R C) (r : Nat) {c : Nat}
    (hc : C ≤ c) : getEntry M r c = 0 := by
  by_cases hr : r < R
  · unfold getEntry
    have : (M.getD r []).length ≤ c := by rw [h.2 r hr]; exact hc
    rw [List.getD_eq_getElem?_getD (M.getD r []), List.getElem?_eq_none this]
    rfl
  · exact getEntry_of_row_ge h (Nat.le_of_not_lt hr) c

/-! ## The row operations of `rref` -/

theorem Dims_swapWithTop {M : Mat} {R C : Nat} (h : Dims M R C) {i i_max : Nat}
    (hi : i < R) (hm : i_max < R) : Dims (swapWithTop i i_max M) R C := by
  unfold swapWithTop
  by_cases e : i_max = i
  · simpa [e] using h
  · rw [if_pos e]
    refine ⟨by simp [h.1], fun k hk => ?_⟩
    rw [row_set, row_set]
    by_cases h1 : k = i_max ∧ i_max < (M.set i (M.getD i_max [])).length
    · rw [if_pos h1]; exact h.2 i hi
    · rw [if_neg h1]
      by_cases h2 : k = i ∧ i < M.length
      · rw [if_pos h2]; exact h.2 i_max hm
      · rw [if_neg h2]; exact h.2 k hk

theorem getEntry_swapWithTop {M : Mat} {R C : Nat} (h : Dims M R C) {i i_max : Nat}
    (hi : i < R) (hm : i_max < R) (r c : Nat) :
    getEntry (swapWithTop i i_max M) r c =
      getEntry M (if r = i then i_max else if r = i_max then i else r) c := by
  unfold swapWithTop
  by_cases e : i_max = i
  · subst e
    by_cases h1 : r = i_max
    · simp [h1]
    · simp [h1]
  · rw [if_pos e]
    unfold getEntry
    rw [row_set, row_set]
    have hl : (M.set i (M.getD i_max [])).length = M.length := by simp
    have hi' : i < M.length := by rw [h.1]; exact hi
    have hm' : i_max < M.length := by rw [h.1]; exact hm
    by_cases h1 : r = i_max
    · subst h1
      have hne : ¬ r = i := e
      rw [if_pos ⟨rfl, by rw [hl]; exact hm'⟩, if_neg hne, if_pos rfl]
    · by_cases h2 : r = i
      · subst h2
        rw [if_neg (fun hh => h1 hh.1), if_pos ⟨rfl, hi'⟩, if_pos rfl]
      · rw [if_neg (fun hh => h1 hh.1), if_neg (fun hh => h2 hh.1), if_neg h2, if_neg h1]

theorem reduceMaxRow_spec {M : Mat} {size i : Nat} (h : Dims M size (size + 1))
    (hi : i < size) :
    Dims (reduceMaxRow size i M) size (size + 1) ∧
    ∀ r c, getEntry (reduceMaxRow size i M) r c =
      if r = i ∧ i ≤ c ∧ c ≤ size then getEntry M i c / getEntry M i i
      else getEntry M r c := by
  unfold reduceMaxRow
  have key := forLoop_inv
    (fun I (M' : Mat) => Dims M' size (size + 1) ∧ ∀ r c, getEntry M' r c =
      if r = i ∧ i ≤ c ∧ c < I then getEntry M i c / getEntry M i i else getEntry M r c)
    (fun I M' => setEntry M' i I (getEntry M' i I / getEntry M i i)) i (size + 1) M
    (by omega)
    ⟨h, fun r c => by
      rw [if_neg]
      intro hh
      omega⟩
    (fun I M' hI1 hI2 hP => by
      obtain ⟨hd, he⟩ := hP
      refine ⟨Dims_setEntry hd _ _ _, fun r c => ?_⟩
      rw [getEntry_setEntry_of_dims hd hi hI2, he i I, he r c]
      have hn : ¬ (i = i ∧ i ≤ I ∧ I < I) := by omega
      rw [if_neg hn]
      by_cases h1 : r = i ∧ c = I
      · obtain ⟨h1a, h1b⟩ := h1
        subst h1a; subst h1b
        rw [if_pos ⟨rfl, rfl⟩, if_pos ⟨rfl, hI1, by omega⟩]
      · rw [if_neg h1]
        by_cases h2 : r = i ∧ i ≤ c ∧ c < I
        · rw [if_pos h2, if_pos ⟨h2.1, h2.2.1, by omega⟩]
        · rw [if_neg h2, if_neg]
          intro h3
          apply h2
          refine ⟨h3.1, h3.2.1, ?_⟩
          have : c ≠ I := fun e => h1 ⟨h3.1, e⟩
          omega)
  obtain ⟨kd, ke⟩ := key
  refine ⟨kd, fun r c => ?_⟩
  rw [ke r c]
  by_cases h2 : r = i ∧ i ≤ c ∧ c < size + 1
  · rw [if_pos h2, if_pos ⟨h2.1, h2.2.1, by omega⟩]
  · rw [if_neg h2, if_neg]
    intro h3
    exact h2 ⟨h3.1, h3.2.1, by omega⟩

theorem reduceRow_spec {M : Mat} {size i I : Nat} (h : Dims M size (size + 1))
    (hI : I < size) (hne : I ≠ i) (temp : ℚ) :
    Dims (forLoop (fun J M => setEntry M I J (getEntry M I J + (-1) * temp * getEntry M i J))
        i (size + 1) M) size (size + 1) ∧
    ∀ r c, getEntry (forLoop (fun J M =>
        setEntry M I J (getEntry M I J + (-1) * temp * getEntry M i J)) i (size + 1) M) r c =
      if r = I ∧ i ≤ c ∧ c ≤ size then getEntry M I c + (-1) * temp * getEntry M i c
      else getEntry M r c := by
  by_cases hi : i ≤ size + 1
  · have key := forLoop_inv
      (fun J (M' : Mat) => Dims M' size (size + 1) ∧ ∀ r c, getEntry M' r c =
        if r = I ∧ i ≤ c ∧ c < J then getEntry M I c + (-1) * temp * getEntry M i c
        else getEntry M r c)
      (fun J M => setEntry M I J (getEntry M I J + (-1) * temp * getEntry M i J))
      i (size + 1) M hi
      ⟨h, fun r c => by
        rw [if_neg]
        intro hh
        omega⟩
      (fun J M' hJ1 hJ2 hP => by
        obtain ⟨hd, he⟩ := hP
        refine ⟨Dims_setEntry hd _ _ _, fun r c => ?_⟩
        rw [getEntry_setEntry_of_dims hd hI hJ2, he I J, he i J, he r c]
        have hn : ¬ (I = I ∧ i ≤ J ∧ J < J) := by omega
        have hn2 : ¬ (i = I ∧ i ≤ J ∧ J < J) := by omega
        rw [if_neg hn, if_neg hn2]
        by_cases h1 : r = I ∧ c = J
        · obtain ⟨h1a, h1b⟩ := h1
          subst h1a; subst h1b
          rw [if_pos ⟨rfl, rfl⟩, if_pos ⟨rfl, hJ1, by omega⟩]
        · rw [if_neg h1]
          by_cases h2 : r = I ∧ i ≤ c ∧ c < J
          · rw [if_pos h2, if_pos ⟨h2.1, h2.2.1, by omega⟩]
          · rw [if_neg h2, if_neg]
            intro h3
            apply h2
            refine ⟨h3.1, h3.2.1, ?_⟩
            have : c ≠ J := fun e => h1 ⟨h3.1, e⟩
            omega)
    obtain ⟨kd, ke⟩ := key
    refine ⟨kd, fun r c => ?_⟩
    rw [ke r c]
    by_cases h2 : r = I ∧ i ≤ c ∧ c < size + 1
    · rw [if_pos h2, if_pos ⟨h2.1, h2.2.1, by omega⟩]
    · rw [if_neg h2, if_neg]
      intro h3
      exact h2 ⟨h3.1, h3.2.1, by omega⟩
  · rw [forLoop_empty _ _ _ _ (by omega)]
    refine ⟨h, fun r c => ?_⟩
    rw [if_neg]
    intro h3
    omega

theorem reduceOtherRows_spec {M : Mat} {size i : Nat} (h : Dims M size (size + 1))
    (hi : i < size) :
    Dims (reduceOtherRows size i M) size (size + 1) ∧
    ∀ r c, getEntry (reduceOtherRows size i M) r c =
      if i < r ∧ r < size ∧ i ≤ c ∧ c ≤ size
      then getEntry M r c - getEntry M r i * getEntry M i c
      else getEntry M r c := by
  unfold reduceOtherRows
  have key := forLoop_inv
    (fun I (M' : Mat) => Dims M' size (size + 1) ∧ ∀ r c, getEntry M' r c =
      if i < r ∧ r < I ∧ i ≤ c ∧ c ≤ size
      then getEntry M r c - getEntry M r i * getEntry M i c
      else getEntry M r c)
    (fun I M =>
      if getEntry M I i = 0 then M
      else
        let temp := getEntry M I i
        forLoop (fun J M => setEntry M I J (getEntry M I J + (-1) * temp * getEntry M i J))
          i (size + 1) M)
    (i + 1) size M (by omega)
    ⟨h, fun r c => by
      rw [if_neg]
      intro hh
      omega⟩
    (fun I M' hI1 hI2 hP => by
      obtain ⟨hd, he⟩ := hP
      have hn : ¬ (i < I ∧ I < I ∧ i ≤ i ∧ i ≤ size) := by omega
      have eIi : getEntry M' I i = getEntry M I i := by rw [he I i, if_neg hn]
      have eIc : ∀ c, getEntry M' I c = getEntry M I c := fun c => by
        rw [he I c, if_neg]; intro hh; omega
      have eic : ∀ c, getEntry M' i c = getEntry M i c := fun c => by
        rw [he i c, if_neg]; intro hh; omega
      by_cases hz : getEntry M' I i = 0
      · simp only [hz, if_true]
        refine ⟨hd, fun r c => ?_⟩
        rw [he r c]
        by_cases h2 : i < r ∧ r < I ∧ i ≤ c ∧ c ≤ size
        · rw [if_pos h2, if_pos ⟨h2.1, by omega, h2.2.2.1, h2.2.2.2⟩]
        · rw [if_neg h2]
          by_cases h3 : i < r ∧ r < I + 1 ∧ i ≤ c ∧ c ≤ size
          · rw [if_pos h3]
            have hr : r = I := by omega
            subst hr
            rw [← eIi, hz]
            ring
          · rw [if_neg h3]
      · simp only [hz, if_false]
        obtain ⟨sd, se⟩ := reduceRow_spec (i := i) hd hI2 (by omega) (getEntry M' I i)
        refine ⟨sd, fun r c => ?_⟩
        rw [se r c, he r c]
        by_cases h1 : r = I ∧ i ≤ c ∧ c ≤ size
        · obtain ⟨h1a, h1b, h1c⟩ := h1
          subst h1a
          rw [if_pos ⟨rfl, h1b, h1c⟩, if_pos ⟨by omega, by omega, h1b, h1c⟩, eIc, eic, eIi]
          ring
        · rw [if_neg h1]
          by_cases h2 : i < r ∧ r < I ∧ i ≤ c ∧ c ≤ size
          · rw [if_pos h2, if_pos ⟨h2.1, by omega, h2.2.2.1, h2.2.2.2⟩]
          · rw [if_neg h2, if_neg]
            intro h3
            have : r ≠ I := fun e => h1 ⟨e, h3.2.2.1, h3.2.2.2⟩
            apply h2
            exact ⟨h3.1, by omega, h3.2.2.1, h3.2.2.2⟩)
  exact key

/-! ## The pivot scan -/

theorem truncate_zero : truncate 0 = 0 := by
  simp [truncate]

theorem toInt_zero : toInt 0 = some 0 := by
  simp [toInt, truncate_zero]

theorem toInt_ne_zero {q : ℚ} {v : Int} (h : toInt q = some v) (hv : v ≠ 0) : q ≠ 0 := by
  intro hq
  subst hq
  rw [toInt_zero] at h
  exact hv (Option.some.inj h).symm

theorem toInt_abs_ne_zero {q : ℚ} {v : Int} (h : toInt |q| = some v) (hv : v ≠ 0) : q ≠ 0 := by
  intro hq
  exact toInt_ne_zero h hv (by simp [hq])

theorem findMaxRow_spec {M : Mat} {size i : Nat} (hi : i < size) {p : Nat × Int}
    (h : findMaxRow size i M = some p) :
    i ≤ p.1 ∧ p.1 < size ∧ (p.2 ≠ 0 → getEntry M p.1 i ≠ 0) := by
  unfold findMaxRow at h
  have key := forLoop_inv
    (fun (_ : Nat) (acc : Option (Nat × Int)) => ∀ st, acc = some st →
      i ≤ st.1 ∧ st.1 < size ∧ (st.2 ≠ 0 → getEntry M st.1 i ≠ 0))
    (fun k (acc : Option (Nat × Int)) =>
      acc.bind fun st =>
      (toInt |getEntry M k i|).bind fun abs_cur_val =>
        if abs_cur_val > st.2 then some (k, abs_cur_val) else some st)
    i size ((toInt (getEntry M i i)).map fun v => (i, v)) (by omega)
    (fun st hst => by
      cases hv : toInt (getEntry M i i) with
      | none => simp [hv] at hst
      | some v =>
        simp only [hv, Option.map_some', Option.some.injEq] at hst
        subst hst
        exact ⟨le_refl _, hi, fun hne => toInt_ne_zero hv hne⟩)
    (fun k acc hk1 hk2 hP st hst => by
      cases acc with
      | none => simp at hst
      | some st0 =>
        have h0 := hP st0 rfl
        cases hv : toInt |getEntry M k i| with
        | none => simp [hv] at hst
        | some a =>
          simp only [Option.some_bind, hv] at hst
          by_cases hgt : a > st0.2
          · rw [if_pos hgt] at hst
            have e : st = (k, a) := (Option.some.inj hst).symm
            subst e
            exact ⟨hk1, hk2, fun hne => toInt_abs_ne_zero hv hne⟩
          · rw [if_neg hgt] at hst
            have e : st = st0 := (Option.some.inj hst).symm
            subst e
            exact h0)
  exact key p h

theorem findMaxRow_zero_column {M : Mat} {size i : Nat} (hi : i < size)
    (hz : ∀ r, i ≤ r → r < size → getEntry M r i = 0) :
    findMaxRow size i M = some (i, 0) := by
  unfold findMaxRow
  have key := forLoop_inv
    (fun (_ : Nat) (acc : Option (Nat × Int)) => acc = some (i, 0))
    (fun k (acc : Option (Nat × Int)) =>
      acc.bind fun st =>
      (toInt |getEntry M k i|).bind fun abs_cur_val =>
        if abs_cur_val > st.2 then some (k, abs_cur_val) else some st)
    i size ((toInt (getEntry M i i)).map fun v => (i, v)) (by omega)
    (by rw [hz i (le_refl _) hi, toInt_zero]; rfl)
    (fun k acc hk1 hk2 hP => by
      rw [hP]
      simp only [Option.some_bind]
      rw [hz k hk1 hk2, abs_zero, toInt_zero]
      simp)
  exact key

/-! ## The invariant rule for `rref` -/

theorem rrefFrom_inv (P : Nat → Mat → Prop) (size : Nat)
    (hstep : ∀ i M p, i < size → P i M → findMaxRow size i M = some p → p.2 ≠ 0 →
      P (i + 1) (reduceOtherRows size i (reduceMaxRow size i (swapWithTop i p.1 M))))
    (n i : Nat) (M : Mat) (flag : Int) (Mf : Mat) (hn : i + n = size) (hP : P i M)
    (h : rrefFrom size n i M = some (flag, Mf)) :
    (flag = -1 ∧ P size Mf) ∨
    (∃ j : Nat, flag = (j : Int) ∧ i ≤ j ∧ j < size ∧ P j Mf ∧ findMaxRow size j Mf ≠ none ∧
      ∀ p, findMaxRow size j Mf = some p → p.2 = 0) := by
  induction n generalizing i M with
  | zero =>
    simp only [rrefFrom, Option.some.injEq, Prod.mk.injEq] at h
    obtain ⟨h1, h2⟩ := h
    left
    have e : i = size := by omega
    subst e
    subst h2
    exact ⟨h1.symm, hP⟩
  | succ m ih =>
    rw [rrefFrom] at h
    cases hp : findMaxRow size i M with
    | none => simp [hp] at h
    | some p =>
      simp only [hp, Option.some_bind] at h
      by_cases hz : p.2 = 0
      · rw [if_pos hz] at h
        simp only [Option.some.injEq, Prod.mk.injEq] at h
        obtain ⟨h1, h2⟩ := h
        subst h2
        right
        refine ⟨i, h1.symm, le_refl _, by omega, hP, by simp [hp], fun q hq => ?_⟩
        rw [hp] at hq
        rw [← Option.some.inj hq]
        exact hz
      · rw [if_neg hz] at h
        have hP' := hstep i M p (by omega) hP hp hz
        rcases ih (i + 1) _ (by omega) hP' h with h1 | ⟨j, h1, h2, h3, h4⟩
        · left; exact h1
        · right; exact ⟨j, h1, by omega, h3, h4⟩

/-! ## Row operations keep the solution set -/

theorem RowSat_congr {M M' : Mat} {n r r' : Nat} (x : Nat → ℚ)
    (h : ∀ c, c ≤ n → getEntry M' r c = getEntry M r' c) :
    RowSat M' n x r ↔ RowSat M n x r' := by
  unfold RowSat
  rw [h n (le_refl _)]
  have e : ∑ j in Finset.range n, getEntry M' r j * x j =
      ∑ j in Finset.range n, getEntry M r' j * x j := by
    apply Finset.sum_congr rfl
    intro j hj
    rw [h j (le_of_lt (Finset.mem_range.mp hj))]
  rw [e]

theorem RowSat_scale {M M' : Mat} {n r : Nat} (x : Nat → ℚ) {d : ℚ} (hd : d ≠ 0)
    (h : ∀ c, c ≤ n → getEntry M' r c = getEntry M r c / d) :
    RowSat M' n x r ↔ RowSat M n x r := by
  unfold RowSat
  rw [h n (le_refl _)]
  have e : ∑ j in Finset.range n, getEntry M' r j * x j =
      (∑ j in Finset.range n, getEntry M r j * x j) / d := by
    rw [Finset.sum_div]
    apply Finset.sum_congr rfl
    intro j hj
    rw [h j (le_of_lt (Finset.mem_range.mp hj))]
    ring
  rw [e]
  exact div_left_inj' hd

theorem RowSat_eliminate {M M' : Mat} {n r i : Nat} (x : Nat → ℚ) (t : ℚ)
    (hi : RowSat M n x i)
    (h : ∀ c, c ≤ n → getEntry M' r c = getEntry M r c - t * getEntry M i c) :
    RowSat M' n x r ↔ RowSat M n x r := by
  unfold RowSat at hi ⊢
  rw [h n (le_refl _)]
  have e : ∑ j in Finset.range n, getEntry M' r j * x j =
      (∑ j in Finset.range n, getEntry M r j * x j) -
        t * ∑ j in Finset.range n, getEntry M i j * x j := by
    rw [Finset.mul_sum, ← Finset.sum_sub_distrib]
    apply Finset.sum_congr rfl
    intro j hj
    rw [h j (le_of_lt (Finset.mem_range.mp hj))]
    ring
  rw [e, hi]
  constructor
  · intro hh; linarith
  · intro hh; linarith

theorem rrefStep_echelon {size i : Nat} {M : Mat} {p : Nat × Int} (hi : i < size)
    (hE : Echelon size i M) (hp : findMaxRow size i M = some p) (hz : p.2 ≠ 0) :
    Echelon size (i + 1) (reduceOtherRows size i (reduceMaxRow size i (swapWithTop i p.1 M))) ∧
    ∀ x, Solves (reduceOtherRows size i (reduceMaxRow size i (swapWithTop i p.1 M))) size x ↔
      Solves M size x := by
  obtain ⟨hD, hZ, hO⟩ := hE
  obtain ⟨hp1, hp2, hp3⟩ := findMaxRow_spec hi hp
  have hpiv := hp3 hz
  have hD1 := Dims_swapWithTop hD hi hp2
  have e1 := getEntry_swapWithTop hD hi hp2
  obtain ⟨hD2, e2⟩ := reduceMaxRow_spec hD1 hi
  obtain ⟨hD3, e3⟩ := reduceOtherRows_spec hD2 hi
  generalize swapWithTop i p.1 M = M1 at *
  generalize reduceMaxRow size i M1 = M2 at *
  generalize reduceOtherRows size i M2 = M3 at *
  have hd : getEntry M1 i i ≠ 0 := by
    rw [e1 i i, if_pos rfl]; exact hpiv
  -- zeros below the diagonal survive the swap
  have Z1 : ∀ r c, c < i → c < r → r < size → getEntry M1 r c = 0 := by
    intro r c hc hcr hr
    rw [e1 r c]
    by_cases h1 : r = i
    · rw [if_pos h1]; exact hZ p.1 c hc (by omega) hp2
    · rw [if_neg h1]
      by_cases h2 : r = p.1
      · rw [if_pos h2]; exact hZ i c hc hc hi
      · rw [if_neg h2]; exact hZ r c hc hcr hr
  -- the pivot row is divided by the pivot in every column
  have E2 : ∀ c, c ≤ size → getEntry M2 i c = getEntry M1 i c / getEntry M1 i i := by
    intro c hc
    rw [e2 i c]
    by_cases h1 : i ≤ c
    · rw [if_pos ⟨rfl, h1, hc⟩]
    · rw [if_neg (fun hh => h1 hh.2.1), Z1 i c (by omega) (by omega) hi]
      simp
  have E2' : ∀ r c, r ≠ i → getEntry M2 r c = getEntry M1 r c := by
    intro r c hr
    rw [e2 r c, if_neg (fun hh => hr hh.1)]
  have one : getEntry M2 i i = 1 := by
    rw [E2 i (le_of_lt hi)]; exact div_self hd
  have Z2 : ∀ c, c < i → getEntry M2 i c = 0 := by
    intro c hc
    rw [E2 c (by omega), Z1 i c hc hc hi]; simp
  -- the rows below lose a multiple of the pivot row in every column
  have E3 : ∀ r c, i < r → r < size → c ≤ size →
      getEntry M3 r c = getEntry M2 r c - getEntry M2 r i * getEntry M2 i c := by
    intro r c hr1 hr2 hc
    rw [e3 r c]
    by_cases h1 : i ≤ c
    · rw [if_pos ⟨hr1, hr2, h1, hc⟩]
    · rw [if_neg (fun hh => h1 hh.2.2.1), Z2 c (by omega)]
      ring
  have E3' : ∀ r c, r ≤ i → getEntry M3 r c = getEntry M2 r c := by
    intro r c hr
    rw [e3 r c, if_neg]
    intro hh; omega
  refine ⟨⟨hD3, ?_, ?_⟩, ?_⟩
  · intro r c hc hcr hr
    by_cases h1 : c < i
    · rw [e3 r c, if_neg (fun hh => by omega)]
      by_cases h2 : r = i
      · subst h2; exact Z2 c h1
      · rw [E2' r c h2]; exact Z1 r c h1 hcr hr
    · have hci : c = i := by omega
      subst hci
      rw [E3 r c hcr hr (by omega), one]
      ring
  · intro r hr
    by_cases h1 : r = i
    · subst h1
      rw [E3' r r (le_refl _)]; exact one
    · have hlt : r < i := by omega
      rw [E3' r r (by omega), E2' r r h1, e1 r r, if_neg h1, if_neg (by omega)]
      exact hO r hlt
  · intro x
    have S32 : Solves M3 size x ↔ Solves M2 size x := by
      have rowi : RowSat M3 size x i ↔ RowSat M2 size x i :=
        RowSat_congr x (fun c _ => E3' i c (le_refl _))
      constructor
      · intro hs r hr
        have hI := rowi.mp (hs i hi)
        by_cases h1 : r ≤ i
        · exact (RowSat_congr x (fun c _ => E3' r c h1)).mp (hs r hr)
        · exact (RowSat_eliminate x (getEntry M2 r i) hI
            (fun c hc => E3 r c (by omega) hr hc)).mp (hs r hr)
      · intro hs r hr
        have hI := hs i hi
        by_cases h1 : r ≤ i
        · exact (RowSat_congr x (fun c _ => E3' r c h1)).mpr (hs r hr)
        · exact (RowSat_eliminate x (getEntry M2 r i) hI
            (fun c hc => E3 r c (by omega) hr hc)).mpr (hs r hr)
    have S21 : Solves M2 size x ↔ Solves M1 size x := by
      have rows : ∀ r, r < size → (RowSat M2 size x r ↔ RowSat M1 size x r) := by
        intro r hr
        by_cases h1 : r = i
        · subst h1
          exact RowSat_scale x hd (fun c hc => E2 c hc)
        · exact RowSat_congr x (fun c _ => E2' r c h1)
      constructor
      · intro hs r hr; exact (rows r hr).mp (hs r hr)
      · intro hs r hr; exact (rows r hr).mpr (hs r hr)
    have S10 : Solves M1 size x ↔ Solves M size x := by
      have rows : ∀ r, (RowSat M1 size x r ↔
          RowSat M size x (if r = i then p.1 else if r = p.1 then i else r)) :=
        fun r => RowSat_congr x (fun c _ => e1 r c)
      constructor
      · intro hs r hr
        by_cases h1 : r = i
        · have := (rows p.1).mp (hs p.1 hp2)
          by_cases h2 : p.1 = i
          · rw [if_pos h2] at this; rw [h1, ← h2]; exact this
          · rw [if_neg h2, if_pos rfl] at this; rw [h1]; exact this
        · by_cases h2 : r = p.1
          · have := (rows i).mp (hs i hi)
            rw [if_pos rfl] at this; rw [h2]; exact this
          · have := (rows r).mp (hs r hr)
            rw [if_neg h1, if_neg h2] at this; exact this
      · intro hs r hr
        apply (rows r).mpr
        by_cases h1 : r = i
        · rw [if_pos h1]; exact hs p.1 hp2
        · rw [if_neg h1]
          by_cases h2 : r = p.1
          · rw [if_pos h2]; exact hs i hi
          · rw [if_neg h2]; exact hs r hr
    rw [S32, S21, S10]

/-! ## Back substitution -/

theorem backSubstitutioh_spec (size : Nat) (M : Mat) :
    (backSubstitutioh size M).length = size ∧
    ∀ i, i < size → vecOf (backSubstitutioh size M) i =
      (getEntry M i size - ∑ j in Finset.Ico (i + 1) size,
        getEntry M i j * vecOf (backSubstitutioh size M) j) / getEntry M i i := by
  unfold backSubstitutioh
  have key := forDown_inv
    (fun k (sol : List ℚ) => sol.length = size ∧ ∀ i, k ≤ i → i < size →
      vecOf sol i = (getEntry M i size - ∑ j in Finset.Ico (i + 1) size,
        getEntry M i j * vecOf sol j) / getEntry M i i)
    (fun i sol =>
      let sol1 := sol.set i (getEntry M i size)
      let sol2 := forLoop (fun j s => s.set i (s.getD i 0 - getEntry M i j * s.getD j 0))
        (i + 1) size sol1
      sol2.set i (sol2.getD i 0 / getEntry M i i))
    size (List.replicate size 10)
    ⟨by simp, fun i h1 h2 => by omega⟩
    (fun k sol hk hP => by
      obtain ⟨hlen, hrec⟩ := hP
      have inner := forLoop_inv
        (fun J (s : List ℚ) => s.length = size ∧ (∀ i, i ≠ k → s.getD i 0 = sol.getD i 0) ∧
          s.getD k 0 = getEntry M k size - ∑ j in Finset.Ico (k + 1) J,
            getEntry M k j * sol.getD j 0)
        (fun j s => s.set k (s.getD k 0 - getEntry M k j * s.getD j 0))
        (k + 1) size (sol.set k (getEntry M k size)) (by omega)
        ⟨by simp [hlen], fun i hi => by rw [getD_set, if_neg (fun hh => hi hh.1)], by
          rw [getD_set, if_pos ⟨rfl, by omega⟩]; simp⟩
        (fun J s hJ1 hJ2 hQ => by
          obtain ⟨q1, q2, q3⟩ := hQ
          refine ⟨by simp [q1], fun i hi => ?_, ?_⟩
          · rw [getD_set, if_neg (fun hh => hi hh.1)]; exact q2 i hi
          · rw [getD_set, if_pos ⟨rfl, by omega⟩, q3, q2 J (by omega),
              Finset.sum_Ico_succ_top (by omega)]
            ring)
      obtain ⟨i1, i2, i3⟩ := inner
      simp only
      generalize forLoop (fun j s => s.set k (s.getD k 0 - getEntry M k j * s.getD j 0))
        (k + 1) size (sol.set k (getEntry M k size)) = sol2 at *
      have hother : ∀ i, i ≠ k →
          vecOf (sol2.set k (sol2.getD k 0 / getEntry M k k)) i = vecOf sol i := by
        intro i hi
        unfold vecOf
        rw [getD_set, if_neg (fun hh => hi hh.1)]
        exact i2 i hi
      refine ⟨by simp [i1], fun i h1 h2 => ?_⟩
      have hsum : ∑ j in Finset.Ico (i + 1) size,
            getEntry M i j * vecOf (sol2.set k (sol2.getD k 0 / getEntry M k k)) j =
          ∑ j in Finset.Ico (i + 1) size, getEntry M i j * vecOf sol j := by
        apply Finset.sum_congr rfl
        intro j hj
        rw [hother j (by have := (Finset.mem_Ico.mp hj).1; omega)]
      rw [hsum]
      by_cases hik : i = k
      · subst hik
        unfold vecOf
        rw [getD_set, if_pos ⟨rfl, by omega⟩, i3]
      · rw [hother i hik]
        exact hrec i (by omega) h2)
  exact ⟨key.1, fun i hi => key.2 i (Nat.zero_le i) hi⟩

theorem backSubstitutioh_solves {size : Nat} {M : Mat} (hE : Echelon size size M) :
    Solves M size (vecOf (backSubstitutioh size M)) := by
  obtain ⟨_, hZ, hO⟩ := hE
  obtain ⟨_, hrec⟩ := backSubstitutioh_spec size M
  intro i hi
  unfold RowSat
  have hx := hrec i hi
  rw [hO i hi, div_one] at hx
  rw [Finset.range_eq_Ico, ← Finset.sum_Ico_consecutive _ (Nat.zero_le i) (le_of_lt hi),
    Finset.sum_eq_sum_Ico_succ_bot hi]
  have hz : ∑ j in Finset.Ico 0 i, getEntry M i j * vecOf (backSubstitutioh size M) j = 0 := by
    apply Finset.sum_eq_zero
    intro j hj
    have := (Finset.mem_Ico.mp hj).2
    rw [hZ i j (by omega) this hi]
    ring
  rw [hz, hO i hi, hx]
  ring

theorem echelon_unique {size : Nat} {M : Mat} (hE : Echelon size size M) (x y : Nat → ℚ)
    (hx : Solves M size x) (hy : Solves M size y) : ∀ i, i < size → y i = x i := by
  obtain ⟨_, hZ, hO⟩ := hE
  have split : ∀ (z : Nat → ℚ) i, i < size → RowSat M size z i →
      z i = getEntry M i size - ∑ j in Finset.Ico (i + 1) size, getEntry M i j * z j := by
    intro z i hi hr
    unfold RowSat at hr
    rw [Finset.range_eq_Ico, ← Finset.sum_Ico_consecutive _ (Nat.zero_le i) (le_of_lt hi),
      Finset.sum_eq_sum_Ico_succ_bot hi] at hr
    have hz : ∑ j in Finset.Ico 0 i, getEntry M i j * z j = 0 := by
      apply Finset.sum_eq_zero
      intro j hj
      have := (Finset.mem_Ico.mp hj).2
      rw [hZ i j (by omega) this hi]
      ring
    rw [hz, hO i hi] at hr
    linarith
  have main : ∀ k, ∀ i, size - k ≤ i → i < size → y i = x i := by
    intro k
    induction k with
    | zero => intro i h1 h2; omega
    | succ m ih =>
      intro i h1 h2
      rw [split y i h2 (hy i h2), split x i h2 (hx i h2)]
      have e : ∑ j in Finset.Ico (i + 1) size, getEntry M i j * y j =
          ∑ j in Finset.Ico (i + 1) size, getEntry M i j * x j := by
        apply Finset.sum_congr rfl
        intro j hj
        have hj' := Finset.mem_Ico.mp hj
        rw [ih j (by omega) hj'.2]
      rw [e]
  intro i hi
  exact main size i (by omega) hi

/-! ## `rref` and `guassianElimination` as a whole -/

theorem rref_echelon {size : Nat} {M Mf : Mat} {flag : Int} (hD : Dims M size (size + 1))
    (h : rref size M = some (flag, Mf)) :
    (flag = -1 ∧ Echelon size size Mf ∧ ∀ x, Solves Mf size x ↔ Solves M size x) ∨
    (∃ j : Nat, flag = (j : Int) ∧ j < size ∧ Echelon size j Mf ∧
      (∀ x, Solves Mf size x ↔ Solves M size x) ∧
      findMaxRow size j Mf ≠ none ∧ ∀ p, findMaxRow size j Mf = some p → p.2 = 0) := by
  have key := rrefFrom_inv
    (fun i M' => Echelon size i M' ∧ ∀ x, Solves M' size x ↔ Solves M size x) size
    (fun i M' p hi hP hp hz => by
      obtain ⟨hE, hS⟩ := hP
      obtain ⟨hE', hS'⟩ := rrefStep_echelon hi hE hp hz
      exact ⟨hE', fun x => (hS' x).trans (hS x)⟩)
    size 0 M flag Mf (by omega)
    ⟨⟨hD, fun r c hc => by omega, fun r hr => by omega⟩, fun x => Iff.rfl⟩ h
  rcases key with ⟨h1, h2, h3⟩ | ⟨j, h1, _, h3, ⟨h4, h5⟩, h6, h7⟩
  · left; exact ⟨h1, h2, h3⟩
  · right; exact ⟨j, h1, h3, h4, h5, h6, h7⟩

/-! ## Assembly: the blocks of `createSparseMatrix` -/

theorem fillRow_spec (f : Nat → ℚ) {M : Mat} {R C : Nat} (hD : Dims M R C) {i c0 c1 : Nat}
    (hi : i < R) (hc : c0 ≤ c1) (hC : c1 ≤ C) :
    Dims (forLoop (fun j (st2 : Mat × Nat) => (setEntry st2.1 i j (f st2.2), st2.2 + 1))
      c0 c1 (M, 0)).1 R C ∧
    ∀ r c, getEntry (forLoop (fun j (st2 : Mat × Nat) =>
        (setEntry st2.1 i j (f st2.2), st2.2 + 1)) c0 c1 (M, 0)).1 r c =
      if r = i ∧ c0 ≤ c ∧ c < c1 then f (c - c0) else getEntry M r c := by
  have key := forLoop_inv
    (fun j (st2 : Mat × Nat) => st2.2 = j - c0 ∧ Dims st2.1 R C ∧
      ∀ r c, getEntry st2.1 r c =
        if r = i ∧ c0 ≤ c ∧ c < j then f (c - c0) else getEntry M r c)
    (fun j (st2 : Mat × Nat) => (setEntry st2.1 i j (f st2.2), st2.2 + 1))
    c0 c1 (M, 0) hc
    ⟨by simp, hD, fun r c => by rw [if_neg]; intro hh; omega⟩
    (fun j st2 hj1 hj2 hP => by
      obtain ⟨hl, hd, he⟩ := hP
      refine ⟨by simp only [hl]; omega, Dims_setEntry hd _ _ _, fun r c => ?_⟩
      simp only
      rw [getEntry_setEntry_of_dims hd hi (by omega), he r c, hl]
      by_cases h1 : r = i ∧ c = j
      · obtain ⟨h1a, h1b⟩ := h1
        subst h1a; subst h1b
        rw [if_pos ⟨rfl, rfl⟩, if_pos ⟨rfl, hj1, by omega⟩]
      · rw [if_neg h1]
        by_cases h2 : r = i ∧ c0 ≤ c ∧ c < j
        · rw [if_pos h2, if_pos ⟨h2.1, h2.2.1, by omega⟩]
        · rw [if_neg h2, if_neg]
          intro h3
          apply h2
          refine ⟨h3.1, h3.2.1, ?_⟩
          have : c ≠ j := fun e => h1 ⟨h3.1, e⟩
          omega)
  exact ⟨key.2.1, key.2.2⟩

theorem fillBlock_spec (f : Nat → Nat → ℚ) {M : Mat} {R C : Nat} (hD : Dims M R C)
    (r0 r1 c0 c1 : Nat) (hr : r0 ≤ r1) (hR : r1 ≤ R) (hc : c0 ≤ c1) (hC : c1 ≤ C) :
    Dims (forLoop (fun i (st : Mat × Nat) =>
      ((forLoop (fun j (st2 : Mat × Nat) => (setEntry st2.1 i j (f st.2 st2.2), st2.2 + 1))
        c0 c1 (st.1, 0)).1, st.2 + 1)) r0 r1 (M, 0)).1 R C ∧
    ∀ r c, getEntry (forLoop (fun i (st : Mat × Nat) =>
      ((forLoop (fun j (st2 : Mat × Nat) => (setEntry st2.1 i j (f st.2 st2.2), st2.2 + 1))
        c0 c1 (st.1, 0)).1, st.2 + 1)) r0 r1 (M, 0)).1 r c =
      if r0 ≤ r ∧ r < r1 ∧ c0 ≤ c ∧ c < c1 then f (r - r0) (c - c0) else getEntry M r c := by
  have key := forLoop_inv
    (fun i (st : Mat × Nat) => st.2 = i - r0 ∧ Dims st.1 R C ∧
      ∀ r c, getEntry st.1 r c =
        if r0 ≤ r ∧ r < i ∧ c0 ≤ c ∧ c < c1 then f (r - r0) (c - c0) else getEntry M r c)
    (fun i (st : Mat × Nat) =>
      ((forLoop (fun j (st2 : Mat × Nat) => (setEntry st2.1 i j (f st.2 st2.2), st2.2 + 1))
        c0 c1 (st.1, 0)).1, st.2 + 1))
    r0 r1 (M, 0) hr
    ⟨by simp, hD, fun r c => by rw [if_neg]; intro hh; omega⟩
    (fun i st hi1 hi2 hP => by
      obtain ⟨hk, hd, he⟩ := hP
      obtain ⟨fd, fe⟩ := fillRow_spec (f st.2) hd (i := i) (by omega) hc hC
      refine ⟨by simp only [hk]; omega, fd, fun r c => ?_⟩
      simp only
      rw [fe r c, he r c, hk]
      by_cases h1 : r = i ∧ c0 ≤ c ∧ c < c1
      · obtain ⟨h1a, h1b, h1c⟩ := h1
        subst h1a
        rw [if_pos ⟨rfl, h1b, h1c⟩, if_pos ⟨hi1, by omega, h1b, h1c⟩]
      · rw [if_neg h1]
        by_cases h2 : r0 ≤ r ∧ r < i ∧ c0 ≤ c ∧ c < c1
        · rw [if_pos h2, if_pos ⟨h2.1, by omega, h2.2.2.1, h2.2.2.2⟩]
        · rw [if_neg h2, if_neg]
          intro h3
          have : r ≠ i := fun e => h1 ⟨e, h3.2.2.1, h3.2.2.2⟩
          exact h2 ⟨h3.1, by omega, h3.2.2.1, h3.2.2.2⟩)
  exact ⟨key.2.1, key.2.2⟩

theorem fillDiag_spec (v : ℚ) {M : Mat} {R C : Nat} (hD : Dims M R C) (lo hi : Nat)
    (hle : lo ≤ hi) (hR : hi ≤ R) (hC : hi ≤ C) :
    Dims (forLoop (fun i M => setEntry M i i v) lo hi M) R C ∧
    ∀ r c, getEntry (forLoop (fun i M => setEntry M i i v) lo hi M) r c =
      if r = c ∧ lo ≤ r ∧ r < hi then v else getEntry M r c := by
  have key := forLoop_inv
    (fun i (M' : Mat) => Dims M' R C ∧ ∀ r c, getEntry M' r c =
      if r = c ∧ lo ≤ r ∧ r < i then v else getEntry M r c)
    (fun i M => setEntry M i i v) lo hi M hle
    ⟨hD, fun r c => by rw [if_neg]; intro hh; omega⟩
    (fun i M' hi1 hi2 hP => by
      obtain ⟨hd, he⟩ := hP
      refine ⟨Dims_setEntry hd _ _ _, fun r c => ?_⟩
      rw [getEntry_setEntry_of_dims hd (by omega) (by omega), he r c]
      by_cases h1 : r = i ∧ c = i
      · obtain ⟨h1a, h1b⟩ := h1
        subst h1a; subst h1b
        rw [if_pos ⟨rfl, rfl⟩, if_pos ⟨rfl, hi1, by omega⟩]
      · rw [if_neg h1]
        by_cases h2 : r = c ∧ lo ≤ r ∧ r < i
        · rw [if_pos h2, if_pos ⟨h2.1, h2.2.1, by omega⟩]
        · rw [if_neg h2, if_neg]
          intro h3
          apply h2
          refine ⟨h3.1, h3.2.1, ?_⟩
          have : r ≠ i := fun e => h1 ⟨e, by omega⟩
          omega)
  exact key

theorem createSparseMatrix_spec (N B : Nat) (inc vol cur : Mat) :
    Dims (createSparseMatrix N B (N + B * 2) inc vol cur) (N + B * 2) (N + B * 2) ∧
    ∀ r c, getEntry (createSparseMatrix N B (N + B * 2) inc vol cur) r c =
      if r < N then
        (if N + B ≤ c ∧ c < N + B * 2 then getEntry inc r (c - (N + B)) else 0)
      else if r < N + B then
        (if c < N then getEntry inc c (r - N) * (-1) else if c = r then 1 else 0)
      else if r < N + B * 2 then
        (if N + B ≤ c ∧ c < N + B * 2 then getEntry cur (r - (N + B)) (c - (N + B))
         else if N ≤ c ∧ c < N + B then getEntry vol (r - (N + B)) (c - N) else 0)
      else 0 := by
  unfold createSparseMatrix
  simp only
  obtain ⟨d1, e1⟩ := fillBlock_spec (fun k l => getEntry inc k l)
    (Dims_zeros (N + B * 2) (N + B * 2))
    0 N (N + B) (N + B * 2)
    (by omega) (by omega) (by omega) (by omega)
  generalize (forLoop (fun i (st : Mat × Nat) =>
      ((forLoop (fun j (st2 : Mat × Nat) =>
          (setEntry st2.1 i j (getEntry inc st.2 st2.2), st2.2 + 1))
        (N + B) (N + B * 2) (st.1, 0)).1, st.2 + 1))
    0 N (zeros (N + B * 2) (N + B * 2), 0)).1 = M1 at *
  obtain ⟨d2, e2⟩ := fillBlock_spec (fun k l => getEntry inc l k * (-1)) d1
    N (N + B) 0 N
    (by omega) (by omega) (by omega) (by omega)
  generalize (forLoop (fun i (st : Mat × Nat) =>
      ((forLoop (fun j (st2 : Mat × Nat) =>
          (setEntry st2.1 i j (getEntry inc st2.2 st.2 * (-1)), st2.2 + 1))
        0 N (st.1, 0)).1, st.2 + 1))
    N (N + B) (M1, 0)).1 = M2 at *
  obtain ⟨d3, e3⟩ := fillDiag_spec 1 d2 N (N + B)
    (by omega) (by omega) (by omega)
  generalize forLoop (fun i M => setEntry M i i 1) N (N + B) M2 = M3 at *
  obtain ⟨d4, e4⟩ := fillBlock_spec (fun k l => getEntry vol k l) d3
    (N + B) (N + B * 2) N (N + B)
    (by omega) (by omega) (by omega) (by omega)
  generalize (forLoop (fun i (st : Mat × Nat) =>
      ((forLoop (fun j (st2 : Mat × Nat) =>
          (setEntry st2.1 i j (getEntry vol st.2 st2.2), st2.2 + 1))
        N (N + B) (st.1, 0)).1, st.2 + 1))
    (N + B) (N + B * 2) (M3, 0)).1 = M4 at *
  obtain ⟨d5, e5⟩ := fillBlock_spec (fun k l => getEntry cur k l) d4
    (N + B) (N + B * 2) (N + B) (N + B * 2)
    (by omega) (by omega) (by omega) (by omega)
  refine ⟨d5, fun r c => ?_⟩
  rw [e5 r c, e4 r c, e3 r c, e2 r c, e1 r c, getEntry_zeros]
  simp only [Nat.sub_zero]
  split_ifs <;> first | rfl | (exfalso; omega)

/-! ## Assembly: the coefficient matrices -/

theorem createVoltageCoefMartix_spec (B : Nat) :
    Dims (createVoltageCoefMartix B) B B ∧
    ∀ r c, getEntry (createVoltageCoefMartix B) r c = if r = c ∧ r < B then 1 else 0 := by
  unfold createVoltageCoefMartix
  obtain ⟨d, e⟩ := fillDiag_spec 1 (Dims_zeros B B) 0 B
    (by omega) (by omega) (by omega)
  refine ⟨d, fun r c => ?_⟩
  rw [e r c, getEntry_zeros]
  by_cases h : r = c ∧ r < B
  · rw [if_pos h, if_pos ⟨h.1, by omega, h.2⟩]
  · rw [if_neg h, if_neg (fun hh => h ⟨hh.1, hh.2.2⟩)]

theorem largestNode_foldl_ge (l : List Component) (a : Int) :
    a ≤ l.foldl (fun numNodes c => max numNodes (max c.sourceNode c.destNode)) a ∧
    ∀ c, c ∈ l → c.sourceNode ≤
        l.foldl (fun numNodes c => max numNodes (max c.sourceNode c.destNode)) a ∧
      c.destNode ≤ l.foldl (fun numNodes c => max numNodes (max c.sourceNode c.destNode)) a := by
  induction l generalizing a with
  | nil => simp
  | cons hd tl ih =>
    simp only [List.foldl_cons]
    obtain ⟨h1, h2⟩ := ih (max a (max hd.sourceNode hd.destNode))
    refine ⟨le_trans (le_max_left _ _) h1, fun c hc => ?_⟩
    rcases List.mem_cons.mp hc with e | hm
    · subst e
      exact ⟨le_trans (le_trans (le_max_left _ _) (le_max_right _ _)) h1,
        le_trans (le_trans (le_max_right _ _) (le_max_right _ _)) h1⟩
    · exact h2 c hm

theorem largestNode_spec (components : List Component) :
    0 ≤ largestNode components ∧
    ∀ c, c ∈ components → c.sourceNode ≤ ((largestNode components).toNat : Int) ∧
      c.destNode ≤ ((largestNode components).toNat : Int) := by
  obtain ⟨h1, h2⟩ := largestNode_foldl_ge components 0
  refine ⟨h1, fun c hc => ?_⟩
  have := h2 c hc
  unfold largestNode
  rw [Int.toNat_of_nonneg h1]
  exact this

/-! ## Assembly: the matrices that read the components -/

theorem createCurrentCoefMatrix_spec (components : List Component) :
    match createCurrentCoefMatrix components components.length with
    | none => ∃ c, c ∈ components ∧ firstChar c.ident = none
    | some cur =>
      (∀ c, c ∈ components → firstChar c.ident ≠ none) ∧
      Dims cur components.length components.length ∧
      ∀ r c, getEntry cur r c =
        if r = c then (match components.get? r with
          | none => 0
          | some comp => currentCoef comp) else 0 := by
  unfold createCurrentCoefMatrix
  have key := forLoop_inv
    (fun i (acc : Option Mat) =>
      match acc with
      | none => ∃ c, c ∈ components ∧ firstChar c.ident = none
      | some cur =>
        (∀ b comp, b < i → components.get? b = some comp → firstChar comp.ident ≠ none) ∧
        Dims cur components.length components.length ∧
        ∀ r c, getEntry cur r c =
          if r = c ∧ r < i then (match components.get? r with
            | none => 0
            | some comp => currentCoef comp) else 0)
    (fun i (acc : Option Mat) =>
      acc.bind fun M =>
      (components.get? i).bind fun comp =>
      (firstChar comp.ident).bind fun componentType =>
        if componentType = 'V' then some (setEntry M i i 0)
        else if componentType = 'R' then some (setEntry M i i (comp.value * (-1)))
        else some M)
    0 components.length (some (zeros components.length components.length)) (by omega)
    ⟨fun b comp hb => by omega, Dims_zeros _ _, fun r c => by
      rw [getEntry_zeros, if_neg]; intro hh; omega⟩
    (fun i acc hi1 hi2 hP => by
      cases acc with
      | none => exact hP
      | some M =>
        obtain ⟨hg, hd, he⟩ := hP
        have hget : components.get? i = some (components.get ⟨i, hi2⟩) := List.get?_eq_get hi2
        generalize components.get ⟨i, hi2⟩ = comp at hget
        simp only [Option.some_bind, hget]
        cases hch : firstChar comp.ident with
        | none =>
          simp only [Option.none_bind]
          exact ⟨comp, List.get?_mem hget, hch⟩
        | some ch =>
          simp only [Option.some_bind]
          have hgood : ∀ b comp', b < i + 1 → components.get? b = some comp' →
              firstChar comp'.ident ≠ none := by
            intro b comp' hb hb'
            by_cases hbi : b = i
            · subst hbi
              rw [hget] at hb'
              rw [← Option.some.inj hb', hch]
              simp
            · exact hg b comp' (by omega) hb'
          have hentry : ∀ (v : ℚ), v = currentCoef comp → ∀ r c,
              (if r = i ∧ c = i then v else getEntry M r c) =
              if r = c ∧ r < i + 1 then (match components.get? r with
                | none => 0
                | some comp => currentCoef comp) else 0 := by
            intro v hv r c
            rw [he r c]
            by_cases h1 : r = i ∧ c = i
            · obtain ⟨h1a, h1b⟩ := h1
              subst h1a; subst h1b
              rw [if_pos ⟨rfl, rfl⟩, if_pos ⟨rfl, by omega⟩, hget]
              exact hv
            · rw [if_neg h1]
              by_cases h2 : r = c ∧ r < i
              · rw [if_pos h2, if_pos ⟨h2.1, by omega⟩]
              · rw [if_neg h2, if_neg]
                intro h3
                have : r ≠ i := fun e => h1 ⟨e, by omega⟩
                exact h2 ⟨h3.1, by omega⟩
          by_cases hV : ch = 'V'
          · rw [if_pos hV]
            refine ⟨hgood, Dims_setEntry hd _ _ _, fun r c => ?_⟩
            rw [getEntry_setEntry_of_dims hd hi2 hi2]
            exact hentry 0 (by simp [currentCoef, hch, hV]) r c
          · rw [if_neg hV]
            by_cases hR : ch = 'R'
            · rw [if_pos hR]
              refine ⟨hgood, Dims_setEntry hd _ _ _, fun r c => ?_⟩
              rw [getEntry_setEntry_of_dims hd hi2 hi2]
              exact hentry _ (by simp [currentCoef, hch, hR]) r c
            · rw [if_neg hR]
              refine ⟨hgood, hd, fun r c => ?_⟩
              have := hentry (getEntry M i i) (by
                rw [he i i, if_neg (by omega)]
                simp [currentCoef, hch, hV, hR]) r c
              rw [← this]
              by_cases h1 : r = i ∧ c = i
              · rw [if_pos h1, h1.1, h1.2]
              · rw [if_neg h1])
  revert key
  generalize forLoop _ 0 components.length (some (zeros components.length components.length)) = res
  intro key
  cases res with
  | none => exact key
  | some cur =>
    obtain ⟨hg, hd, he⟩ := key
    refine ⟨fun c hc => ?_, hd, fun r c => ?_⟩
    · obtain ⟨n, hn⟩ := List.mem_iff_get?.mp hc
      have hlt : n < components.length := by
        by_contra hcon
        rw [List.get?_eq_none.mpr (by omega)] at hn
        simp at hn
      exact hg n c hlt hn
    · rw [he r c]
      by_cases h1 : r = c
      · rw [if_pos h1]
        by_cases h2 : r < components.length
        · rw [if_pos ⟨h1, h2⟩]
        · rw [if_neg (fun hh => h2 hh.2), List.get?_eq_none.mpr (by omega)]
      · rw [if_neg h1, if_neg (fun hh => h1 hh.1)]

theorem stamp_spec {M : Mat} {N B : Nat} (hD : Dims M N B) {node : Int} (h1 : 1 ≤ node)
    (h2 : node ≤ N) {branch : Nat} (hb : branch < B) (v : ℚ) :
    Dims (setEntry M (node - 1).toNat branch v) N B ∧
    ∀ r c, getEntry (setEntry M (node - 1).toNat branch v) r c =
      if c = branch ∧ node = (r : Int) + 1 then v else getEntry M r c := by
  refine ⟨Dims_setEntry hD _ _ _, fun r c => ?_⟩
  rw [getEntry_setEntry_of_dims hD (r := (node - 1).toNat) (c := branch) (by omega) hb]
  by_cases h : c = branch ∧ node = (r : Int) + 1
  · rw [if_pos h, if_pos ⟨by omega, h.1⟩]
  · rw [if_neg h, if_neg]
    intro hh
    apply h
    refine ⟨hh.2, ?_⟩
    omega

theorem incidence_body (components : List Component) (N branch : Nat) (comp : Component)
    (hget : components.get? branch = some comp) (j : Nat) (M : Mat) :
    ((some M : Option Mat).bind fun M =>
      (components.get? branch).bind fun comp =>
        let node := nodeToken comp j
        if node ≠ 0 then
          let val : ℚ := if j = 1 then 1 else -1
          if 1 ≤ node ∧ node ≤ N then
            some (setEntry M (node - 1).toNat branch val)
          else none
        else some M) =
    if nodeToken comp j = 0 then some M
    else if 1 ≤ nodeToken comp j ∧ nodeToken comp j ≤ N then
      some (setEntry M (nodeToken comp j - 1).toNat branch (if j = 1 then 1 else -1))
    else none := by
  simp only [Option.some_bind, hget]
  by_cases h : nodeToken comp j = 0
  · simp [h]
  · simp [h]

theorem incidence_inner (components : List Component) (N B branch : Nat) (comp : Component)
    (hget : components.get? branch = some comp) (M : Mat) (hD : Dims M N B) (hb : branch < B)
    (hs : comp.sourceNode ≤ N) (hd : comp.destNode ≤ N) :
    match forLoop (fun j (acc : Option Mat) =>
      acc.bind fun M =>
      (components.get? branch).bind fun comp =>
        let node := nodeToken comp j
        if node ≠ 0 then
          let val : ℚ := if j = 1 then 1 else -1
          if 1 ≤ node ∧ node ≤ N then
            some (setEntry M (node - 1).toNat branch val)
          else none
        else some M) 1 3 (some M) with
    | none => ¬ (0 ≤ comp.sourceNode ∧ 0 ≤ comp.destNode)
    | some M' => 0 ≤ comp.sourceNode ∧ 0 ≤ comp.destNode ∧ Dims M' N B ∧
        ∀ r c, getEntry M' r c =
          if c = branch ∧ comp.destNode = (r : Int) + 1 then -1
          else if c = branch ∧ comp.sourceNode = (r : Int) + 1 then 1
          else getEntry M r c := by
  have unroll : ∀ (body : Nat → Option Mat → Option Mat) (s : Option Mat),
      forLoop body 1 3 s = body 2 (body 1 s) := fun body s => rfl
  generalize hbody : (fun j (acc : Option Mat) =>
      acc.bind fun M =>
      (components.get? branch).bind fun comp =>
        let node := nodeToken comp j
        if node ≠ 0 then
          let val : ℚ := if j = 1 then 1 else -1
          if 1 ≤ node ∧ node ≤ N then
            some (setEntry M (node - 1).toNat branch val)
          else none
        else some M) = body
  have hb1 : ∀ j M, body j (some M) =
      if nodeToken comp j = 0 then some M
      else if 1 ≤ nodeToken comp j ∧ nodeToken comp j ≤ N then
        some (setEntry M (nodeToken comp j - 1).toNat branch (if j = 1 then 1 else -1))
      else none := by
    intro j M
    rw [← hbody]
    exact incidence_body components N branch comp hget j M
  have hb0 : ∀ j, body j none = none := by
    intro j
    rw [← hbody]
    rfl
  rw [unroll, hb1 1 M]
  have n1 : nodeToken comp 1 = comp.sourceNode := by simp [nodeToken]
  have n2 : nodeToken comp 2 = comp.destNode := by simp [nodeToken]
  rw [n1]
  by_cases hs0 : comp.sourceNode = 0
  · rw [if_pos hs0, hb1 2 M, n2]
    by_cases hd0 : comp.destNode = 0
    · rw [if_pos hd0]
      refine ⟨by omega, by omega, hD, fun r c => ?_⟩
      have hn1 : ¬ (c = branch ∧ comp.destNode = (r : Int) + 1) := by omega
      have hn2 : ¬ (c = branch ∧ comp.sourceNode = (r : Int) + 1) := by omega
      rw [if_neg hn1, if_neg hn2]
    · rw [if_neg hd0]
      by_cases hd1 : 1 ≤ comp.destNode ∧ comp.destNode ≤ N
      · rw [if_pos hd1]
        obtain ⟨sd, se⟩ := stamp_spec hD hd1.1 hd1.2 hb (if 2 = 1 then 1 else -1)
        refine ⟨by omega, by omega, sd, fun r c => ?_⟩
        rw [se r c]
        by_cases h1 : c = branch ∧ comp.destNode = (r : Int) + 1
        · rw [if_pos h1, if_pos h1]; norm_num
        · have hn2 : ¬ (c = branch ∧ comp.sourceNode = (r : Int) + 1) := by omega
          rw [if_neg h1, if_neg h1, if_neg hn2]
      · rw [if_neg hd1]
        show ¬ (0 ≤ comp.sourceNode ∧ 0 ≤ comp.destNode)
        omega
  · rw [if_neg hs0]
    by_cases hs1 : 1 ≤ comp.sourceNode ∧ comp.sourceNode ≤ N
    · rw [if_pos hs1, hb1 2 _, n2]
      obtain ⟨sd1, se1⟩ := stamp_spec hD hs1.1 hs1.2 hb (if 1 = 1 then 1 else -1)
      by_cases hd0 : comp.destNode = 0
      · rw [if_pos hd0]
        refine ⟨by omega, by omega, sd1, fun r c => ?_⟩
        have hn : ¬ (c = branch ∧ comp.destNode = (r : Int) + 1) := by omega
        rw [se1 r c, if_neg hn]
        by_cases h1 : c = branch ∧ comp.sourceNode = (r : Int) + 1
        · rw [if_pos h1, if_pos h1]; norm_num
        · rw [if_neg h1, if_neg h1]
      · rw [if_neg hd0]
        by_cases hd1 : 1 ≤ comp.destNode ∧ comp.destNode ≤ N
        · rw [if_pos hd1]
          obtain ⟨sd, se⟩ := stamp_spec sd1 hd1.1 hd1.2 hb (if 2 = 1 then 1 else -1)
          refine ⟨by omega, by omega, sd, fun r c => ?_⟩
          rw [se r c, se1 r c]
          by_cases h1 : c = branch ∧ comp.destNode = (r : Int) + 1
          · rw [if_pos h1, if_pos h1]; norm_num
          · rw [if_neg h1, if_neg h1]
            by_cases h2 : c = branch ∧ comp.sourceNode = (r : Int) + 1
            · rw [if_pos h2, if_pos h2]; norm_num
            · rw [if_neg h2, if_neg h2]
        · rw [if_neg hd1]
          show ¬ (0 ≤ comp.sourceNode ∧ 0 ≤ comp.destNode)
          omega
    · rw [if_neg hs1, hb0 2]
      show ¬ (0 ≤ comp.sourceNode ∧ 0 ≤ comp.destNode)
      omega

theorem createIncidenceMatrix_spec (components : List Component) (N : Nat)
    (hN : ∀ c, c ∈ components → c.sourceNode ≤ N ∧ c.destNode ≤ N) :
    match createIncidenceMatrix components N components.length with
    | none => ∃ c, c ∈ components ∧ ¬ (0 ≤ c.sourceNode ∧ 0 ≤ c.destNode)
    | some A =>
      (∀ c, c ∈ components → 0 ≤ c.sourceNode ∧ 0 ≤ c.destNode) ∧
      Dims A N components.length ∧
      ∀ r b, getEntry A r b = incidenceEntry components r b := by
  unfold createIncidenceMatrix
  have key := forLoop_inv
    (fun branch (acc : Option Mat) =>
      match acc with
      | none => ∃ c, c ∈ components ∧ ¬ (0 ≤ c.sourceNode ∧ 0 ≤ c.destNode)
      | some A =>
        (∀ b comp, b < branch → components.get? b = some comp →
          0 ≤ comp.sourceNode ∧ 0 ≤ comp.destNode) ∧
        Dims A N components.length ∧
        ∀ r c, getEntry A r c = if c < branch then incidenceEntry components r c else 0)
    (fun branch (acc : Option Mat) =>
      forLoop (fun j (acc : Option Mat) =>
        acc.bind fun M =>
        (components.get? branch).bind fun comp =>
          let node := nodeToken comp j
          if node ≠ 0 then
            let val : ℚ := if j = 1 then 1 else -1
            if 1 ≤ node ∧ node ≤ N then
              some (setEntry M (node - 1).toNat branch val)
            else none
          else some M) 1 3 acc)
    0 components.length (some (zeros N components.length)) (by omega)
    ⟨fun b comp hb => by omega, Dims_zeros _ _, fun r c => by
      rw [getEntry_zeros, if_neg]; omega⟩
    (fun i acc hi1 hi2 hP => by
      cases acc with
      | none => exact hP
      | some M =>
        obtain ⟨hg, hd, he⟩ := hP
        have hget : components.get? i = some (components.get ⟨i, hi2⟩) := List.get?_eq_get hi2
        generalize components.get ⟨i, hi2⟩ = comp at hget
        have hmem := List.get?_mem hget
        have inner := incidence_inner components N components.length i comp hget M hd hi2
          (hN comp hmem).1 (hN comp hmem).2
        simp only
        revert inner
        generalize forLoop _ 1 3 (some M) = res
        intro inner
        cases res with
        | none => exact ⟨comp, hmem, inner⟩
        | some M' =>
          obtain ⟨g1, g2, d', e'⟩ := inner
          refine ⟨fun b comp' hb hb' => ?_, d', fun r c => ?_⟩
          · by_cases hbi : b = i
            · subst hbi
              rw [hget] at hb'
              rw [← Option.some.inj hb']
              exact ⟨g1, g2⟩
            · exact hg b comp' (by omega) hb'
          · rw [e' r c, he r c]
            by_cases hci : c = i
            · subst hci
              have hcc : c < c + 1 := by omega
              have hcn : ¬ c < c := by omega
              rw [if_pos hcc, if_neg hcn]
              unfold incidenceEntry
              rw [hget]
              simp only [true_and]
            · have hn1 : ¬ (c = i ∧ comp.destNode = (r : Int) + 1) := fun hh => hci hh.1
              have hn2 : ¬ (c = i ∧ comp.sourceNode = (r : Int) + 1) := fun hh => hci hh.1
              rw [if_neg hn1, if_neg hn2]
              by_cases hlt : c < i
              · rw [if_pos hlt, if_pos (by omega)]
              · rw [if_neg hlt, if_neg (by omega)])
  revert key
  generalize forLoop _ 0 components.length (some (zeros N components.length)) = res
  intro key
  cases res with
  | none => exact key
  | some A =>
    obtain ⟨hg, hd, he⟩ := key
    refine ⟨fun c hc => ?_, hd, fun r b => ?_⟩
    · obtain ⟨n, hn⟩ := List.mem_iff_get?.mp hc
      have hlt : n < components.length := by
        by_contra hcon
        rw [List.get?_eq_none.mpr (by omega)] at hn
        simp at hn
      exact hg n c hlt hn
    · rw [he r b]
      by_cases h2 : b < components.length
      · rw [if_pos h2]
      · rw [if_neg h2]
        unfold incidenceEntry
        rw [List.get?_eq_none.mpr (by omega)]

theorem toInt_eq_some {q : ℚ} {v : Int} (h : toInt q = some v) : v = truncate q := by
  unfold toInt at h
  by_cases hc : -2147483648 ≤ truncate q ∧ truncate q ≤ 2147483647
  · rw [if_pos hc] at h
    exact (Option.some.inj h).symm
  · rw [if_neg hc] at h
    simp at h

theorem getD_append_single (l : List ℚ) (v : ℚ) (c : Nat) :
    (l ++ [v]).getD c 0 = if c < l.length then l.getD c 0 else if c = l.length then v else 0 := by
  simp only [List.getD_eq_getElem?_getD, List.getElem?_append]
  by_cases h : c < l.length
  · rw [if_pos h, if_pos h]
  · rw [if_neg h, if_neg h]
    by_cases h2 : c = l.length
    · rw [if_pos h2, h2]; simp
    · rw [if_neg h2]
      have : 1 ≤ c - l.length := by omega
      rw [List.getElem?_eq_none (by simpa using this)]
      rfl

theorem row_pushBack (M : Mat) (i r : Nat) (v : ℚ) :
    (pushBack M i v).getD r [] =
      if r = i ∧ i < M.length then M.getD i [] ++ [v] else M.getD r [] := by
  unfold pushBack
  exact row_set M i r _

theorem appendInput_spec (components : List Component) (N : Nat) (S : Mat)
    (hD : Dims S (N + components.length * 2) (N + components.length * 2)) :
    match appendInputToSpareMatrix components N components.length S with
    | none => ∃ c, c ∈ components ∧
        (firstChar c.ident = none ∨ (firstChar c.ident = some 'V' ∧ toInt c.value = none))
    | some T =>
      (∀ c, c ∈ components → firstChar c.ident ≠ none ∧
        (firstChar c.ident = some 'V' → toInt c.value ≠ none)) ∧
      Dims T (N + components.length * 2) (N + components.length * 2 + 1) ∧
      ∀ r c, r < N + components.length * 2 → getEntry T r c =
        if c < N + components.length * 2 then getEntry S r c
        else if c = N + components.length * 2 then
          (if N + components.length ≤ r then
            (match components.get? (r - (N + components.length)) with
              | none => 0
              | some comp => sourceValue comp)
           else 0)
        else 0 := by
  unfold appendInputToSpareMatrix
  have hlen : S.length = N + components.length * 2 := hD.1
  have key := forLoop_inv
    (fun i (acc : Option (Mat × Nat)) =>
      match acc with
      | none => ∃ c, c ∈ components ∧
          (firstChar c.ident = none ∨ (firstChar c.ident = some 'V' ∧ toInt c.value = none))
      | some st =>
        st.2 = i - (N + components.length) ∧
        (∀ b comp, b < i - (N + components.length) → components.get? b = some comp →
          firstChar comp.ident ≠ none ∧
          (firstChar comp.ident = some 'V' → toInt comp.value ≠ none)) ∧
        st.1.length = N + components.length * 2 ∧
        ∀ r, st.1.getD r [] =
          if r < i then S.getD r [] ++
            [if N + components.length ≤ r then
              (match components.get? (r - (N + components.length)) with
                | none => 0
                | some comp => sourceValue comp)
             else 0]
          else S.getD r [])
    (fun i (acc : Option (Mat × Nat)) =>
      acc.bind fun st =>
        if N + components.length ≤ i then
          (components.get? st.2).bind fun comp =>
          (firstChar comp.ident).bind fun c =>
            if c = 'V' then
              (toInt comp.value).bind fun val => some (pushBack st.1 i (val : ℚ), st.2 + 1)
            else some (pushBack st.1 i 0, st.2 + 1)
        else some (pushBack st.1 i 0, st.2))
    0 S.length (some (S, 0)) (by omega)
    ⟨by simp, fun b comp hb => by omega, hlen, fun r => by rw [if_neg]; omega⟩
    (fun i acc hi1 hi2 hP => by
      cases acc with
      | none => exact hP
      | some st =>
        obtain ⟨hj, hg, hl, hrow⟩ := hP
        rw [hlen] at hi2
        have rowstep : ∀ (v : ℚ),
            v = (if N + components.length ≤ i then
              (match components.get? (i - (N + components.length)) with
                | none => 0
                | some comp => sourceValue comp)
             else 0) →
            ∀ r, (pushBack st.1 i v).getD r [] =
              if r < i + 1 then S.getD r [] ++
                [if N + components.length ≤ r then
                  (match components.get? (r - (N + components.length)) with
                    | none => 0
                    | some comp => sourceValue comp)
                 else 0]
              else S.getD r [] := by
          intro v hv r
          rw [row_pushBack]
          by_cases hri : r = i
          · subst hri
            have h1 : r < r + 1 := by omega
            have h2 : ¬ r < r := by omega
            rw [if_pos ⟨rfl, by omega⟩, if_pos h1, hrow r, if_neg h2, hv]
          · rw [if_neg (fun hh => hri hh.1), hrow r]
            by_cases hlt : r < i
            · have h3 : r < i + 1 := by omega
              rw [if_pos hlt, if_pos h3]
            · have h3 : ¬ r < i + 1 := by omega
              rw [if_neg hlt, if_neg h3]
        simp only [Option.some_bind]
        by_cases hi : N + components.length ≤ i
        · rw [if_pos hi]
          have hjlt : st.2 < components.length := by omega
          have hget : components.get? st.2 = some (components.get ⟨st.2, hjlt⟩) :=
            List.get?_eq_get hjlt
          generalize components.get ⟨st.2, hjlt⟩ = comp at hget
          have hmem := List.get?_mem hget
          rw [hget]
          simp only [Option.some_bind]
          have hget' : components.get? (i - (N + components.length)) = some comp := by
            rw [← hj]; exact hget
          cases hch : firstChar comp.ident with
          | none => exact ⟨comp, hmem, Or.inl hch⟩
          | some ch =>
            simp only [Option.some_bind]
            have good : toInt comp.value ≠ none ∨ ch ≠ 'V' →
                ∀ b comp', b < i + 1 - (N + components.length) →
                components.get? b = some comp' →
                firstChar comp'.ident ≠ none ∧
                (firstChar comp'.ident = some 'V' → toInt comp'.value ≠ none) := by
              intro hor b comp' hb hb'
              by_cases hbi : b = i - (N + components.length)
              · subst hbi
                rw [hget'] at hb'
                rw [← Option.some.inj hb']
                refine ⟨by rw [hch]; simp, fun hV => ?_⟩
                rw [hch] at hV
                rcases hor with h | h
                · exact h
                · exact absurd (Option.some.inj hV) h
              · exact hg b comp' (by omega) hb'
            by_cases hV : ch = 'V'
            · rw [if_pos hV]
              cases hv : toInt comp.value with
              | none =>
                exact ⟨comp, hmem, Or.inr ⟨by rw [hch, hV], hv⟩⟩
              | some val =>
                simp only [Option.some_bind]
                refine ⟨by omega, good (Or.inl (by rw [hv]; simp)), by simp [pushBack, hl],
                  rowstep _ ?_⟩
                rw [if_pos hi, hget']
                simp only [sourceValue, hch, hV, if_true]
                rw [toInt_eq_some hv]
            · rw [if_neg hV]
              refine ⟨by simp only; omega, good (Or.inr hV), by simp [pushBack, hl],
                rowstep _ ?_⟩
              rw [if_pos hi, hget']
              have : firstChar comp.ident ≠ some 'V' := by
                rw [hch]; intro hh; exact hV (Option.some.inj hh)
              simp only [sourceValue, this, if_false]
        · rw [if_neg hi]
          refine ⟨by simp only; omega, fun b comp' hb => by omega, by simp [pushBack, hl],
            rowstep _ ?_⟩
          rw [if_neg hi])
  revert key
  generalize forLoop _ 0 S.length (some (S, 0)) = res
  intro key
  cases res with
  | none => exact key
  | some st =>
    obtain ⟨hj, hg, hl, hrow⟩ := key
    simp only [Option.map_some']
    rw [hlen] at hj hg hrow
    refine ⟨fun c hc => ?_, ⟨hl, fun k hk => ?_⟩, fun r c hr => ?_⟩
    · obtain ⟨n, hn⟩ := List.mem_iff_get?.mp hc
      have hlt : n < components.length := by
        by_contra hcon
        rw [List.get?_eq_none.mpr (by omega)] at hn
        simp at hn
      exact hg n c (by omega) hn
    · rw [hrow k, if_pos hk, List.length_append, hD.2 k hk]
      rfl
    · unfold getEntry
      rw [hrow r, if_pos hr, getD_append_single, hD.2 r hr]

/-! ## The assembled tableau -/

theorem assemble_spec (netlist : List Component) :
    match assemble netlist with
    | none => ¬ WellFormed netlist
    | some a =>
      WellFormed netlist ∧
      a.components = netlist ∧
      a.numNodes = (largestNode netlist).toNat ∧
      a.numBranches = netlist.length ∧
      a.size = (largestNode netlist).toNat + netlist.length * 2 ∧
      a.circuitSolution = [] ∧ a.isSingularMatrix = false ∧ a.console = [] ∧
      a.voltageCoefMatrix = createVoltageCoefMartix netlist.length ∧
      Dims a.incidenceMatrix (largestNode netlist).toNat netlist.length ∧
      (∀ r b, getEntry a.incidenceMatrix r b = incidenceEntry netlist r b) ∧
      (∀ r c, getEntry a.currentCoefMatrix r c =
        if r = c then currentCoefAt netlist r else 0) ∧
      a.sparseMatrix = (appendInputToSpareMatrix netlist a.numNodes a.numBranches
        (createSparseMatrix a.numNodes a.numBranches a.size a.incidenceMatrix
          a.voltageCoefMatrix a.currentCoefMatrix)).getD [] ∧
      Dims a.sparseMatrix ((largestNode netlist).toNat + netlist.length * 2)
        ((largestNode netlist).toNat + netlist.length * 2 + 1) ∧
      ∀ r c, r < (largestNode netlist).toNat + netlist.length * 2 →
        getEntry a.sparseMatrix r c = tableauEntry netlist r c := by
  unfold assemble countNumBranchesAndNodes
  simp only
  have hinc := createIncidenceMatrix_spec netlist (largestNode netlist).toNat
    (largestNode_spec netlist).2
  revert hinc
  cases createIncidenceMatrix netlist (largestNode netlist).toNat netlist.length with
  | none =>
    intro hinc
    obtain ⟨c, hc, hbad⟩ := hinc
    simp only [Option.none_bind]
    intro hwf
    exact hbad ⟨(hwf c hc).1, (hwf c hc).2.1⟩
  | some inc =>
    intro hinc
    obtain ⟨hnodes, hdinc, heinc⟩ := hinc
    simp only [Option.some_bind]
    have hcur := createCurrentCoefMatrix_spec netlist
    revert hcur
    cases createCurrentCoefMatrix netlist netlist.length with
    | none =>
      intro hcur
      obtain ⟨c, hc, hbad⟩ := hcur
      simp only [Option.none_bind]
      intro hwf
      exact (hwf c hc).2.2.1 hbad
    | some cur =>
      intro hcur
      obtain ⟨_, _, hecur⟩ := hcur
      simp only [Option.some_bind]
      obtain ⟨hdS, heS⟩ := createSparseMatrix_spec (largestNode netlist).toNat netlist.length
        inc (createVoltageCoefMartix netlist.length) cur
      have happ := appendInput_spec netlist (largestNode netlist).toNat _ hdS
      revert happ
      cases happ' : appendInputToSpareMatrix netlist (largestNode netlist).toNat netlist.length
        (createSparseMatrix (largestNode netlist).toNat netlist.length
          ((largestNode netlist).toNat + netlist.length * 2) inc
          (createVoltageCoefMartix netlist.length) cur) with
      | none =>
        intro happ
        obtain ⟨c, hc, hbad⟩ := happ
        simp only [Option.none_bind]
        intro hwf
        rcases hbad with h | ⟨h1, h2⟩
        · exact (hwf c hc).2.2.1 h
        · exact (hwf c hc).2.2.2 h1 h2
      | some T =>
        intro happ
        obtain ⟨hgood, hdT, heT⟩ := happ
        simp only [Option.some_bind]
        have convC : ∀ r, (match netlist.get? r with
            | none => (0 : ℚ)
            | some comp => currentCoef comp) = currentCoefAt netlist r := fun r => by
          unfold currentCoefAt; cases netlist.get? r <;> rfl
        have convS : ∀ r, (match netlist.get? r with
            | none => (0 : ℚ)
            | some comp => sourceValue comp) = sourceValueAt netlist r := fun r => by
          unfold sourceValueAt; cases netlist.get? r <;> rfl
        refine ⟨fun c hc => ⟨(hnodes c hc).1, (hnodes c hc).2, (hgood c hc).1, (hgood c hc).2⟩,
          ?_, ?_, ?_, ?_, ?_, ?_, ?_, trivial, hdinc, heinc, fun r c => ?_, ?_, hdT,
          fun r c hr => ?_⟩
        · trivial
        · trivial
        · trivial
        · trivial
        · rfl
        · rfl
        · rfl
        · rw [hecur r c, convC]
        · show T = Option.getD _ []
          rw [happ']
          rfl
        · show getEntry T r c = _
          rw [heT r c hr, heS r c, convS]
          obtain ⟨_, hevol⟩ := createVoltageCoefMartix_spec netlist.length
          unfold tableauEntry
          simp only
          by_cases hc : c < (largestNode netlist).toNat + netlist.length * 2
          · rw [if_pos hc, if_pos hc]
            by_cases hr1 : r < (largestNode netlist).toNat
            · rw [if_pos hr1, if_pos hr1]
              by_cases hc1 : (largestNode netlist).toNat + netlist.length ≤ c
              · rw [if_pos ⟨hc1, hc⟩, if_pos hc1, heinc]
              · rw [if_neg (fun hh => hc1 hh.1), if_neg hc1]
            · rw [if_neg hr1, if_neg hr1]
              by_cases hr2 : r < (largestNode netlist).toNat + netlist.length
              · rw [if_pos hr2, if_pos hr2, heinc]
              · rw [if_neg hr2, if_neg hr2, if_pos hr]
                by_cases hc1 : (largestNode netlist).toNat + netlist.length ≤ c
                · rw [if_pos ⟨hc1, hc⟩, if_pos hc1, hecur, convC]
                  by_cases hcr : c = r
                  · rw [if_pos hcr, if_pos (by omega)]
                  · rw [if_neg hcr, if_neg (by omega)]
                · rw [if_neg (fun hh => hc1 hh.1), if_neg hc1]
                  by_cases hc2 : (largestNode netlist).toNat ≤ c
                  · rw [if_pos ⟨hc2, by omega⟩, if_pos hc2, hevol]
                    by_cases hcr : c - (largestNode netlist).toNat =
                        r - ((largestNode netlist).toNat + netlist.length)
                    · rw [if_pos hcr, if_pos ⟨hcr.symm, by omega⟩]
                    · rw [if_neg hcr, if_neg (fun hh => hcr hh.1.symm)]
                  · rw [if_neg (fun hh => hc2 hh.1), if_neg hc2]
          · rw [if_neg hc, if_neg hc]

theorem guassianElimination_spec {a s : Session} (h : guassianElimination a = some s) :
    ∃ flag Mf, rref a.size a.sparseMatrix = some (flag, Mf) ∧
      s.sparseMatrix = Mf ∧ s.size = a.size ∧ s.numNodes = a.numNodes ∧
      s.numBranches = a.numBranches ∧ s.components = a.components ∧
      ((flag = -1 ∧ s.isSingularMatrix = false ∧
          s.circuitSolution = backSubstitutioh a.size Mf ∧ s.console = a.console) ∨
       (flag ≠ -1 ∧ s.isSingularMatrix = true ∧ s.circuitSolution = a.circuitSolution ∧
          s.console = a.console ++
            [if getEntry Mf flag.toNat a.size ≠ 0 then "Singular Matrix: Inconsistent System"
             else "Singular Matrix: May have infinitely many solutions."])) := by
  unfold guassianElimination at h
  cases hr : rref a.size a.sparseMatrix with
  | none => simp [hr] at h
  | some res =>
    obtain ⟨flag, Mf⟩ := res
    simp only [hr, Option.some_bind] at h
    refine ⟨flag, Mf, rfl, ?_⟩
    by_cases hf : flag = -1
    · rw [if_neg (by simpa using hf)] at h
      have e := Option.some.inj h
      subst e
      exact ⟨rfl, rfl, rfl, rfl, rfl, Or.inl ⟨hf, rfl, rfl, rfl⟩⟩
    · rw [if_pos hf] at h
      by_cases hz : getEntry Mf flag.toNat a.size ≠ 0
      · rw [if_pos hz] at h
        have e := Option.some.inj h
        subst e
        exact ⟨rfl, rfl, rfl, rfl, rfl, Or.inr ⟨hf, rfl, rfl, by rw [if_pos hz]⟩⟩
      · rw [if_neg hz] at h
        have e := Option.some.inj h
        subst e
        exact ⟨rfl, rfl, rfl, rfl, rfl, Or.inr ⟨hf, rfl, rfl, by rw [if_neg hz]⟩⟩

theorem assemble_dims {netlist : List Component} {a : Session}
    (ha : assemble netlist = some a) : Dims a.sparseMatrix a.size (a.size + 1) := by
  have h := assemble_spec netlist
  rw [ha] at h
  obtain ⟨_, _, _, _, hsz, _, _, _, _, _, _, _, _, hd, _⟩ := h
  rw [hsz]
  exact hd

theorem loadNetlist_eq {netlist : List Component} {a : Session}
    (ha : assemble netlist = some a) : loadNetlist netlist = guassianElimination a := by
  unfold loadNetlist
  rw [ha]
  rfl

theorem solved_unique {a s : Session} (hD : Dims a.sparseMatrix a.size (a.size + 1))
    (hs : guassianElimination a = some s) (hns : s.isSingularMatrix = false) :
    s.circuitSolution.length = a.size ∧
    Solves a.sparseMatrix a.size (vecOf s.circuitSolution) ∧
    ∀ y : Nat → ℚ, Solves a.sparseMatrix a.size y →
      ∀ j, j < a.size → y j = vecOf s.circuitSolution j := by
  obtain ⟨flag, Mf, hr, _, _, _, _, _, hcase⟩ := guassianElimination_spec hs
  rcases hcase with ⟨hf, _, hsol, _⟩ | ⟨_, hsing, _⟩
  · rcases rref_echelon hD hr with ⟨_, hE, hS⟩ | ⟨j, hj, _⟩
    · rw [hsol]
      have hx := backSubstitutioh_solves hE
      refine ⟨(backSubstitutioh_spec a.size Mf).1, (hS _).mp hx, fun y hy j hj => ?_⟩
      exact echelon_unique hE _ y hx ((hS y).mpr hy) j hj
    · rw [hf] at hj
      omega
  · rw [hns] at hsing
    simp at hsing

/-- C1: on every netlist for which the load pipeline ends with
`isSingularMatrix = false`, the solution vector satisfies, in exact arithmetic,
every row of the augmented tableau as it was assembled before elimination, and
it is the only vector that does. -/
theorem solution_satisfies_assembled_tableau (netlist : List Component) (a s : Session)
    (ha : assemble netlist = some a) (hs : loadNetlist netlist = some s)
    (hns : s.isSingularMatrix = false) :
    (∀ r, r < a.size → ∑ j in Finset.range a.size,
        getEntry a.sparseMatrix r j * s.circuitSolution.getD j 0 =
        getEntry a.sparseMatrix r a.size) ∧
    ∀ y : Nat → ℚ,
      (∀ r, r < a.size → ∑ j in Finset.range a.size, getEntry a.sparseMatrix r j * y j =
        getEntry a.sparseMatrix r a.size) →
      ∀ j, j < a.size → y j = s.circuitSolution.getD j 0 := by
  rw [loadNetlist_eq ha] at hs
  obtain ⟨_, h1, h2⟩ := solved_unique (assemble_dims ha) hs hns
  exact ⟨h1, h2⟩

theorem solution_satisfies_assembled_tableau_witness :
    ∃ a s, assemble scenarioA = some a ∧ loadNetlist scenarioA = some s ∧
      s.isSingularMatrix = false ∧
      ((∀ r, r < a.size → ∑ j in Finset.range a.size,
          getEntry a.sparseMatrix r j * s.circuitSolution.getD j 0 =
          getEntry a.sparseMatrix r a.size) ∧
       ∀ y : Nat → ℚ,
        (∀ r, r < a.size → ∑ j in Finset.range a.size, getEntry a.sparseMatrix r j * y j =
          getEntry a.sparseMatrix r a.size) →
        ∀ j, j < a.size → y j = s.circuitSolution.getD j 0) :=
  ⟨(assemble scenarioA).getD clearNetList, (loadNetlist scenarioA).getD clearNetList,
    by decide!, by decide!, by decide!,
    solution_satisfies_assembled_tableau scenarioA _ _ (by decide!) (by decide!) (by decide!)⟩

theorem assemble_of_wellFormed {netlist : List Component} (hwf : WellFormed netlist) :
    ∃ a, assemble netlist = some a := by
  have h := assemble_spec netlist
  cases ha : assemble netlist with
  | none =>
    rw [ha] at h
    exact absurd hwf h
  | some a => exact ⟨a, rfl⟩

/-- C8: for every netlist with non-negative node indices (and, so that the
assembly runs at all, non-empty identifiers and source values that fit an
`int`), the assembly completes; with `N` the largest node index, `B` the number
of components, `size = N + 2B` and `A` the incidence matrix, the `size × size`
matrix built by `createSparseMatrix` is, entry for entry, the block matrix with
`A` in rows `[0,N)` × columns `[N+B,size)`, the negative transpose of `A` in rows
`[N,N+B)` × columns `[0,N)`, the identity in rows `[N,N+B)` × columns `[N,N+B)`
and in rows `[N+B,size)` × columns `[N,N+B)`, the diagonal of `currentCoefAt`
(0 for a voltage source, minus the resistance for a resistor) in rows
`[N+B,size)` × columns `[N+B,size)`, and 0 elsewhere; appending the source
column keeps these entries and leaves `size` rows of `size + 1` entries. -/
theorem tableau_assembly (netlist : List Component) (hwf : WellFormed netlist) :
    ∃ a, assemble netlist = some a ∧
      a.numNodes = (largestNode netlist).toNat ∧
      (∀ c, c ∈ netlist → c.sourceNode ≤ a.numNodes ∧ c.destNode ≤ a.numNodes) ∧
      a.numBranches = netlist.length ∧
      a.size = a.numNodes + 2 * a.numBranches ∧
      (∀ r c, r < a.size → c < a.size →
        getEntry (createSparseMatrix a.numNodes a.numBranches a.size a.incidenceMatrix
          a.voltageCoefMatrix a.currentCoefMatrix) r c =
        if r < a.numNodes then
          (if a.numNodes + a.numBranches ≤ c
            then getEntry a.incidenceMatrix r (c - (a.numNodes + a.numBranches)) else 0)
        else if r < a.numNodes + a.numBranches then
          (if c < a.numNodes then -getEntry a.incidenceMatrix c (r - a.numNodes)
           else if c = r then 1 else 0)
        else
          (if c < a.numNodes then 0
           else if c < a.numNodes + a.numBranches then
            (if c - a.numNodes = r - (a.numNodes + a.numBranches) then 1 else 0)
           else if c = r then currentCoefAt netlist (r - (a.numNodes + a.numBranches))
           else 0)) ∧
      (∀ r c, r < a.size → c < a.size → getEntry a.sparseMatrix r c =
        getEntry (createSparseMatrix a.numNodes a.numBranches a.size a.incidenceMatrix
          a.voltageCoefMatrix a.currentCoefMatrix) r c) ∧
      a.sparseMatrix.length = a.size ∧
      ∀ row, row ∈ a.sparseMatrix → row.length = a.size + 1 := by
  obtain ⟨a, ha⟩ := assemble_of_wellFormed hwf
  have h := assemble_spec netlist
  rw [ha] at h
  obtain ⟨_, _, hN, hB, hsz, _, _, _, hvol, _, heinc, hecur, _, hdT, heT⟩ := h
  have hsz' : a.size = a.numNodes + a.numBranches * 2 := by rw [hsz, hN, hB]
  obtain ⟨_, heS⟩ := createSparseMatrix_spec a.numNodes a.numBranches a.incidenceMatrix
    a.voltageCoefMatrix a.currentCoefMatrix
  rw [← hsz'] at heS
  obtain ⟨_, hevol⟩ := createVoltageCoefMartix_spec netlist.length
  have block : ∀ r c, r < a.size → c < a.size →
      getEntry (createSparseMatrix a.numNodes a.numBranches a.size a.incidenceMatrix
        a.voltageCoefMatrix a.currentCoefMatrix) r c =
      if r < a.numNodes then
        (if a.numNodes + a.numBranches ≤ c
          then getEntry a.incidenceMatrix r (c - (a.numNodes + a.numBranches)) else 0)
      else if r < a.numNodes + a.numBranches then
        (if c < a.numNodes then -getEntry a.incidenceMatrix c (r - a.numNodes)
         else if c = r then 1 else 0)
      else
        (if c < a.numNodes then 0
         else if c < a.numNodes + a.numBranches then
          (if c - a.numNodes = r - (a.numNodes + a.numBranches) then 1 else 0)
         else if c = r then currentCoefAt netlist (r - (a.numNodes + a.numBranches))
         else 0) := by
    intro r c hr hc
    rw [heS r c, hvol, hevol, hecur]
    by_cases hr1 : r < a.numNodes
    · rw [if_pos hr1, if_pos hr1]
      by_cases hc1 : a.numNodes + a.numBranches ≤ c
      · rw [if_pos ⟨hc1, hc⟩, if_pos hc1]
      · rw [if_neg (fun hh => hc1 hh.1), if_neg hc1]
    · rw [if_neg hr1, if_neg hr1]
      by_cases hr2 : r < a.numNodes + a.numBranches
      · rw [if_pos hr2, if_pos hr2]
        by_cases hc1 : c < a.numNodes
        · rw [if_pos hc1, if_pos hc1]; ring
        · rw [if_neg hc1, if_neg hc1]
      · rw [if_neg hr2, if_neg hr2, if_pos hr]
        by_cases hc1 : c < a.numNodes
        · rw [if_pos hc1, if_neg (by omega), if_neg (by omega)]
        · rw [if_neg hc1]
          by_cases hc2 : c < a.numNodes + a.numBranches
          · rw [if_pos hc2, if_neg (by omega), if_pos ⟨by omega, hc2⟩]
            by_cases hcr : c - a.numNodes = r - (a.numNodes + a.numBranches)
            · rw [if_pos hcr, if_pos ⟨hcr.symm, by omega⟩]
            · rw [if_neg hcr, if_neg (fun hh => hcr hh.1.symm)]
          · rw [if_neg hc2, if_pos ⟨by omega, hc⟩]
            by_cases hcr : c = r
            · rw [if_pos hcr, if_pos (by omega)]
            · rw [if_neg hcr, if_neg (by omega)]
  have hnodes : ∀ c, c ∈ netlist → c.sourceNode ≤ a.numNodes ∧ c.destNode ≤ a.numNodes := by
    intro c hc
    rw [hN]
    exact (largestNode_spec netlist).2 c hc
  refine ⟨a, ha, hN, hnodes, hB, by omega, block, fun r c hr hc => ?_, ?_, fun row hrow => ?_⟩
  · rw [block r c hr hc, heT r c (by omega)]
    unfold tableauEntry
    simp only
    rw [← hN, ← hB, ← hsz', if_pos hc, heinc, heinc]
    by_cases hr1 : r < a.numNodes
    · rw [if_pos hr1, if_pos hr1]
    · rw [if_neg hr1, if_neg hr1]
      by_cases hr2 : r < a.numNodes + a.numBranches
      · rw [if_pos hr2, if_pos hr2]
        by_cases hc1 : c < a.numNodes
        · rw [if_pos hc1, if_pos hc1]; ring
        · rw [if_neg hc1, if_neg hc1]
      · rw [if_neg hr2, if_neg hr2]
        by_cases hc1 : c < a.numNodes
        · rw [if_pos hc1, if_neg (by omega), if_neg (by omega)]
        · rw [if_neg hc1]
          by_cases hc2 : c < a.numNodes + a.numBranches
          · rw [if_pos hc2, if_neg (by omega), if_pos (by omega)]
          · rw [if_neg hc2, if_pos (by omega)]
  · rw [hsz]; exact hdT.1
  · obtain ⟨n, hn⟩ := List.mem_iff_get?.mp hrow
    have hlt : n < a.sparseMatrix.length := by
      by_contra hcon
      rw [List.get?_eq_none.mpr (by omega)] at hn
      simp at hn
    have := hdT.2 n (by rw [← hdT.1]; exact hlt)
    rw [List.getD_eq_getElem?_getD, ← List.get?_eq_getElem?, hn] at this
    rw [hsz]
    simpa using this

theorem tableau_assembly_witness :
    WellFormed scenarioA ∧
    ∃ a, assemble scenarioA = some a ∧
      a.numNodes = (largestNode scenarioA).toNat ∧
      (∀ c, c ∈ scenarioA → c.sourceNode ≤ a.numNodes ∧ c.destNode ≤ a.numNodes) ∧
      a.numBranches = scenarioA.length ∧
      a.size = a.numNodes + 2 * a.numBranches ∧
      (∀ r c, r < a.size → c < a.size →
        getEntry (createSparseMatrix a.numNodes a.numBranches a.size a.incidenceMatrix
          a.voltageCoefMatrix a.currentCoefMatrix) r c =
        if r < a.numNodes then
          (if a.numNodes + a.numBranches ≤ c
            then getEntry a.incidenceMatrix r (c - (a.numNodes + a.numBranches)) else 0)
        else if r < a.numNodes + a.numBranches then
          (if c < a.numNodes then -getEntry a.incidenceMatrix c (r - a.numNodes)
           else if c = r then 1 else 0)
        else
          (if c < a.numNodes then 0
           else if c < a.numNodes + a.numBranches then
            (if c - a.numNodes = r - (a.numNodes + a.numBranches) then 1 else 0)
           else if c = r then currentCoefAt scenarioA (r - (a.numNodes + a.numBranches))
           else 0)) ∧
      (∀ r c, r < a.size → c < a.size → getEntry a.sparseMatrix r c =
        getEntry (createSparseMatrix a.numNodes a.numBranches a.size a.incidenceMatrix
          a.voltageCoefMatrix a.currentCoefMatrix) r c) ∧
      a.sparseMatrix.length = a.size ∧
      ∀ row, row ∈ a.sparseMatrix → row.length = a.size + 1 :=
  have hwf : WellFormed scenarioA := by
    intro c hc
    simp only [scenarioA, List.mem_cons, List.mem_singleton, List.not_mem_nil, or_false] at hc
    rcases hc with rfl | rfl <;> decide!
  ⟨hwf, tableau_assembly scenarioA hwf⟩

/-! ## Incidence matrix (C9) -/

/-- C9, as stated, fails: in `V1 1 0 5`, `R1 1 1 2` the branch `R1` (index 1)
has `sourceNode = 1`, yet entry `(0, 1)` of the incidence matrix is `-1`, not
`+1`: the write for the destination node overwrites the one for the source. -/
theorem incidence_entry_counterexample :
    ∃ A comp, createIncidenceMatrix selfLoop 1 2 = some A ∧
      countNumBranchesAndNodes selfLoop = (1, 2, 5) ∧
      selfLoop.get? 1 = some comp ∧ comp.sourceNode = 1 ∧
      getEntry A (1 - 1) 1 = -1 ∧ getEntry A (1 - 1) 1 ≠ 1 :=
  ⟨(createIncidenceMatrix selfLoop 1 2).getD [], ⟨"R1", 1, 1, 2⟩,
    by decide!, by decide!, by decide!, by decide!, by decide!, by decide!⟩

/-- C9, amended: for every netlist with node indices in `[0, N]`,
`createIncidenceMatrix` returns an `N × B` matrix, and for every node `n` in
`[1, N]` and every branch `b` whose two terminals are not both `n`, the entry
`(n-1, b)` is `+1` if the branch's `sourceNode` is `n`, `-1` if its `destNode`
is `n`, and 0 otherwise. -/
theorem incidence_matrix_entries (netlist : List Component) (N : Nat)
    (hN : ∀ c, c ∈ netlist →
      0 ≤ c.sourceNode ∧ c.sourceNode ≤ N ∧ 0 ≤ c.destNode ∧ c.destNode ≤ N) :
    ∃ A, createIncidenceMatrix netlist N netlist.length = some A ∧
      Dims A N netlist.length ∧
      ∀ (n b : Nat) (comp : Component), 1 ≤ n → n ≤ N → netlist.get? b = some comp →
        ¬ (comp.sourceNode = n ∧ comp.destNode = n) →
        getEntry A (n - 1) b =
          if comp.sourceNode = n then 1 else if comp.destNode = n then -1 else 0 := by
  have h := createIncidenceMatrix_spec netlist N
    (fun c hc => ⟨(hN c hc).2.1, (hN c hc).2.2.2⟩)
  cases hA : createIncidenceMatrix netlist N netlist.length with
  | none =>
    rw [hA] at h
    obtain ⟨c, hc, hbad⟩ := h
    exact absurd ⟨(hN c hc).1, (hN c hc).2.2.1⟩ hbad
  | some A =>
    rw [hA] at h
    obtain ⟨_, hd, he⟩ := h
    refine ⟨A, rfl, hd, fun n b comp h1 h2 hget hne => ?_⟩
    rw [he (n - 1) b]
    unfold incidenceEntry
    rw [hget]
    simp only
    have e : ((n - 1 : Nat) : Int) + 1 = (n : Int) := by omega
    rw [e]
    by_cases hd' : comp.destNode = n
    · rw [if_pos hd']
      have hs' : ¬ comp.sourceNode = n := fun hs => hne ⟨hs, hd'⟩
      rw [if_neg hs', if_pos hd']
    · rw [if_neg hd']
      by_cases hs' : comp.sourceNode = n
      · rw [if_pos hs', if_pos hs']
      · rw [if_neg hs', if_neg hs', if_neg hd']

theorem incidence_matrix_entries_witness :
    (∀ c, c ∈ scenarioA →
      0 ≤ c.sourceNode ∧ c.sourceNode ≤ (1 : Nat) ∧ 0 ≤ c.destNode ∧ c.destNode ≤ (1 : Nat)) ∧
    ∃ A, createIncidenceMatrix scenarioA 1 scenarioA.length = some A ∧
      Dims A 1 scenarioA.length ∧
      ∀ (n b : Nat) (comp : Component), 1 ≤ n → n ≤ 1 → scenarioA.get? b = some comp →
        ¬ (comp.sourceNode = n ∧ comp.destNode = n) →
        getEntry A (n - 1) b =
          if comp.sourceNode = n then 1 else if comp.destNode = n then -1 else 0 :=
  have hN : ∀ c, c ∈ scenarioA →
      0 ≤ c.sourceNode ∧ c.sourceNode ≤ (1 : Nat) ∧ 0 ≤ c.destNode ∧ c.destNode ≤ (1 : Nat) := by
    intro c hc
    simp only [scenarioA, List.mem_cons, List.mem_singleton, List.not_mem_nil, or_false] at hc
    rcases hc with rfl | rfl <;> decide!
  ⟨hN, incidence_matrix_entries scenarioA 1 hN⟩

/-! ## Source column (C5) -/

/-- C5 at the failing input `V1 1 0 2.5`, `R1 1 0 1` (`N = 1`, `B = 2`,
`size = 5`): the right-hand side of the constitutive row `N+B+0 = 3` of the
voltage source is 2, not its value 2.5, because `val` is an `int`. -/
theorem source_column_truncates_fraction :
    ∃ a comp, assemble fractionalSource = some a ∧
      a.numNodes = 1 ∧ a.numBranches = 2 ∧ a.size = 5 ∧
      fractionalSource.get? 0 = some comp ∧ firstChar comp.ident = some 'V' ∧
      comp.value = 5 / 2 ∧
      getEntry a.sparseMatrix (a.numNodes + a.numBranches + 0) a.size = 2 ∧
      getEntry a.sparseMatrix (a.numNodes + a.numBranches + 0) a.size ≠ comp.value :=
  ⟨(assemble fractionalSource).getD clearNetList, ⟨"V1", 1, 0, 5 / 2⟩,
    by decide!, by decide!, by decide!, by decide!, by decide!, by decide!, by decide!,
    by decide!, by decide!⟩

/-! ## False singular report (C3) -/

theorem halfOhm_tableau :
    ((assemble halfOhm).getD clearNetList).sparseMatrix =
      [[0, 0, 0, 1, 1, 0], [-1, 1, 0, 0, 0, 0], [-1, 0, 1, 0, 0, 0],
       [0, 1, 0, 0, 0, 5], [0, 0, 1, 0, -1 / 2, 0]] ∧
    ((assemble halfOhm).getD clearNetList).size = 5 := by
  decide!

/-- C3 at the failing input `V1 1 0 5`, `R1 1 0 0.5`: `rref` returns row 4
and the load ends with `isSingularMatrix = true` (the last pivot candidate is
`-1/2`, which the `int` variables of the scan hold as 0), although the
assembled tableau has exactly one solution, `(5, 5, 5, -10, 10)`. -/
theorem singular_reported_for_uniquely_solvable_tableau :
    ∃ a s, assemble halfOhm = some a ∧ loadNetlist halfOhm = some s ∧
      s.isSingularMatrix = true ∧
      (rref a.size a.sparseMatrix).map Prod.fst = some 4 ∧
      Solves a.sparseMatrix a.size (vecOf [5, 5, 5, -10, 10]) ∧
      ∀ y : Nat → ℚ, Solves a.sparseMatrix a.size y →
        ∀ j, j < a.size → y j = vecOf [5, 5, 5, -10, 10] j := by
  refine ⟨(assemble halfOhm).getD clearNetList, (loadNetlist halfOhm).getD clearNetList,
    by decide!, by decide!, by decide!, by decide!, ?_, ?_⟩
  · rw [halfOhm_tableau.1, halfOhm_tableau.2]
    intro r hr
    interval_cases r
    all_goals simp [RowSat, Finset.sum_range_succ, getEntry, vecOf]
    all_goals norm_num
  · rw [halfOhm_tableau.1, halfOhm_tableau.2]
    intro y hy j hj
    have h0 := hy 0 (by omega)
    have h1 := hy 1 (by omega)
    have h2 := hy 2 (by omega)
    have h3 := hy 3 (by omega)
    have h4 := hy 4 (by omega)
    simp [RowSat, Finset.sum_range_succ, getEntry] at h0 h1 h2 h3 h4
    interval_cases j
    all_goals simp [vecOf]
    all_goals linarith

/-! ## Non-singular status (C4) -/

theorem parallelResistors_tableau :
    ((assemble parallelResistors).getD clearNetList).sparseMatrix =
      [[0, 0, 0, 0, 1, 1, 1, 0], [-1, 1, 0, 0, 0, 0, 0, 0], [-1, 0, 1, 0, 0, 0, 0, 0],
       [-1, 0, 0, 1, 0, 0, 0, 0], [0, 1, 0, 0, -1, 0, 0, 0], [0, 0, 1, 0, 0, -9, 0, 0],
       [0, 0, 0, 1, 0, 0, 0, 5]] ∧
    ((assemble parallelResistors).getD clearNetList).size = 7 := by
  decide!

/-- C4 at the failing input `R1 1 0 1`, `R2 1 0 9`, `V3 1 0 5`: node 1 is a
terminal of every branch and the source `V3` ends on ground, and the assembled
tableau has exactly one solution, `(5, 5, 5, 5, 5, 5/9, -50/9)`; yet `rref`
returns row 6, the load ends with `isSingularMatrix = true` and the solution
vector is empty, not of length `N + 2B = 7`. The pivot candidate of the stop,
entry `[6][6]` of the partially reduced matrix, is `-9/10`: not zero, but held
as 0 by the `int` variables of the scan. -/
theorem singular_reported_under_topological_premises :
    NoIsolatedNode parallelResistors ∧ SourcePathToGround parallelResistors ∧
    ∃ a s, assemble parallelResistors = some a ∧ loadNetlist parallelResistors = some s ∧
      (rref a.size a.sparseMatrix).map Prod.fst = some 6 ∧
      getEntry s.sparseMatrix 6 6 = -9 / 10 ∧
      s.isSingularMatrix = true ∧ s.circuitSolution = [] ∧
      s.numNodes + 2 * s.numBranches = 7 ∧
      s.circuitSolution.length ≠ s.numNodes + 2 * s.numBranches ∧
      Solves a.sparseMatrix a.size (vecOf [5, 5, 5, 5, 5, 5 / 9, -50 / 9]) ∧
      ∀ y : Nat → ℚ, Solves a.sparseMatrix a.size y →
        ∀ j, j < a.size → y j = vecOf [5, 5, 5, 5, 5, 5 / 9, -50 / 9] j := by
  refine ⟨?_, ?_, (assemble parallelResistors).getD clearNetList,
    (loadNetlist parallelResistors).getD clearNetList,
    by decide!, by decide!, by decide!, by decide!, by decide!, by decide!, by decide!,
    by decide!, ?_, ?_⟩
  · intro n h1 h2
    have hl : largestNode parallelResistors = 1 := by decide!
    rw [hl] at h2
    have hn : n = 1 := by omega
    subst hn
    exact ⟨⟨"R1", 1, 0, 1⟩, by simp [parallelResistors], Or.inl rfl⟩
  · exact ⟨⟨"V3", 1, 0, 5⟩, by simp [parallelResistors], by decide!,
      Or.inr Relation.ReflTransGen.refl⟩
  · rw [parallelResistors_tableau.1, parallelResistors_tableau.2]
    intro r hr
    interval_cases r
    all_goals simp [RowSat, Finset.sum_range_succ, getEntry, vecOf]
    all_goals norm_num
  · rw [parallelResistors_tableau.1, parallelResistors_tableau.2]
    intro y hy j hj
    have h0 := hy 0 (by omega)
    have h1 := hy 1 (by omega)
    have h2 := hy 2 (by omega)
    have h3 := hy 3 (by omega)
    have h4 := hy 4 (by omega)
    have h5 := hy 5 (by omega)
    have h6 := hy 6 (by omega)
    simp [RowSat, Finset.sum_range_succ, getEntry] at h0 h1 h2 h3 h4 h5 h6
    interval_cases j
    all_goals simp [vecOf]
    all_goals linarith

/-- A loop of voltage sources meets both topological conditions: in
`V1 1 0 5`, `V2 1 0 5` node 1 is a terminal of both branches and `V1` ends on
ground, and the load ends with `isSingularMatrix = true` and an empty solution
vector (here the two source currents are not determined by the tableau). -/
theorem source_loop_is_singular :
    NoIsolatedNode parallelSources ∧ SourcePathToGround parallelSources ∧
    ∃ s, loadNetlist parallelSources = some s ∧ s.isSingularMatrix = true ∧
      s.circuitSolution = [] ∧
      s.circuitSolution.length ≠ s.numNodes + 2 * s.numBranches := by
  refine ⟨?_, ?_, (loadNetlist parallelSources).getD clearNetList,
    by decide!, by decide!, by decide!, by decide!⟩
  · intro n h1 h2
    have hl : largestNode parallelSources = 1 := by decide!
    rw [hl] at h2
    have hn : n = 1 := by omega
    subst hn
    exact ⟨⟨"V1", 1, 0, 5⟩, by simp [parallelSources], Or.inl rfl⟩
  · exact ⟨⟨"V1", 1, 0, 5⟩, by simp [parallelSources], by decide!,
      Or.inr Relation.ReflTransGen.refl⟩

/-! ## The three families of equations of the tableau -/

theorem tableauEntry_kcl (netlist : List Component) {r : Nat}
    (hr : r < (largestNode netlist).toNat) (c : Nat) :
    tableauEntry netlist r c =
      if (largestNode netlist).toNat + netlist.length ≤ c ∧
          c < (largestNode netlist).toNat + netlist.length * 2
      then incidenceEntry netlist r (c - ((largestNode netlist).toNat + netlist.length))
      else 0 := by
  unfold tableauEntry
  simp only
  split_ifs <;> first | rfl | (exfalso; omega)

theorem tableauEntry_kvl (netlist : List Component) {b : Nat} (hb : b < netlist.length)
    (c : Nat) :
    tableauEntry netlist ((largestNode netlist).toNat + b) c =
      if c < (largestNode netlist).toNat then incidenceEntry netlist c b * (-1)
      else if c = (largestNode netlist).toNat + b then 1 else 0 := by
  unfold tableauEntry
  simp only
  have e : (largestNode netlist).toNat + b - (largestNode netlist).toNat = b := by omega
  rw [e]
  split_ifs <;> first | rfl | (exfalso; omega)

theorem tableauEntry_constitutive (netlist : List Component) {b : Nat}
    (hb : b < netlist.length) (c : Nat) :
    tableauEntry netlist ((largestNode netlist).toNat + netlist.length + b) c =
      if c = (largestNode netlist).toNat + b then 1
      else if c = (largestNode netlist).toNat + netlist.length + b
        then currentCoefAt netlist b
      else if c = (largestNode netlist).toNat + netlist.length * 2
        then sourceValueAt netlist b
      else 0 := by
  unfold tableauEntry
  simp only
  have e : (largestNode netlist).toNat + netlist.length + b -
      ((largestNode netlist).toNat + netlist.length) = b := by omega
  rw [e]
  split_ifs <;> first | rfl | (exfalso; omega)

theorem rowsum_kcl (netlist : List Component) (x : Nat → ℚ) {r : Nat}
    (hr : r < (largestNode netlist).toNat) :
    ∑ j in Finset.range ((largestNode netlist).toNat + netlist.length * 2),
        tableauEntry netlist r j * x j =
      ∑ b in Finset.range netlist.length,
        incidenceEntry netlist r b * x ((largestNode netlist).toNat + netlist.length + b) := by
  rw [← Finset.sum_range_add_sum_Ico _
    (show (largestNode netlist).toNat + netlist.length ≤
      (largestNode netlist).toNat + netlist.length * 2 by omega)]
  have z : ∑ j in Finset.range ((largestNode netlist).toNat + netlist.length),
      tableauEntry netlist r j * x j = 0 := by
    apply Finset.sum_eq_zero
    intro j hj
    have := Finset.mem_range.mp hj
    rw [tableauEntry_kcl netlist hr, if_neg (by omega)]
    ring
  rw [z, zero_add, Finset.sum_Ico_eq_sum_range]
  have e : (largestNode netlist).toNat + netlist.length * 2 -
      ((largestNode netlist).toNat + netlist.length) = netlist.length := by omega
  rw [e]
  apply Finset.sum_congr rfl
  intro k hk
  have := Finset.mem_range.mp hk
  rw [tableauEntry_kcl netlist hr, if_pos ⟨by omega, by omega⟩]
  have e2 : (largestNode netlist).toNat + netlist.length + k -
      ((largestNode netlist).toNat + netlist.length) = k := by omega
  rw [e2]

theorem rowsum_kvl (netlist : List Component) (x : Nat → ℚ) {b : Nat}
    (hb : b < netlist.length) :
    ∑ j in Finset.range ((largestNode netlist).toNat + netlist.length * 2),
        tableauEntry netlist ((largestNode netlist).toNat + b) j * x j =
      x ((largestNode netlist).toNat + b) -
        ∑ j in Finset.range (largestNode netlist).toNat, incidenceEntry netlist j b * x j := by
  rw [← Finset.sum_range_add_sum_Ico _
    (show (largestNode netlist).toNat ≤
      (largestNode netlist).toNat + netlist.length * 2 by omega)]
  have h1 : ∑ j in Finset.range (largestNode netlist).toNat,
      tableauEntry netlist ((largestNode netlist).toNat + b) j * x j =
      - ∑ j in Finset.range (largestNode netlist).toNat, incidenceEntry netlist j b * x j := by
    rw [← Finset.sum_neg_distrib]
    apply Finset.sum_congr rfl
    intro j hj
    have := Finset.mem_range.mp hj
    rw [tableauEntry_kvl netlist hb, if_pos this]
    ring
  have h2 : ∑ j in Finset.Ico (largestNode netlist).toNat
        ((largestNode netlist).toNat + netlist.length * 2),
      tableauEntry netlist ((largestNode netlist).toNat + b) j * x j =
      x ((largestNode netlist).toNat + b) := by
    rw [Finset.sum_eq_single ((largestNode netlist).toNat + b)]
    · rw [tableauEntry_kvl netlist hb, if_neg (by omega), if_pos rfl]
      ring
    · intro j hj hne
      have := Finset.mem_Ico.mp hj
      rw [tableauEntry_kvl netlist hb, if_neg (by omega), if_neg hne]
      ring
    · intro hnot
      exfalso
      apply hnot
      rw [Finset.mem_Ico]
      omega
  rw [h1, h2]
  ring

theorem rowsum_constitutive (netlist : List Component) (x : Nat → ℚ) {b : Nat}
    (hb : b < netlist.length) :
    ∑ j in Finset.range ((largestNode netlist).toNat + netlist.length * 2),
        tableauEntry netlist ((largestNode netlist).toNat + netlist.length + b) j * x j =
      x ((largestNode netlist).toNat + b) +
        currentCoefAt netlist b * x ((largestNode netlist).toNat + netlist.length + b) := by
  rw [Finset.sum_eq_add ((largestNode netlist).toNat + b)
    ((largestNode netlist).toNat + netlist.length + b) (by omega)]
  · rw [tableauEntry_constitutive netlist hb, if_pos rfl,
      tableauEntry_constitutive netlist hb, if_neg (by omega), if_pos rfl]
    ring
  · intro j _ hne
    rw [tableauEntry_constitutive netlist hb, if_neg hne.1, if_neg hne.2]
    have := Finset.mem_range.mp (by assumption : j ∈ Finset.range _)
    rw [if_neg (by omega)]
    ring
  · intro hnot
    exfalso
    apply hnot
    rw [Finset.mem_range]
    omega
  · intro hnot
    exfalso
    apply hnot
    rw [Finset.mem_range]
    omega

/-- A vector solves the assembled tableau exactly when it satisfies the node
equations (KCL), the branch-voltage equations (KVL) and the element equations. -/
theorem solves_tableau_iff (netlist : List Component) (T : Mat) (x : Nat → ℚ)
    (hT : ∀ r c, r < (largestNode netlist).toNat + netlist.length * 2 →
      getEntry T r c = tableauEntry netlist r c) :
    Solves T ((largestNode netlist).toNat + netlist.length * 2) x ↔
      (∀ r, r < (largestNode netlist).toNat →
        ∑ b in Finset.range netlist.length,
          incidenceEntry netlist r b *
            x ((largestNode netlist).toNat + netlist.length + b) = 0) ∧
      (∀ b, b < netlist.length →
        x ((largestNode netlist).toNat + b) -
          ∑ j in Finset.range (largestNode netlist).toNat,
            incidenceEntry netlist j b * x j = 0) ∧
      (∀ b, b < netlist.length →
        x ((largestNode netlist).toNat + b) +
          currentCoefAt netlist b * x ((largestNode netlist).toNat + netlist.length + b) =
        sourceValueAt netlist b) := by
  have rowT : ∀ r, r < (largestNode netlist).toNat + netlist.length * 2 →
      (RowSat T ((largestNode netlist).toNat + netlist.length * 2) x r ↔
        ∑ j in Finset.range ((largestNode netlist).toNat + netlist.length * 2),
          tableauEntry netlist r j * x j =
        tableauEntry netlist r ((largestNode netlist).toNat + netlist.length * 2)) := by
    intro r hr
    unfold RowSat
    rw [hT r _ hr]
    have e : ∑ j in Finset.range ((largestNode netlist).toNat + netlist.length * 2),
        getEntry T r j * x j =
        ∑ j in Finset.range ((largestNode netlist).toNat + netlist.length * 2),
          tableauEntry netlist r j * x j := by
      apply Finset.sum_congr rfl
      intro j _
      rw [hT r j hr]
    rw [e]
  constructor
  · intro hs
    refine ⟨fun r hr => ?_, fun b hb => ?_, fun b hb => ?_⟩
    · have := (rowT r (by omega)).mp (hs r (by omega))
      rw [rowsum_kcl netlist x hr, tableauEntry_kcl netlist hr, if_neg (by omega)] at this
      exact this
    · have := (rowT _ (by omega)).mp (hs ((largestNode netlist).toNat + b) (by omega))
      rw [rowsum_kvl netlist x hb, tableauEntry_kvl netlist hb, if_neg (by omega),
        if_neg (by omega)] at this
      exact this
    · have := (rowT _ (by omega)).mp
        (hs ((largestNode netlist).toNat + netlist.length + b) (by omega))
      rw [rowsum_constitutive netlist x hb, tableauEntry_constitutive netlist hb,
        if_neg (by omega), if_neg (by omega), if_pos rfl] at this
      exact this
  · rintro ⟨h1, h2, h3⟩ r hr
    apply (rowT r hr).mpr
    by_cases hr1 : r < (largestNode netlist).toNat
    · rw [rowsum_kcl netlist x hr1, tableauEntry_kcl netlist hr1, if_neg (by omega)]
      exact h1 r hr1
    · by_cases hr2 : r < (largestNode netlist).toNat + netlist.length
      · obtain ⟨b, rfl⟩ : ∃ b, r = (largestNode netlist).toNat + b :=
          ⟨r - (largestNode netlist).toNat, by omega⟩
        have hb : b < netlist.length := by omega
        rw [rowsum_kvl netlist x hb, tableauEntry_kvl netlist hb, if_neg (by omega),
          if_neg (by omega)]
        exact h2 b hb
      · obtain ⟨b, rfl⟩ : ∃ b, r = (largestNode netlist).toNat + netlist.length + b :=
          ⟨r - ((largestNode netlist).toNat + netlist.length), by omega⟩
        have hb : b < netlist.length := by omega
        rw [rowsum_constitutive netlist x hb, tableauEntry_constitutive netlist hb,
          if_neg (by omega), if_neg (by omega), if_pos rfl]
        exact h3 b hb

/-! ## The equations that a solved netlist satisfies -/

theorem solved_equations {netlist : List Component} {s : Session}
    (hs : loadNetlist netlist = some s) (hns : s.isSingularMatrix = false) :
    s.numNodes = (largestNode netlist).toNat ∧ s.numBranches = netlist.length ∧
    s.circuitSolution.length = (largestNode netlist).toNat + netlist.length * 2 ∧
    WellFormed netlist ∧
    (∀ r, r < (largestNode netlist).toNat →
      ∑ b in Finset.range netlist.length,
        incidenceEntry netlist r b *
          vecOf s.circuitSolution ((largestNode netlist).toNat + netlist.length + b) = 0) ∧
    (∀ b, b < netlist.length →
      vecOf s.circuitSolution ((largestNode netlist).toNat + b) -
        ∑ j in Finset.range (largestNode netlist).toNat,
          incidenceEntry netlist j b * vecOf s.circuitSolution j = 0) ∧
    (∀ b, b < netlist.length →
      vecOf s.circuitSolution ((largestNode netlist).toNat + b) +
        currentCoefAt netlist b *
          vecOf s.circuitSolution ((largestNode netlist).toNat + netlist.length + b) =
      sourceValueAt netlist b) := by
  cases ha : assemble netlist with
  | none => simp [loadNetlist, ha] at hs
  | some a =>
    rw [loadNetlist_eq ha] at hs
    have hspec := assemble_spec netlist
    rw [ha] at hspec
    obtain ⟨hwf, _, hN, hB, hsz, _, _, _, _, _, _, _, _, _, heT⟩ := hspec
    obtain ⟨hlen, hsol, _⟩ := solved_unique (assemble_dims ha) hs hns
    obtain ⟨_, _, _, _, _, hnn, hnb, _, _⟩ := guassianElimination_spec hs
    rw [hsz] at hsol hlen
    obtain ⟨h1, h2, h3⟩ := (solves_tableau_iff netlist a.sparseMatrix _ heT).mp hsol
    exact ⟨by rw [hnn, hN], by rw [hnb, hB], hlen, hwf, h1, h2, h3⟩

/-! ## Ohm's law (C10) -/

/-- C10: for every netlist that the solver reports as non-singular and every
resistor branch `b` with resistance `R`, the solved branch voltage
`solution[N+b]` equals the solved branch current `solution[N+B+b]` times `R`. -/
theorem ohms_law (netlist : List Component) (s : Session)
    (hs : loadNetlist netlist = some s) (hns : s.isSingularMatrix = false)
    (b : Nat) (comp : Component) (hget : netlist.get? b = some comp)
    (hR : firstChar comp.ident = some 'R') :
    s.circuitSolution.getD (s.numNodes + b) 0 =
      s.circuitSolution.getD (s.numNodes + s.numBranches + b) 0 * comp.value := by
  obtain ⟨hN, hB, _, _, _, _, h3⟩ := solved_equations hs hns
  have hb : b < netlist.length := by
    by_contra hcon
    rw [List.get?_eq_none.mpr (by omega)] at hget
    simp at hget
  have h := h3 b hb
  have hcoef : currentCoefAt netlist b = comp.value * (-1) := by
    unfold currentCoefAt
    rw [hget]
    simp [currentCoef, hR]
  have hsrc : sourceValueAt netlist b = 0 := by
    unfold sourceValueAt
    rw [hget]
    simp [sourceValue, hR]
  rw [hcoef, hsrc] at h
  unfold vecOf at h
  rw [hN, hB]
  linarith

theorem ohms_law_witness :
    ∃ s comp, loadNetlist scenarioA = some s ∧ s.isSingularMatrix = false ∧
      scenarioA.get? 1 = some comp ∧ firstChar comp.ident = some 'R' ∧
      s.circuitSolution.getD (s.numNodes + 1) 0 =
        s.circuitSolution.getD (s.numNodes + s.numBranches + 1) 0 * comp.value :=
  ⟨(loadNetlist scenarioA).getD clearNetList, ⟨"R1", 1, 0, 1⟩, by decide!, by decide!,
    by decide!, by decide!,
    ohms_law scenarioA _ (by decide!) (by decide!) 1 ⟨"R1", 1, 0, 1⟩ (by decide!) (by decide!)⟩

/-! ## Kirchhoff's voltage law (C2) -/

theorem sum_indicator_node (x : Nat → ℚ) (N : Nat) (n : Int) (h0 : 0 ≤ n) (hN : n ≤ N) :
    ∑ j in Finset.range N, (if n = (j : Int) + 1 then x j else 0) =
      if n = 0 then 0 else x (n - 1).toNat := by
  by_cases hn : n = 0
  · rw [if_pos hn]
    apply Finset.sum_eq_zero
    intro j _
    rw [if_neg (by omega)]
  · rw [if_neg hn, Finset.sum_eq_single (n - 1).toNat]
    · rw [if_pos (by omega)]
    · intro j _ hne
      rw [if_neg (by omega)]
    · intro hnot
      exfalso
      apply hnot
      rw [Finset.mem_range]
      omega

/-- KVL for the branches whose two terminals are not one and the same
non-ground node: the solved branch voltage is the difference of the solved
voltages of its terminals. -/
theorem kvl_distinct_terminals (netlist : List Component) (s : Session)
    (hs : loadNetlist netlist = some s) (hns : s.isSingularMatrix = false)
    (b : Nat) (comp : Component) (hget : netlist.get? b = some comp)
    (hne : ¬ (comp.sourceNode = comp.destNode ∧ comp.sourceNode ≠ 0)) :
    s.circuitSolution.getD (s.numNodes + b) 0 =
      nodeVoltage s.circuitSolution comp.sourceNode -
        nodeVoltage s.circuitSolution comp.destNode := by
  obtain ⟨hN, _, _, hwf, _, h2, _⟩ := solved_equations hs hns
  have hb : b < netlist.length := by
    by_contra hcon
    rw [List.get?_eq_none.mpr (by omega)] at hget
    simp at hget
  have hmem := List.get?_mem hget
  obtain ⟨hs0, hd0, _, _⟩ := hwf comp hmem
  obtain ⟨hsN, hdN⟩ := (largestNode_spec netlist).2 comp hmem
  have h := h2 b hb
  have hsum : ∑ j in Finset.range (largestNode netlist).toNat,
      incidenceEntry netlist j b * vecOf s.circuitSolution j =
      (∑ j in Finset.range (largestNode netlist).toNat,
        (if comp.sourceNode = (j : Int) + 1 then vecOf s.circuitSolution j else 0)) -
      ∑ j in Finset.range (largestNode netlist).toNat,
        (if comp.destNode = (j : Int) + 1 then vecOf s.circuitSolution j else 0) := by
    rw [← Finset.sum_sub_distrib]
    apply Finset.sum_congr rfl
    intro j _
    unfold incidenceEntry
    rw [hget]
    simp only
    by_cases hd : comp.destNode = (j : Int) + 1
    · have hsn : ¬ comp.sourceNode = (j : Int) + 1 := by
        intro hsj
        apply hne
        constructor
        · rw [hsj, hd]
        · omega
      rw [if_pos hd, if_neg hsn, if_pos hd]
      ring
    · rw [if_neg hd, if_neg hd]
      by_cases hsj : comp.sourceNode = (j : Int) + 1
      · rw [if_pos hsj, if_pos hsj]; ring
      · rw [if_neg hsj, if_neg hsj]; ring
  rw [hsum, sum_indicator_node _ _ _ hs0 hsN, sum_indicator_node _ _ _ hd0 hdN] at h
  unfold nodeVoltage
  unfold vecOf at h
  rw [hN]
  linarith

/-- C2 at the failing input `V1 1 0 5`, `R1 1 1 2`: the load ends non-singular
with solution `(5, 5, -5, -5/2, -5/2)`; for branch `R1` (index 1), whose two
terminals are node 1, the solved branch voltage `solution[N+1]` is `-5`, while
the voltage of its `sourceNode` minus the voltage of its `destNode` is 0. -/
theorem kvl_fails_on_self_loop :
    ∃ s comp, loadNetlist selfLoop = some s ∧ s.isSingularMatrix = false ∧
      s.circuitSolution = [5, 5, -5, -5 / 2, -5 / 2] ∧
      selfLoop.get? 1 = some comp ∧ comp.sourceNode = 1 ∧ comp.destNode = 1 ∧
      s.circuitSolution.getD (s.numNodes + 1) 0 = -5 ∧
      nodeVoltage s.circuitSolution comp.sourceNode -
        nodeVoltage s.circuitSolution comp.destNode = 0 :=
  ⟨(loadNetlist selfLoop).getD clearNetList, ⟨"R1", 1, 1, 2⟩, by decide!, by decide!,
    by decide!, by decide!, by decide!, by decide!, by decide!, by decide!⟩

/-! ## Contradictory sources (C7) -/

theorem get?_lt {netlist : List Component} {b : Nat} {comp : Component}
    (hget : netlist.get? b = some comp) : b < netlist.length := by
  by_contra hcon
  rw [List.get?_eq_none.mpr (by omega)] at hget
  simp at hget

/-- C7: for every netlist that contains two voltage-source branches with the
same `sourceNode` and the same `destNode` (whatever their values, so also
different ones), a load that completes ends with `isSingularMatrix = true`
(`rref` does not return -1) and the solution vector stays empty. -/
theorem parallel_sources_singular (netlist : List Component) (s : Session)
    (hs : loadNetlist netlist = some s)
    (b1 b2 : Nat) (c1 c2 : Component) (hb : b1 ≠ b2)
    (hg1 : netlist.get? b1 = some c1) (hg2 : netlist.get? b2 = some c2)
    (hV1 : firstChar c1.ident = some 'V') (hV2 : firstChar c2.ident = some 'V')
    (hsrc : c1.sourceNode = c2.sourceNode) (hdst : c1.destNode = c2.destNode) :
    s.isSingularMatrix = true ∧
    (rref s.size ((assemble netlist).getD clearNetList).sparseMatrix).map Prod.fst
      ≠ some (-1) ∧
    s.circuitSolution = [] := by
  have hb1 := get?_lt hg1
  have hb2 := get?_lt hg2
  cases ha : assemble netlist with
  | none => simp [loadNetlist, ha] at hs
  | some a =>
    have hs' := hs
    rw [loadNetlist_eq ha] at hs'
    have hspec := assemble_spec netlist
    rw [ha] at hspec
    obtain ⟨_, _, _, _, hsz, hsol0, _, _, _, _, _, _, _, _, heT⟩ := hspec
    obtain ⟨flag, Mf, hr, _, hsize, _, _, _, hcase⟩ := guassianElimination_spec hs'
    have hsing : s.isSingularMatrix = true := by
      by_contra hcon
      have hns : s.isSingularMatrix = false := by simpa using hcon
      obtain ⟨_, hsol, huniq⟩ := solved_unique (assemble_dims ha) hs' hns
      rw [hsz] at hsol huniq
      obtain ⟨h1, h2, h3⟩ := (solves_tableau_iff netlist a.sparseMatrix _ heT).mp hsol
      have hinc : ∀ r, incidenceEntry netlist r b1 = incidenceEntry netlist r b2 := by
        intro r
        unfold incidenceEntry
        rw [hg1, hg2]
        simp only [hsrc, hdst]
      have hco1 : currentCoefAt netlist b1 = 0 := by
        unfold currentCoefAt; rw [hg1]; simp [currentCoef, hV1]
      have hco2 : currentCoefAt netlist b2 = 0 := by
        unfold currentCoefAt; rw [hg2]; simp [currentCoef, hV2]
      have hy := (solves_tableau_iff netlist a.sparseMatrix
        (fun j => vecOf s.circuitSolution j +
          (if j = (largestNode netlist).toNat + netlist.length + b1 then 1 else 0) -
          (if j = (largestNode netlist).toNat + netlist.length + b2 then 1 else 0)) heT).mpr
        ⟨fun r hr => by
          have e : ∀ b, b ∈ Finset.range netlist.length →
              incidenceEntry netlist r b *
                (vecOf s.circuitSolution ((largestNode netlist).toNat + netlist.length + b) +
                  (if (largestNode netlist).toNat + netlist.length + b =
                      (largestNode netlist).toNat + netlist.length + b1 then 1 else 0) -
                  (if (largestNode netlist).toNat + netlist.length + b =
                      (largestNode netlist).toNat + netlist.length + b2 then 1 else 0)) =
              incidenceEntry netlist r b *
                  vecOf s.circuitSolution ((largestNode netlist).toNat + netlist.length + b) +
                ((if b = b1 then incidenceEntry netlist r b else 0) -
                  (if b = b2 then incidenceEntry netlist r b else 0)) := by
            intro b _
            by_cases e1 : b = b1
            · by_cases e2 : b = b2
              · omega
              · rw [if_pos (by omega), if_neg (by omega), if_pos e1, if_neg e2]; ring
            · by_cases e2 : b = b2
              · rw [if_neg (by omega), if_pos (by omega), if_neg e1, if_pos e2]; ring
              · rw [if_neg (by omega), if_neg (by omega), if_neg e1, if_neg e2]; ring
          rw [Finset.sum_congr rfl e, Finset.sum_add_distrib, Finset.sum_sub_distrib,
            h1 r hr, Finset.sum_ite_eq', Finset.sum_ite_eq',
            if_pos (Finset.mem_range.mpr hb1), if_pos (Finset.mem_range.mpr hb2), hinc r]
          ring,
        fun b hbB => by
          have e : ∀ j, j ∈ Finset.range (largestNode netlist).toNat →
              incidenceEntry netlist j b *
                (vecOf s.circuitSolution j +
                  (if j = (largestNode netlist).toNat + netlist.length + b1 then 1 else 0) -
                  (if j = (largestNode netlist).toNat + netlist.length + b2 then 1 else 0)) =
              incidenceEntry netlist j b * vecOf s.circuitSolution j := by
            intro j hj
            have := Finset.mem_range.mp hj
            rw [if_neg (by omega), if_neg (by omega)]
            ring
          rw [Finset.sum_congr rfl e, if_neg (by omega), if_neg (by omega)]
          have := h2 b hbB
          linarith,
        fun b hbB => by
          have := h3 b hbB
          rw [if_neg (by omega), if_neg (by omega)]
          by_cases e1 : b = b1
          · subst e1
            rw [hco1] at this ⊢
            linarith
          · by_cases e2 : b = b2
            · subst e2
              rw [hco2] at this ⊢
              linarith
            · rw [if_neg (by omega), if_neg (by omega)]
              linarith⟩
      have hu := huniq _ hy ((largestNode netlist).toNat + netlist.length + b1) (by omega)
      have hu2 : vecOf s.circuitSolution ((largestNode netlist).toNat + netlist.length + b1) +
          (if (largestNode netlist).toNat + netlist.length + b1 =
            (largestNode netlist).toNat + netlist.length + b1 then 1 else 0) -
          (if (largestNode netlist).toNat + netlist.length + b1 =
            (largestNode netlist).toNat + netlist.length + b2 then 1 else 0) =
          vecOf s.circuitSolution ((largestNode netlist).toNat + netlist.length + b1) := hu
      rw [if_pos rfl, if_neg (by omega)] at hu2
      linarith
    rcases hcase with ⟨_, hns, _, _⟩ | ⟨hf, _, hsol, _⟩
    · rw [hsing] at hns
      simp at hns
    · refine ⟨hsing, ?_, by rw [hsol, hsol0]⟩
      simp only [Option.getD_some]
      rw [hsize, hr]
      simp only [Option.map_some', ne_eq, Option.some.injEq]
      exact hf

theorem parallel_sources_singular_witness :
    ∃ s c1 c2, loadNetlist contradictorySources = some s ∧ (0 : Nat) ≠ 1 ∧
      contradictorySources.get? 0 = some c1 ∧ contradictorySources.get? 1 = some c2 ∧
      firstChar c1.ident = some 'V' ∧ firstChar c2.ident = some 'V' ∧
      c1.sourceNode = c2.sourceNode ∧ c1.destNode = c2.destNode ∧ c1.value ≠ c2.value ∧
      (s.isSingularMatrix = true ∧
      (rref s.size ((assemble contradictorySources).getD clearNetList).sparseMatrix).map
        Prod.fst ≠ some (-1) ∧
      s.circuitSolution = []) :=
  ⟨(loadNetlist contradictorySources).getD clearNetList, ⟨"V1", 1, 0, 5⟩, ⟨"V2", 1, 0, 3⟩,
    by decide!, by decide!, by decide!, by decide!, by decide!, by decide!, by decide!,
    by decide!, by decide!,
    parallel_sources_singular contradictorySources _ (by decide!) 0 1
      ⟨"V1", 1, 0, 5⟩ ⟨"V2", 1, 0, 3⟩ (by decide!) (by decide!) (by decide!) (by decide!)
      (by decide!) (by decide!) (by decide!)⟩

/-! ## Isolated node (C6) -/

theorem isolated_step {size N k i : Nat} {M : Mat} {p : Nat × Int} (hk1 : 1 ≤ k)
    (hkN : k ≤ N) (hi : i < size)
    (hP : i ≤ k - 1 ∧ Dims M size (size + 1) ∧ (∀ r, r < size → getEntry M r (k - 1) = 0) ∧
      ∀ r, i ≤ r → r < N → (∀ c, c < N → getEntry M r c = 0) ∧ getEntry M r size = 0)
    (hp : findMaxRow size i M = some p) (hz : p.2 ≠ 0) :
    i + 1 ≤ k - 1 ∧
    Dims (reduceOtherRows size i (reduceMaxRow size i (swapWithTop i p.1 M))) size (size + 1) ∧
    (∀ r, r < size →
      getEntry (reduceOtherRows size i (reduceMaxRow size i (swapWithTop i p.1 M))) r (k - 1)
        = 0) ∧
    ∀ r, i + 1 ≤ r → r < N →
      (∀ c, c < N →
        getEntry (reduceOtherRows size i (reduceMaxRow size i (swapWithTop i p.1 M))) r c = 0) ∧
      getEntry (reduceOtherRows size i (reduceMaxRow size i (swapWithTop i p.1 M))) r size
        = 0 := by
  obtain ⟨hik, hD, hcol, hrows⟩ := hP
  obtain ⟨hp1, hp2, hp3⟩ := findMaxRow_spec hi hp
  have hpiv := hp3 hz
  have hne : i ≠ k - 1 := by
    intro e
    have hzero := findMaxRow_zero_column hi (M := M) (fun r _ hr => by rw [e]; exact hcol r hr)
    rw [hzero] at hp
    have := Option.some.inj hp
    rw [← this] at hz
    exact hz rfl
  have hiN : i < N := by omega
  have hpN : N ≤ p.1 := by
    by_contra hcon
    exact hpiv ((hrows p.1 hp1 (by omega)).1 i hiN)
  have hD1 := Dims_swapWithTop hD hi hp2
  have e1 := getEntry_swapWithTop hD hi hp2
  obtain ⟨hD2, e2⟩ := reduceMaxRow_spec hD1 hi
  obtain ⟨hD3, e3⟩ := reduceOtherRows_spec hD2 hi
  generalize swapWithTop i p.1 M = M1 at *
  generalize reduceMaxRow size i M1 = M2 at *
  generalize reduceOtherRows size i M2 = M3 at *
  have col1 : ∀ r, r < size → getEntry M1 r (k - 1) = 0 := by
    intro r hr
    rw [e1 r (k - 1)]
    by_cases h1 : r = i
    · rw [if_pos h1]; exact hcol p.1 hp2
    · rw [if_neg h1]
      by_cases h2 : r = p.1
      · rw [if_pos h2]; exact hcol i hi
      · rw [if_neg h2]; exact hcol r hr
  have col2 : ∀ r, r < size → getEntry M2 r (k - 1) = 0 := by
    intro r hr
    rw [e2 r (k - 1)]
    by_cases h1 : r = i ∧ i ≤ k - 1 ∧ k - 1 ≤ size
    · rw [if_pos h1, col1 i hi]; simp
    · rw [if_neg h1]; exact col1 r hr
  have row2 : ∀ r c, i + 1 ≤ r → r < N → getEntry M2 r c = getEntry M r c := by
    intro r c hr1 hr2
    rw [e2 r c, if_neg (by omega), e1 r c, if_neg (by omega), if_neg (by omega)]
  refine ⟨by omega, hD3, fun r hr => ?_, fun r hr1 hr2 => ⟨fun c hc => ?_, ?_⟩⟩
  · rw [e3 r (k - 1)]
    by_cases h1 : i < r ∧ r < size ∧ i ≤ k - 1 ∧ k - 1 ≤ size
    · rw [if_pos h1, col2 r hr, col2 i hi]; ring
    · rw [if_neg h1]; exact col2 r hr
  · rw [e3 r c]
    by_cases h1 : i < r ∧ r < size ∧ i ≤ c ∧ c ≤ size
    · rw [if_pos h1, row2 r c hr1 hr2, row2 r i hr1 hr2, (hrows r (by omega) hr2).1 c hc,
        (hrows r (by omega) hr2).1 i hiN]
      ring
    · rw [if_neg h1, row2 r c hr1 hr2]
      exact (hrows r (by omega) hr2).1 c hc
  · rw [e3 r size, if_pos ⟨by omega, by omega, by omega, le_refl _⟩, row2 r size hr1 hr2,
      row2 r i hr1 hr2, (hrows r (by omega) hr2).2, (hrows r (by omega) hr2).1 i hiN]
    ring

/-- C6: for every netlist in which some node `k` with `1 ≤ k ≤ N` is a
terminal of no component, a load that completes ends with
`isSingularMatrix = true`: `rref` returns a row index `i` with `0 ≤ i ≤ k-1`
(never -1), the right-hand side of that row of the partially reduced matrix is
0, and the message printed is the one for "may have infinitely many
solutions", not "inconsistent". -/
theorem isolated_node_singular (netlist : List Component) (s : Session) (k : Nat)
    (hs : loadNetlist netlist = some s)
    (hk1 : 1 ≤ k) (hkN : k ≤ (largestNode netlist).toNat)
    (hiso : ∀ c, c ∈ netlist → c.sourceNode ≠ k ∧ c.destNode ≠ k) :
    s.isSingularMatrix = true ∧
    ∃ i : Nat,
      (rref s.size ((assemble netlist).getD clearNetList).sparseMatrix).map Prod.fst
        = some (i : Int) ∧
      i ≤ k - 1 ∧
      getEntry s.sparseMatrix i s.size = 0 ∧
      s.console = ["Singular Matrix: May have infinitely many solutions."] ∧
      s.circuitSolution = [] := by
  cases ha : assemble netlist with
  | none => simp [loadNetlist, ha] at hs
  | some a =>
    rw [loadNetlist_eq ha] at hs
    have hspec := assemble_spec netlist
    rw [ha] at hspec
    obtain ⟨_, _, _, _, hsz, hsol0, _, hcon0, _, _, _, _, _, hdT, heT⟩ := hspec
    obtain ⟨flag, Mf, hr, hMf, hsize, _, _, _, hcase⟩ := guassianElimination_spec hs
    rw [hsz] at hr
    have hinc0 : ∀ b, incidenceEntry netlist (k - 1) b = 0 := by
      intro b
      unfold incidenceEntry
      cases hg : netlist.get? b with
      | none => rfl
      | some comp =>
        have := hiso comp (List.get?_mem hg)
        simp only
        rw [if_neg (by omega), if_neg (by omega)]
    have key := rrefFrom_inv
      (fun i M => i ≤ k - 1 ∧
        Dims M ((largestNode netlist).toNat + netlist.length * 2)
          ((largestNode netlist).toNat + netlist.length * 2 + 1) ∧
        (∀ r, r < (largestNode netlist).toNat + netlist.length * 2 →
          getEntry M r (k - 1) = 0) ∧
        ∀ r, i ≤ r → r < (largestNode netlist).toNat →
          (∀ c, c < (largestNode netlist).toNat → getEntry M r c = 0) ∧
          getEntry M r ((largestNode netlist).toNat + netlist.length * 2) = 0)
      ((largestNode netlist).toNat + netlist.length * 2)
      (fun i M p hi hP hp hz => isolated_step hk1 hkN hi hP hp hz)
      ((largestNode netlist).toNat + netlist.length * 2) 0 a.sparseMatrix flag Mf (by omega)
      ⟨by omega, hdT, fun r hr' => by
          rw [heT r _ hr']
          by_cases hr1 : r < (largestNode netlist).toNat
          · rw [tableauEntry_kcl netlist hr1, if_neg (by omega)]
          · by_cases hr2 : r < (largestNode netlist).toNat + netlist.length
            · obtain ⟨b, rfl⟩ : ∃ b, r = (largestNode netlist).toNat + b :=
                ⟨r - (largestNode netlist).toNat, by omega⟩
              rw [tableauEntry_kvl netlist (by omega), if_pos (by omega), hinc0]
              ring
            · obtain ⟨b, rfl⟩ : ∃ b, r = (largestNode netlist).toNat + netlist.length + b :=
                ⟨r - ((largestNode netlist).toNat + netlist.length), by omega⟩
              rw [tableauEntry_constitutive netlist (by omega), if_neg (by omega),
                if_neg (by omega), if_neg (by omega)],
        fun r _ hr2 => ⟨fun c hc => by
          rw [heT r c (by omega), tableauEntry_kcl netlist hr2, if_neg (by omega)], by
          rw [heT r _ (by omega), tableauEntry_kcl netlist hr2, if_neg (by omega)]⟩⟩
      hr
    rcases key with ⟨_, hle, _⟩ | ⟨j, hj, _, hjs, ⟨hjk, _, _, hrows⟩, _⟩
    · omega
    · have hflag : flag ≠ -1 := by rw [hj]; omega
      rcases hcase with ⟨hf, _⟩ | ⟨_, hsing, hsol, hcons⟩
      · exact absurd hf hflag
      · have hrhs : getEntry Mf j ((largestNode netlist).toNat + netlist.length * 2) = 0 :=
          (hrows j (le_refl _) (by omega)).2
        refine ⟨hsing, j, ?_, hjk, ?_, ?_, by rw [hsol, hsol0]⟩
        · simp only [Option.getD_some]
          rw [hsize, hsz, hr, hj]
          rfl
        · rw [hMf, hsize, hsz]; exact hrhs
        · rw [hcons, hcon0, hj, hsz]
          simp only [Int.toNat_ofNat, hrhs, ne_eq, not_true_eq_false, if_false,
            List.nil_append]

theorem isolated_node_singular_witness :
    ∃ s, loadNetlist isolatedNode = some s ∧ 1 ≤ 2 ∧ 2 ≤ (largestNode isolatedNode).toNat ∧
      (∀ c, c ∈ isolatedNode → c.sourceNode ≠ (2 : Nat) ∧ c.destNode ≠ (2 : Nat)) ∧
      (s.isSingularMatrix = true ∧
      ∃ i : Nat,
        (rref s.size ((assemble isolatedNode).getD clearNetList).sparseMatrix).map Prod.fst
          = some (i : Int) ∧
        i ≤ 2 - 1 ∧
        getEntry s.sparseMatrix i s.size = 0 ∧
        s.console = ["Singular Matrix: May have infinitely many solutions."] ∧
        s.circuitSolution = []) :=
  have hiso : ∀ c, c ∈ isolatedNode → c.sourceNode ≠ (2 : Nat) ∧ c.destNode ≠ (2 : Nat) := by
    intro c hc
    simp only [isolatedNode, List.mem_cons, List.mem_singleton, List.not_mem_nil,
      or_false] at hc
    rcases hc with rfl | rfl <;> decide!
  ⟨(loadNetlist isolatedNode).getD clearNetList, by decide!, by decide!, by decide!, hiso,
    isolated_node_singular isolatedNode _ 2 (by decide!) (by decide!) (by decide!) hiso⟩

/-! ## Kirchhoff's current law (C11) -/

/-- KCL at a node `n` that is not both terminals of any one branch: the solved
currents of the branches that end on `n` sum to those of the branches that
start on `n`. -/
theorem kcl_without_self_loop (netlist : List Component) (s : Session)
    (hs : loadNetlist netlist = some s) (hns : s.isSingularMatrix = false)
    (n : Nat) (hn1 : 1 ≤ n) (hnN : n ≤ s.numNodes)
    (hloop : ∀ c, c ∈ netlist → ¬ (c.sourceNode = n ∧ c.destNode = n)) :
    currentInto netlist s.circuitSolution n = currentOutOf netlist s.circuitSolution n := by
  obtain ⟨hN, _, _, _, h1, _, _⟩ := solved_equations hs hns
  rw [hN] at hnN
  have h := h1 (n - 1) (by omega)
  have key : currentOutOf netlist s.circuitSolution n -
      currentInto netlist s.circuitSolution n =
      ∑ b in Finset.range netlist.length, incidenceEntry netlist (n - 1) b *
        vecOf s.circuitSolution ((largestNode netlist).toNat + netlist.length + b) := by
    unfold currentInto currentOutOf
    rw [← Finset.sum_sub_distrib]
    apply Finset.sum_congr rfl
    intro b _
    unfold incidenceEntry vecOf
    have e : ((n - 1 : Nat) : Int) + 1 = (n : Int) := by omega
    cases hg : netlist.get? b with
    | none => simp
    | some c =>
      simp only
      rw [e]
      have hl := hloop c (List.get?_mem hg)
      by_cases hd : c.destNode = n
      · have hsn : ¬ c.sourceNode = n := fun hh => hl ⟨hh, hd⟩
        rw [if_pos hd, if_neg hsn, if_pos hd]
        ring
      · rw [if_neg hd, if_neg hd]
        by_cases hsn : c.sourceNode = n
        · rw [if_pos hsn, if_pos hsn]; ring
        · rw [if_neg hsn, if_neg hsn]; ring
  rw [h] at key
  linarith

/-- C11 at the failing input `V1 1 0 5`, `R1 1 1 2`: the load ends non-singular
with branch currents `-5/2` (`V1`) and `-5/2` (`R1`); at node 1 the currents of
the branches whose `destNode` is 1 (`R1`) sum to `-5/2`, those of the branches
whose `sourceNode` is 1 (`V1` and `R1`) sum to `-5`. -/
theorem kcl_fails_on_self_loop :
    ∃ s, loadNetlist selfLoop = some s ∧ s.isSingularMatrix = false ∧
      s.numNodes = 1 ∧
      currentInto selfLoop s.circuitSolution 1 = -5 / 2 ∧
      currentOutOf selfLoop s.circuitSolution 1 = -5 ∧
      currentInto selfLoop s.circuitSolution 1 ≠ currentOutOf selfLoop s.circuitSolution 1 :=
  ⟨(loadNetlist selfLoop).getD clearNetList, by decide!, by decide!, by decide!,
    by decide!, by decide!, by decide!⟩

/-! ## Scenarios A and B (C12, C13) -/

/-- C12: for `V1 1 0 5`, `R1 1 0 1`, in either order of the two lines, the
load ends non-singular, the voltage of node 1 (`solution[0]`) is 5 and the
branch current of the resistor (`solution[N+B+b]` with `b` the resistor's
position) is 5. -/
theorem scenario_A :
    (∃ s, loadNetlist scenarioA = some s ∧ s.isSingularMatrix = false ∧
      s.numNodes = 1 ∧ s.numBranches = 2 ∧
      s.circuitSolution.getD 0 0 = 5 ∧
      s.circuitSolution.getD (s.numNodes + s.numBranches + 1) 0 = 5) ∧
    (∃ s, loadNetlist scenarioASwapped = some s ∧ s.isSingularMatrix = false ∧
      s.numNodes = 1 ∧ s.numBranches = 2 ∧
      s.circuitSolution.getD 0 0 = 5 ∧
      s.circuitSolution.getD (s.numNodes + s.numBranches + 0) 0 = 5) :=
  ⟨⟨(loadNetlist scenarioA).getD clearNetList, by decide!, by decide!, by decide!,
      by decide!, by decide!, by decide!⟩,
   ⟨(loadNetlist scenarioASwapped).getD clearNetList, by decide!, by decide!, by decide!,
      by decide!, by decide!, by decide!⟩⟩

/-- C13: for `V1 1 0 10`, `R1 1 2 2`, `R2 2 0 3` the load ends non-singular,
the voltage of the intermediate node 2 (`solution[1]`) is 6 and the branch
currents of both resistors (`solution[N+B+1]`, `solution[N+B+2]`) are 2. -/
theorem scenario_B :
    ∃ s, loadNetlist scenarioB = some s ∧ s.isSingularMatrix = false ∧
      s.numNodes = 2 ∧ s.numBranches = 3 ∧
      s.circuitSolution.getD 1 0 = 6 ∧
      s.circuitSolution.getD (s.numNodes + s.numBranches + 1) 0 = 2 ∧
      s.circuitSolution.getD (s.numNodes + s.numBranches + 2) 0 = 2 :=
  ⟨(loadNetlist scenarioB).getD clearNetList, by decide!, by decide!, by decide!,
    by decide!, by decide!, by decide!, by decide!⟩

/-! ## Status and solution vector after a load (C14) -/

/-- C14: after a load, `isSingularMatrix` is true exactly when `rref` returned
a row index other than -1; in that case back substitution is not run and the
solution vector is left empty, as `clearNetList` left it; otherwise the
solution vector is the result of back substitution and has length exactly
`size = N + 2B`. -/
theorem status_and_solution_after_load (netlist : List Component) (s : Session)
    (hs : loadNetlist netlist = some s) :
    ∃ a flag Mf, assemble netlist = some a ∧
      rref a.size a.sparseMatrix = some (flag, Mf) ∧
      (s.isSingularMatrix = true ↔ flag ≠ -1) ∧
      (flag ≠ -1 → s.circuitSolution = [] ∧ s.circuitSolution = clearNetList.circuitSolution) ∧
      (flag = -1 → s.circuitSolution = backSubstitutioh a.size Mf ∧
        s.circuitSolution.length = s.size) ∧
      s.size = s.numNodes + 2 * s.numBranches ∧
      s.numNodes = (largestNode netlist).toNat ∧ s.numBranches = netlist.length := by
  cases ha : assemble netlist with
  | none => simp [loadNetlist, ha] at hs
  | some a =>
    rw [loadNetlist_eq ha] at hs
    have hspec := assemble_spec netlist
    rw [ha] at hspec
    obtain ⟨_, _, hN, hB, hsz, hsol0, _⟩ := hspec
    obtain ⟨flag, Mf, hr, _, hsize, hnn, hnb, _, hcase⟩ := guassianElimination_spec hs
    refine ⟨a, flag, Mf, rfl, hr, ?_, ?_, ?_, ?_, by rw [hnn, hN], by rw [hnb, hB]⟩
    · rcases hcase with ⟨hf, hns, _, _⟩ | ⟨hf, hsing, _, _⟩
      · rw [hns, hf]; simp
      · rw [hsing]; simp [hf]
    · intro hf
      rcases hcase with ⟨hf', _⟩ | ⟨_, _, hsol, _⟩
      · exact absurd hf' hf
      · rw [hsol, hsol0]; exact ⟨rfl, rfl⟩
    · intro hf
      rcases hcase with ⟨_, _, hsol, _⟩ | ⟨hf', _⟩
      · refine ⟨hsol, ?_⟩
        rw [hsol, hsize]
        exact (backSubstitutioh_spec a.size Mf).1
      · exact absurd hf hf'
    · rw [hsize, hsz, hnn, hnb, hN, hB]
      omega

theorem status_and_solution_after_load_witness :
    ∃ s, loadNetlist parallelSources = some s ∧
      ∃ a flag Mf, assemble parallelSources = some a ∧
        rref a.size a.sparseMatrix = some (flag, Mf) ∧
        (s.isSingularMatrix = true ↔ flag ≠ -1) ∧
        (flag ≠ -1 → s.circuitSolution = [] ∧
          s.circuitSolution = clearNetList.circuitSolution) ∧
        (flag = -1 → s.circuitSolution = backSubstitutioh a.size Mf ∧
          s.circuitSolution.length = s.size) ∧
        s.size = s.numNodes + 2 * s.numBranches ∧
        s.numNodes = (largestNode parallelSources).toNat ∧
        s.numBranches = parallelSources.length :=
  ⟨(loadNetlist parallelSources).getD clearNetList, by decide!,
    status_and_solution_after_load parallelSources _ (by decide!)⟩

/-! ## Unrecognised component kind (C20) -/

/-- C20: for every component whose identifier's first character is neither
`'V'` nor `'R'`, whatever its value, the assembled constitutive row `N+B+b` has
voltage coefficient 1 (column `N+b`), current coefficient 0 (column `N+B+b`),
right-hand side 0 (column `size`) and 0 in every other column: the branch is
constrained to "branch voltage = 0", like a 0 V source. -/
theorem unrecognised_kind_row (netlist : List Component) (a : Session)
    (ha : assemble netlist = some a) (b : Nat) (comp : Component)
    (hget : netlist.get? b = some comp)
    (hV : firstChar comp.ident ≠ some 'V') (hR : firstChar comp.ident ≠ some 'R') :
    getEntry a.sparseMatrix (a.numNodes + a.numBranches + b) (a.numNodes + b) = 1 ∧
    getEntry a.sparseMatrix (a.numNodes + a.numBranches + b)
      (a.numNodes + a.numBranches + b) = 0 ∧
    getEntry a.sparseMatrix (a.numNodes + a.numBranches + b) a.size = 0 ∧
    ∀ c, c ≠ a.numNodes + b →
      getEntry a.sparseMatrix (a.numNodes + a.numBranches + b) c = 0 := by
  have hb := get?_lt hget
  have hspec := assemble_spec netlist
  rw [ha] at hspec
  obtain ⟨_, _, hN, hB, hsz, _, _, _, _, _, _, _, _, _, heT⟩ := hspec
  have hco : currentCoefAt netlist b = 0 := by
    unfold currentCoefAt; rw [hget]; simp [currentCoef, hV, hR]
  have hsv : sourceValueAt netlist b = 0 := by
    unfold sourceValueAt; rw [hget]; simp [sourceValue, hV]
  have row : ∀ c, getEntry a.sparseMatrix (a.numNodes + a.numBranches + b) c =
      if c = a.numNodes + b then 1 else 0 := by
    intro c
    rw [hN, hB, heT _ c (by omega), tableauEntry_constitutive netlist hb, hco, hsv]
    split_ifs <;> rfl
  refine ⟨?_, ?_, ?_, fun c hc => ?_⟩
  · rw [row, if_pos rfl]
  · rw [row, if_neg (by omega)]
  · rw [row, if_neg (by omega)]
  · rw [row, if_neg hc]

theorem unrecognised_kind_row_witness :
    ∃ a comp, assemble unknownKind = some a ∧ unknownKind.get? 1 = some comp ∧
      comp.value = 3 ∧
      firstChar comp.ident ≠ some 'V' ∧ firstChar comp.ident ≠ some 'R' ∧
      (getEntry a.sparseMatrix (a.numNodes + a.numBranches + 1) (a.numNodes + 1) = 1 ∧
      getEntry a.sparseMatrix (a.numNodes + a.numBranches + 1)
        (a.numNodes + a.numBranches + 1) = 0 ∧
      getEntry a.sparseMatrix (a.numNodes + a.numBranches + 1) a.size = 0 ∧
      ∀ c, c ≠ a.numNodes + 1 →
        getEntry a.sparseMatrix (a.numNodes + a.numBranches + 1) c = 0) :=
  ⟨(assemble unknownKind).getD clearNetList, ⟨"I1", 1, 2, 3⟩, by decide!, by decide!,
    by decide!, by decide!, by decide!,
    unrecognised_kind_row unknownKind _ (by decide!) 1 ⟨"I1", 1, 2, 3⟩ (by decide!)
      (by decide!) (by decide!)⟩

/-! ## Solving twice (C15) -/

theorem set_getD_self {α : Type} (l : List α) (i : Nat) (d : α) : l.set i (l.getD i d) = l := by
  induction l generalizing i with
  | nil => simp
  | cons hd tl ih =>
    cases i with
    | zero => simp
    | succ k =>
      simp only [List.set_cons_succ, List.getD_cons_succ]
      rw [ih k]

theorem setEntry_self (M : Mat) (r c : Nat) : setEntry M r c (getEntry M r c) = M := by
  unfold setEntry getEntry
  rw [set_getD_self (M.getD r []) c 0, set_getD_self M r []]

theorem toInt_one : toInt 1 = some 1 := by decide!

theorem findMaxRow_unit_column {M : Mat} {size i : Nat} (hi : i < size)
    (hone : getEntry M i i = 1)
    (hz : ∀ r, i < r → r < size → getEntry M r i = 0) :
    findMaxRow size i M = some (i, 1) := by
  unfold findMaxRow
  have key := forLoop_inv
    (fun (_ : Nat) (acc : Option (Nat × Int)) => acc = some (i, 1))
    (fun k (acc : Option (Nat × Int)) =>
      acc.bind fun st =>
      (toInt |getEntry M k i|).bind fun abs_cur_val =>
        if abs_cur_val > st.2 then some (k, abs_cur_val) else some st)
    i size ((toInt (getEntry M i i)).map fun v => (i, v)) (by omega)
    (by rw [hone, toInt_one]; rfl)
    (fun k acc hk1 hk2 hP => by
      rw [hP]
      simp only [Option.some_bind]
      by_cases hki : k = i
      · rw [hki, hone, abs_one, toInt_one]
        simp
      · rw [hz k (by omega) hk2, abs_zero, toInt_zero]
        simp)
  exact key

theorem rrefStep_unit_column {M : Mat} {size i : Nat}
    (hone : getEntry M i i = 1)
    (hz : ∀ r, i < r → r < size → getEntry M r i = 0) :
    reduceOtherRows size i (reduceMaxRow size i (swapWithTop i i M)) = M := by
  have h1 : swapWithTop i i M = M := by simp [swapWithTop]
  have h2 : reduceMaxRow size i M = M := by
    unfold reduceMaxRow
    simp only [hone, div_one]
    by_cases hle : i ≤ size + 1
    · exact forLoop_inv (fun (_ : Nat) (M' : Mat) => M' = M)
        (fun I M => setEntry M i I (getEntry M i I)) i (size + 1) M hle rfl
        (fun I M' _ _ hP => by rw [hP]; exact setEntry_self M i I)
    · exact forLoop_empty _ _ _ _ (by omega)
  have h3 : reduceOtherRows size i M = M := by
    unfold reduceOtherRows
    by_cases hle : i + 1 ≤ size
    · exact forLoop_inv (fun (_ : Nat) (M' : Mat) => M' = M) _ (i + 1) size M hle rfl
        (fun I M' hI1 hI2 hP => by
          rw [hP]
          simp only [hz I (by omega) hI2, if_true])
    · exact forLoop_empty _ _ _ _ (by omega)
  rw [h1, h2, h3]

theorem rrefFrom_echelon_fixed {size : Nat} {M : Mat} (hE : Echelon size size M)
    (n i : Nat) (hn : i + n = size) : rrefFrom size n i M = some (-1, M) := by
  induction n generalizing i with
  | zero => rfl
  | succ m ih =>
    obtain ⟨_, hZ, hO⟩ := hE
    have hi : i < size := by omega
    have hone := hO i hi
    have hz : ∀ r, i < r → r < size → getEntry M r i = 0 := fun r h1 h2 => hZ r i hi h1 h2
    rw [rrefFrom, findMaxRow_unit_column hi hone hz]
    simp only [Option.some_bind]
    rw [if_neg (by decide), rrefStep_unit_column hone hz]
    exact ih (i + 1) (by omega)

/-- C15: for every netlist solved as non-singular, running
`guassianElimination` a second time on the session left by the first run makes
`rref` return -1 again with the reduced matrix unchanged, and produces the
same solution vector: the session is left exactly as it was. -/
theorem solving_twice (netlist : List Component) (s : Session)
    (hs : loadNetlist netlist = some s) (hns : s.isSingularMatrix = false) :
    rref s.size s.sparseMatrix = some (-1, s.sparseMatrix) ∧
    ∃ s2, guassianElimination s = some s2 ∧
      s2.sparseMatrix = s.sparseMatrix ∧ s2.circuitSolution = s.circuitSolution ∧
      s2.isSingularMatrix = false ∧ s2 = s := by
  cases ha : assemble netlist with
  | none => simp [loadNetlist, ha] at hs
  | some a =>
    rw [loadNetlist_eq ha] at hs
    obtain ⟨flag, Mf, hr, hMf, hsize, _, _, _, hcase⟩ := guassianElimination_spec hs
    rcases hcase with ⟨hf, _, hsol, _⟩ | ⟨_, hsing, _⟩
    · rcases rref_echelon (assemble_dims ha) hr with ⟨_, hE, _⟩ | ⟨j, hj, _⟩
      · have hfix : rref s.size s.sparseMatrix = some (-1, s.sparseMatrix) := by
          rw [hMf, hsize]
          exact rrefFrom_echelon_fixed hE a.size 0 (by omega)
        refine ⟨hfix, s, ?_, rfl, rfl, hns, rfl⟩
        unfold guassianElimination
        rw [hfix]
        simp only [Option.some_bind, ne_eq, not_true_eq_false, if_false]
        have hsol' : backSubstitutioh s.size s.sparseMatrix = s.circuitSolution := by
          rw [hMf, hsize, hsol]
        rw [hsol']
        cases s
        simp_all
      · rw [hf] at hj
        omega
    · rw [hns] at hsing
      simp at hsing

theorem solving_twice_witness :
    ∃ s, loadNetlist scenarioA = some s ∧ s.isSingularMatrix = false ∧
      (rref s.size s.sparseMatrix = some (-1, s.sparseMatrix) ∧
      ∃ s2, guassianElimination s = some s2 ∧
        s2.sparseMatrix = s.sparseMatrix ∧ s2.circuitSolution = s.circuitSolution ∧
        s2.isSingularMatrix = false ∧ s2 = s) :=
  ⟨(loadNetlist scenarioA).getD clearNetList, by decide!, by decide!,
    solving_twice scenarioA _ (by decide!) (by decide!)⟩

/-! ## Line splitting (C16) -/

theorem splitLine_loop (line : String) :
    ∀ (suf pre : List Char) (comp : List String) (w : String),
      line.toList = pre ++ suf →
      iterUp (fun i (st : List String × String) =>
          if line.toList.getD i (Char.ofNat 0) = ' ' ∨ i = line.length then (st.1 ++ [st.2], "")
          else (st.1, st.2.push (line.toList.getD i (Char.ofNat 0))))
        (suf.length + 1) pre.length (comp, w) = (comp ++ splitChars suf w, "") := by
  intro suf
  induction suf with
  | nil =>
    intro pre comp w h
    have hl : line.length = pre.length := by
      show line.toList.length = _
      rw [h]; simp
    simp only [List.length_nil, zero_add, iterUp, splitChars]
    rw [if_pos (Or.inr hl.symm)]
  | cons c cs ih =>
    intro pre comp w h
    have hl : line.length = pre.length + (cs.length + 1) := by
      show line.toList.length = _
      rw [h]; simp
    have hget : line.toList.getD pre.length (Char.ofNat 0) = c := by
      rw [h, List.getD_eq_getElem?_getD, List.getElem?_append_right (le_refl _)]
      simp
    have h' : line.toList = (pre ++ [c]) ++ cs := by rw [h]; simp
    have hlen : (pre ++ [c]).length = pre.length + 1 := by simp
    rw [List.length_cons, iterUp, hget]
    by_cases hc : c = ' '
    · rw [if_pos (Or.inl hc)]
      have := ih (pre ++ [c]) (comp ++ [w]) "" h'
      rw [hlen] at this
      simp only [this, splitChars, if_pos hc]
      simp
    · have hne : ¬ (c = ' ' ∨ pre.length = line.length) := by
        intro hh
        rcases hh with hh | hh
        · exact hc hh
        · omega
      rw [if_neg hne]
      have := ih (pre ++ [c]) comp (w.push c) h'
      rw [hlen] at this
      simp only [this, splitChars, if_neg hc]

theorem splitLine_eq (line : String) : splitLine line = splitChars line.toList "" := by
  unfold splitLine forLoop
  have h := splitLine_loop line line.toList [] [] "" (by simp)
  have e : line.length + 1 - 0 = line.toList.length + 1 := rfl
  rw [e]
  simp only [List.length_nil] at h
  rw [h]
  simp

theorem splitChars_token (t : List Char) (ht : ∀ c, c ∈ t → c ≠ ' ') (rest : List Char)
    (w : String) :
    splitChars (t ++ ' ' :: rest) w = String.mk (w.data ++ t) :: splitChars rest "" := by
  induction t generalizing w with
  | nil => simp [splitChars]
  | cons c cs ih =>
    have hc : c ≠ ' ' := ht c (List.mem_cons_self _ _)
    show splitChars (c :: (cs ++ ' ' :: rest)) w = _
    rw [splitChars, if_neg hc, ih (fun d hd => ht d (List.mem_cons_of_mem _ hd))]
    cases w
    simp [String.push]

theorem splitChars_last (t : List Char) (ht : ∀ c, c ∈ t → c ≠ ' ') (w : String) :
    splitChars t w = [String.mk (w.data ++ t)] := by
  induction t generalizing w with
  | nil => simp [splitChars]
  | cons c cs ih =>
    have hc : c ≠ ' ' := ht c (List.mem_cons_self _ _)
    rw [splitChars, if_neg hc, ih (fun d hd => ht d (List.mem_cons_of_mem _ hd))]
    cases w
    simp [String.push]

/-- C16, as stated, fails: with two spaces between the first two tokens, the
line `V1  1 0 5` is split into `V1`, the empty string, `1`, `0`, `5`, so
position 1 holds the empty string and not the `sourceNode` token. -/
theorem split_line_counterexample :
    splitLine "V1  1 0 5" = ["V1", "", "1", "0", "5"] ∧
    (splitLine "V1  1 0 5").get? 1 ≠ some "1" := by
  decide!

/-- C16, amended: for every line made of four space-free tokens separated by
exactly one space each and followed by zero or more trailing spaces, the vector
built by the splitting loop of `readNewNetlist` has the identifier,
`sourceNode`, `destNode` and value tokens at positions 0, 1, 2 and 3. -/
theorem split_line_single_spaces (t0 t1 t2 t3 : List Char) (k : Nat)
    (h0 : ∀ c, c ∈ t0 → c ≠ ' ') (h1 : ∀ c, c ∈ t1 → c ≠ ' ')
    (h2 : ∀ c, c ∈ t2 → c ≠ ' ') (h3 : ∀ c, c ∈ t3 → c ≠ ' ') :
    (splitLine (String.mk (t0 ++ ' ' :: (t1 ++ ' ' :: (t2 ++ ' ' ::
      (t3 ++ List.replicate k ' ')))))).get? 0 = some (String.mk t0) ∧
    (splitLine (String.mk (t0 ++ ' ' :: (t1 ++ ' ' :: (t2 ++ ' ' ::
      (t3 ++ List.replicate k ' ')))))).get? 1 = some (String.mk t1) ∧
    (splitLine (String.mk (t0 ++ ' ' :: (t1 ++ ' ' :: (t2 ++ ' ' ::
      (t3 ++ List.replicate k ' ')))))).get? 2 = some (String.mk t2) ∧
    (splitLine (String.mk (t0 ++ ' ' :: (t1 ++ ' ' :: (t2 ++ ' ' ::
      (t3 ++ List.replicate k ' ')))))).get? 3 = some (String.mk t3) := by
  have hsplit : ∃ tl, splitLine (String.mk (t0 ++ ' ' :: (t1 ++ ' ' :: (t2 ++ ' ' ::
      (t3 ++ List.replicate k ' '))))) =
      String.mk t0 :: String.mk t1 :: String.mk t2 :: String.mk t3 :: tl := by
    rw [splitLine_eq]
    show ∃ tl, splitChars (t0 ++ ' ' :: (t1 ++ ' ' :: (t2 ++ ' ' ::
      (t3 ++ List.replicate k ' ')))) "" = _
    rw [splitChars_token t0 h0, splitChars_token t1 h1, splitChars_token t2 h2]
    cases k with
    | zero =>
      refine ⟨[], ?_⟩
      rw [List.replicate_zero, List.append_nil, splitChars_last t3 h3]
      rfl
    | succ m =>
      refine ⟨splitChars (List.replicate m ' ') "", ?_⟩
      rw [List.replicate_succ, splitChars_token t3 h3]
      rfl
  obtain ⟨tl, htl⟩ := hsplit
  rw [htl]
  exact ⟨rfl, rfl, rfl, rfl⟩

theorem split_line_single_spaces_witness :
    (∀ c, c ∈ "V1".toList → c ≠ ' ') ∧ (∀ c, c ∈ "1".toList → c ≠ ' ') ∧
    (∀ c, c ∈ "0".toList → c ≠ ' ') ∧ (∀ c, c ∈ "5".toList → c ≠ ' ') ∧
    ((splitLine (String.mk ("V1".toList ++ ' ' :: ("1".toList ++ ' ' :: ("0".toList ++ ' ' ::
      ("5".toList ++ List.replicate 2 ' ')))))).get? 0 = some (String.mk "V1".toList) ∧
    (splitLine (String.mk ("V1".toList ++ ' ' :: ("1".toList ++ ' ' :: ("0".toList ++ ' ' ::
      ("5".toList ++ List.replicate 2 ' ')))))).get? 1 = some (String.mk "1".toList) ∧
    (splitLine (String.mk ("V1".toList ++ ' ' :: ("1".toList ++ ' ' :: ("0".toList ++ ' ' ::
      ("5".toList ++ List.replicate 2 ' ')))))).get? 2 = some (String.mk "0".toList) ∧
    (splitLine (String.mk ("V1".toList ++ ' ' :: ("1".toList ++ ' ' :: ("0".toList ++ ' ' ::
      ("5".toList ++ List.replicate 2 ' ')))))).get? 3 = some (String.mk "5".toList)) :=
  ⟨by decide, by decide, by decide, by decide,
    split_line_single_spaces "V1".toList "1".toList "0".toList "5".toList 2
      (by decide) (by decide) (by decide) (by decide)⟩

/-! ## The states of the loop of `rref` (C18, C19) -/

theorem rrefAt_succ {size i : Nat} {M M' : Mat} (h : rrefAt size (i + 1) M = some M') :
    ∃ Mi p, rrefAt size i M = some Mi ∧ findMaxRow size i Mi = some p ∧ p.2 ≠ 0 ∧
      M' = reduceOtherRows size i (reduceMaxRow size i (swapWithTop i p.1 Mi)) := by
  rw [rrefAt] at h
  cases hMi : rrefAt size i M with
  | none => simp [hMi] at h
  | some Mi =>
    cases hp : findMaxRow size i Mi with
    | none => simp [hMi, hp] at h
    | some p =>
      simp only [hMi, hp, Option.some_bind] at h
      by_cases hz : p.2 = 0
      · simp [hz] at h
      · rw [if_neg hz] at h
        exact ⟨Mi, p, rfl, hp, hz, (Option.some.inj h).symm⟩

theorem rrefAt_echelon {size : Nat} {M : Mat} (hD : Dims M size (size + 1)) :
    ∀ i Mi, i ≤ size → rrefAt size i M = some Mi → Echelon size i Mi := by
  intro i
  induction i with
  | zero =>
    intro Mi _ h
    rw [rrefAt] at h
    rw [← Option.some.inj h]
    exact ⟨hD, fun r c hc => by omega, fun r hr => by omega⟩
  | succ k ih =>
    intro M' hk h
    obtain ⟨Mi, p, hMi, hp, hz, hM'⟩ := rrefAt_succ h
    rw [hM']
    exact (rrefStep_echelon (by omega) (ih Mi (by omega) hMi) hp hz).1

theorem rrefFrom_of_rrefAt {size : Nat} {M : Mat} :
    ∀ i Mi, i ≤ size → rrefAt size i M = some Mi →
      rrefFrom size (size - i) i Mi = rref size M := by
  intro i
  induction i with
  | zero =>
    intro Mi _ h
    rw [rrefAt] at h
    rw [← Option.some.inj h]
    rfl
  | succ k ih =>
    intro M' hk h
    obtain ⟨Mi, p, hMi, hp, hz, hM'⟩ := rrefAt_succ h
    have := ih Mi (by omega) hMi
    have e : size - k = (size - (k + 1)) + 1 := by omega
    rw [e, rrefFrom, hp] at this
    simp only [Option.some_bind, if_neg hz] at this
    rw [hM']
    exact this

theorem rrefAt_of_rref {size : Nat} {M Mf : Mat} (h : rref size M = some (-1, Mf)) :
    ∀ i, i ≤ size → ∃ Mi, rrefAt size i M = some Mi := by
  intro i
  induction i with
  | zero => intro _; exact ⟨M, rfl⟩
  | succ k ih =>
    intro hk
    obtain ⟨Mi, hMi⟩ := ih (by omega)
    have hfrom := rrefFrom_of_rrefAt k Mi (by omega) hMi
    rw [h] at hfrom
    have e : size - k = (size - (k + 1)) + 1 := by omega
    rw [e, rrefFrom] at hfrom
    cases hp : findMaxRow size k Mi with
    | none => simp [hp] at hfrom
    | some p =>
      simp only [hp, Option.some_bind] at hfrom
      by_cases hz : p.2 = 0
      · rw [if_pos hz] at hfrom
        have := (Prod.mk.inj (Option.some.inj hfrom)).1
        omega
      · refine ⟨reduceOtherRows size k (reduceMaxRow size k (swapWithTop k p.1 Mi)), ?_⟩
        rw [rrefAt, hMi]
        simp only [Option.some_bind, hp, if_neg hz]

/-- C19: for every augmented `size × (size+1)` matrix on which `rref` returns
-1, the resulting matrix has every diagonal entry equal to 1 and every entry
below the diagonal equal to 0; every iteration `i` of the loop was run, and its
divisor `d` (the entry `(i, i)` after the swap) is not zero; the divisors
`matrix[i][i]` of the back substitution that follows are not zero either. -/
theorem row_echelon_postcondition (size : Nat) (M Mf : Mat)
    (hD : Dims M size (size + 1)) (h : rref size M = some (-1, Mf)) :
    (∀ i, i < size → getEntry Mf i i = 1) ∧
    (∀ r c, c < r → r < size → getEntry Mf r c = 0) ∧
    (∀ i, i < size → ∃ Mi p, rrefAt size i M = some Mi ∧ findMaxRow size i Mi = some p ∧
      p.2 ≠ 0 ∧ getEntry (swapWithTop i p.1 Mi) i i ≠ 0) ∧
    (∀ i, i < size → getEntry Mf i i ≠ 0) := by
  have hE : Echelon size size Mf := by
    rcases rref_echelon hD h with ⟨_, hE, _⟩ | ⟨j, hj, _⟩
    · exact hE
    · omega
  obtain ⟨_, hZ, hO⟩ := hE
  refine ⟨hO, fun r c hc hr => hZ r c (by omega) hc hr, fun i hi => ?_, fun i hi => ?_⟩
  · obtain ⟨M', hM'⟩ := rrefAt_of_rref h (i + 1) (by omega)
    obtain ⟨Mi, p, hMi, hp, hz, _⟩ := rrefAt_succ hM'
    have hEi := rrefAt_echelon hD i Mi (by omega) hMi
    obtain ⟨_, hp2, hp3⟩ := findMaxRow_spec hi hp
    refine ⟨Mi, p, hMi, hp, hz, ?_⟩
    rw [getEntry_swapWithTop hEi.1 hi hp2 i i, if_pos rfl]
    exact hp3 hz
  · rw [hO i hi]
    exact one_ne_zero

theorem row_echelon_postcondition_witness :
    Dims sampleMatrix 2 (2 + 1) ∧
    rref 2 sampleMatrix = some (-1, [[1, 1 / 2, 3 / 2], [0, 1, 7 / 5]]) ∧
    ((∀ i, i < 2 → getEntry [[1, 1 / 2, 3 / 2], [0, 1, 7 / 5]] i i = 1) ∧
    (∀ r c, c < r → r < 2 → getEntry [[1, 1 / 2, 3 / 2], [0, 1, 7 / 5]] r c = 0) ∧
    (∀ i, i < 2 → ∃ Mi p, rrefAt 2 i sampleMatrix = some Mi ∧ findMaxRow 2 i Mi = some p ∧
      p.2 ≠ 0 ∧ getEntry (swapWithTop i p.1 Mi) i i ≠ 0) ∧
    (∀ i, i < 2 → getEntry [[1, 1 / 2, 3 / 2], [0, 1, 7 / 5]] i i ≠ 0)) :=
  have hD : Dims sampleMatrix 2 (2 + 1) :=
    ⟨rfl, fun k hk => by
      have hk' : k = 0 ∨ k = 1 := by omega
      rcases hk' with rfl | rfl <;> rfl⟩
  ⟨hD, by decide!,
    row_echelon_postcondition 2 sampleMatrix [[1, 1 / 2, 3 / 2], [0, 1, 7 / 5]] hD (by decide!)⟩

/-- C18 at the failing input `R1 1 0 1.5`, `V1 1 0 5`: `rref` returns -1, and
on entry to pivot step 3 the candidates of column 3 are 1 (row 3) and `3/2`
(row 4); the scan returns row 3 with `i_max_val = 1`, so row 3 stays in
position 3 although row 4 has the larger absolute value (both magnitudes are
held as the `int` 1). -/
theorem pivot_not_largest_magnitude :
    ∃ a M3, assemble pivotTie = some a ∧ a.size = 5 ∧
      (rref a.size a.sparseMatrix).map Prod.fst = some (-1) ∧
      rrefAt a.size 3 a.sparseMatrix = some M3 ∧
      findMaxRow a.size 3 M3 = some (3, 1) ∧
      getEntry M3 3 3 = 1 ∧ getEntry M3 4 3 = 3 / 2 ∧
      |getEntry M3 3 3| < |getEntry M3 4 3| :=
  ⟨(assemble pivotTie).getD clearNetList,
    (rrefAt 5 3 ((assemble pivotTie).getD clearNetList).sparseMatrix).getD [],
    by decide!, by decide!, by decide!, by decide!, by decide!, by decide!, by decide!,
    by decide!⟩

/-! ## Classification of a singular stop (C17) -/

theorem exists_back_solution (E : Nat → Nat → ℚ) (n j : Nat) (w : Nat → ℚ) :
    ∀ k, ∃ z : Nat → ℚ, (∀ c, j ≤ c → z c = w c) ∧
      ∀ r, j - k ≤ r → r < j → z r + ∑ c in Finset.Ico (r + 1) n, E r c * z c = 0 := by
  intro k
  induction k with
  | zero => exact ⟨w, fun c _ => rfl, fun r h1 h2 => by omega⟩
  | succ m ih =>
    obtain ⟨z, hz1, hz2⟩ := ih
    by_cases hjm : j ≤ m
    · exact ⟨z, hz1, fun r h1 h2 => hz2 r (by omega) h2⟩
    · refine ⟨Function.update z (j - (m + 1))
        (-(∑ c in Finset.Ico (j - (m + 1) + 1) n, E (j - (m + 1)) c * z c)), ?_, ?_⟩
      · intro c hc
        rw [Function.update_noteq (by omega)]
        exact hz1 c hc
      · intro r h1 h2
        have hsum : ∑ c in Finset.Ico (r + 1) n, E r c *
            Function.update z (j - (m + 1))
              (-(∑ c in Finset.Ico (j - (m + 1) + 1) n, E (j - (m + 1)) c * z c)) c =
            ∑ c in Finset.Ico (r + 1) n, E r c * z c := by
          apply Finset.sum_congr rfl
          intro c hc
          have := (Finset.mem_Ico.mp hc).1
          rw [Function.update_noteq (by omega)]
        rw [hsum]
        by_cases hr : r = j - (m + 1)
        · rw [hr, Function.update_same]
          ring
        · rw [Function.update_noteq hr]
          exact hz2 r (by omega) h2

theorem exists_null_vector {size j : Nat} {M : Mat} (hE : Echelon size j M)
    (hcol : ∀ r, j ≤ r → r < size → getEntry M r j = 0) :
    ∃ z : Nat → ℚ, z j = 1 ∧
      ∀ r, r < size → ∑ c in Finset.range size, getEntry M r c * z c = 0 := by
  obtain ⟨_, hZ, hO⟩ := hE
  obtain ⟨z, hz1, hz2⟩ := exists_back_solution (fun r c => getEntry M r c) size j
    (fun c => if c = j then 1 else 0) j
  refine ⟨z, by rw [hz1 j (le_refl _)]; simp, fun r hr => ?_⟩
  by_cases hrj : r < j
  · have h := hz2 r (by omega) hrj
    rw [Finset.range_eq_Ico, ← Finset.sum_Ico_consecutive _ (Nat.zero_le r) (le_of_lt hr),
      Finset.sum_eq_sum_Ico_succ_bot hr]
    have hzero : ∑ c in Finset.Ico 0 r, getEntry M r c * z c = 0 := by
      apply Finset.sum_eq_zero
      intro c hc
      have := (Finset.mem_Ico.mp hc).2
      rw [hZ r c (by omega) this hr]
      ring
    rw [hzero, hO r hrj]
    simp only at h
    linarith
  · apply Finset.sum_eq_zero
    intro c hc
    have hc' := Finset.mem_range.mp hc
    by_cases hcj : c < j
    · rw [hZ r c hcj (by omega) hr]; ring
    · by_cases hcj2 : c = j
      · rw [hcj2, hcol r (by omega) hr]; ring
      · rw [hz1 c (by omega), if_neg hcj2]; ring

theorem Solves_add_null {M : Mat} {n : Nat} {x z : Nat → ℚ} (hx : Solves M n x)
    (hz : ∀ r, r < n → ∑ c in Finset.range n, getEntry M r c * z c = 0) (t : ℚ) :
    Solves M n (fun j => x j + t * z j) := by
  intro r hr
  have h1 := hx r hr
  unfold RowSat at h1 ⊢
  have e : ∑ j in Finset.range n, getEntry M r j * (x j + t * z j) =
      (∑ j in Finset.range n, getEntry M r j * x j) +
        t * ∑ j in Finset.range n, getEntry M r j * z j := by
    rw [Finset.mul_sum, ← Finset.sum_add_distrib]
    apply Finset.sum_congr rfl
    intro j _
    ring
  rw [e, h1, hz r hr]
  ring

theorem no_solution_of_contradictory_sources (netlist : List Component) (a : Session)
    (ha : assemble netlist = some a) (b1 b2 : Nat) (c1 c2 : Component)
    (hg1 : netlist.get? b1 = some c1) (hg2 : netlist.get? b2 = some c2)
    (hV1 : firstChar c1.ident = some 'V') (hV2 : firstChar c2.ident = some 'V')
    (hsrc : c1.sourceNode = c2.sourceNode) (hdst : c1.destNode = c2.destNode)
    (hval : sourceValue c1 ≠ sourceValue c2) (y : Nat → ℚ) :
    ¬ Solves a.sparseMatrix a.size y := by
  intro hy
  have hb1 := get?_lt hg1
  have hb2 := get?_lt hg2
  have hspec := assemble_spec netlist
  rw [ha] at hspec
  obtain ⟨_, _, _, _, hsz, _, _, _, _, _, _, _, _, _, heT⟩ := hspec
  rw [hsz] at hy
  obtain ⟨_, h2, h3⟩ := (solves_tableau_iff netlist a.sparseMatrix y heT).mp hy
  have hinc : ∀ r, incidenceEntry netlist r b1 = incidenceEntry netlist r b2 := by
    intro r
    unfold incidenceEntry
    rw [hg1, hg2]
    simp only [hsrc, hdst]
  have hco1 : currentCoefAt netlist b1 = 0 := by
    unfold currentCoefAt; rw [hg1]; simp [currentCoef, hV1]
  have hco2 : currentCoefAt netlist b2 = 0 := by
    unfold currentCoefAt; rw [hg2]; simp [currentCoef, hV2]
  have hs1 : sourceValueAt netlist b1 = sourceValue c1 := by
    unfold sourceValueAt; rw [hg1]
  have hs2 : sourceValueAt netlist b2 = sourceValue c2 := by
    unfold sourceValueAt; rw [hg2]
  have k1 := h2 b1 hb1
  have k2 := h2 b2 hb2
  have e : ∑ j in Finset.range (largestNode netlist).toNat, incidenceEntry netlist j b1 * y j =
      ∑ j in Finset.range (largestNode netlist).toNat, incidenceEntry netlist j b2 * y j := by
    apply Finset.sum_congr rfl
    intro j _
    rw [hinc j]
  rw [e] at k1
  have m1 := h3 b1 hb1
  have m2 := h3 b2 hb2
  rw [hco1, hs1] at m1
  rw [hco2, hs2] at m2
  apply hval
  linarith

/-- C17 at two failing inputs, one for each half of the classification.
For `V1 1 0 5`, `R1 1 0 0.5` `rref` stops at row 4, the right-hand side of row 4
of the partially reduced matrix is `-5`, not zero, and the message is
"Inconsistent System", yet the assembled tableau has the solution
`(5, 5, 5, -10, 10)`. For `V1 1 0 5`, `V2 1 0 3`, `R1 3 0 1` `rref` stops at
row 1, where column 1 of the partially reduced matrix is exactly zero in every
row from 1 on, the right-hand side of row 1 is 0 and the message is "May have
infinitely many solutions", yet the assembled tableau has no solution at all. -/
theorem classification_contradicts_solution_set :
    (∃ a s, assemble halfOhm = some a ∧ loadNetlist halfOhm = some s ∧
      (rref a.size a.sparseMatrix).map Prod.fst = some 4 ∧
      getEntry s.sparseMatrix 4 a.size = -5 ∧
      getEntry s.sparseMatrix 4 a.size ≠ 0 ∧
      s.console = ["Singular Matrix: Inconsistent System"] ∧
      Solves a.sparseMatrix a.size (vecOf [5, 5, 5, -10, 10])) ∧
    (∃ a s, assemble contradictoryWithIsolatedNode = some a ∧
      loadNetlist contradictoryWithIsolatedNode = some s ∧
      (rref a.size a.sparseMatrix).map Prod.fst = some 1 ∧
      (∀ r, 1 ≤ r → r < a.size → getEntry s.sparseMatrix r 1 = 0) ∧
      getEntry s.sparseMatrix 1 a.size = 0 ∧
      s.console = ["Singular Matrix: May have infinitely many solutions."] ∧
      ∀ y : Nat → ℚ, ¬ Solves a.sparseMatrix a.size y) := by
  refine ⟨⟨(assemble halfOhm).getD clearNetList, (loadNetlist halfOhm).getD clearNetList,
    by decide!, by decide!, by decide!, by decide!, by decide!, by decide!, ?_⟩,
    ⟨(assemble contradictoryWithIsolatedNode).getD clearNetList,
    (loadNetlist contradictoryWithIsolatedNode).getD clearNetList,
    by decide!, by decide!, by decide!, ?_, by decide!, by decide!,
    no_solution_of_contradictory_sources contradictoryWithIsolatedNode _ (by decide!) 0 1
      ⟨"V1", 1, 0, 5⟩ ⟨"V2", 1, 0, 3⟩ (by decide!) (by decide!) (by decide!) (by decide!)
      (by decide!) (by decide!) (by decide!)⟩⟩
  · rw [halfOhm_tableau.1, halfOhm_tableau.2]
    intro r hr
    interval_cases r
    all_goals simp [RowSat, Finset.sum_range_succ, getEntry, vecOf]
    all_goals norm_num
  · have hsz : ((assemble contradictoryWithIsolatedNode).getD clearNetList).size = 9 := by
      decide!
    rw [hsz]
    intro r h1 h2
    interval_cases r <;> decide!

/-- What a singular stop does establish. For every netlist on which `rref`
stops at row `i`, the message is "Inconsistent System" when the right-hand side
of row `i` of the partially reduced matrix is non-zero and "May have infinitely
many solutions" when it is zero; and when every entry of column `i` in rows
`i..size-1` of that matrix is exactly zero, the assembled tableau has no unique
solution: from any solution `x` the vectors `x + t z`, with `z i = 1`, are
solutions for every `t`. -/
theorem singular_stop_classification (netlist : List Component) (s : Session)
    (hs : loadNetlist netlist = some s) (hsing : s.isSingularMatrix = true) :
    ∃ (a : Session) (i : Nat), assemble netlist = some a ∧
      (rref a.size a.sparseMatrix).map Prod.fst = some (i : Int) ∧ i < a.size ∧
      (getEntry s.sparseMatrix i a.size ≠ 0 →
        s.console = ["Singular Matrix: Inconsistent System"]) ∧
      (getEntry s.sparseMatrix i a.size = 0 →
        s.console = ["Singular Matrix: May have infinitely many solutions."]) ∧
      ((∀ r, i ≤ r → r < a.size → getEntry s.sparseMatrix r i = 0) →
        ∃ z : Nat → ℚ, z i = 1 ∧
          ∀ x : Nat → ℚ, Solves a.sparseMatrix a.size x →
            ∀ t : ℚ, Solves a.sparseMatrix a.size (fun j => x j + t * z j)) := by
  cases ha : assemble netlist with
  | none => simp [loadNetlist, ha] at hs
  | some a =>
    rw [loadNetlist_eq ha] at hs
    have hspec := assemble_spec netlist
    rw [ha] at hspec
    obtain ⟨_, _, _, _, _, _, _, hcon0, _⟩ := hspec
    obtain ⟨flag, Mf, hr, hMf, _, _, _, _, hcase⟩ := guassianElimination_spec hs
    rcases hcase with ⟨_, hns, _, _⟩ | ⟨hf, _, _, hcons⟩
    · rw [hsing] at hns
      simp at hns
    · rcases rref_echelon (assemble_dims ha) hr with ⟨hf', _⟩ | ⟨j, hj, hjs, hE, hS, _⟩
      · exact absurd hf' hf
      · refine ⟨a, j, rfl, by rw [hr, hj]; rfl, hjs, ?_, ?_, ?_⟩
        · intro hne
          rw [hMf] at hne
          rw [hcons, hcon0, hj]
          simp only [Int.toNat_ofNat, List.nil_append]
          rw [if_pos hne]
        · intro he
          rw [hMf] at he
          rw [hcons, hcon0, hj]
          simp only [Int.toNat_ofNat, List.nil_append]
          rw [if_neg (by simpa using he)]
        · intro hcol
          rw [hMf] at hcol
          obtain ⟨z, hz1, hz2⟩ := exists_null_vector hE hcol
          refine ⟨z, hz1, fun x hx t => ?_⟩
          exact (hS _).mp (Solves_add_null ((hS x).mpr hx) hz2 t)

/-! ## What the pivot scan returns -/

theorem truncate_nonneg {q : ℚ} (h : 0 ≤ q) : 0 ≤ truncate q := by
  unfold truncate
  exact Int.tdiv_nonneg (Rat.num_nonneg.mpr h) (Int.ofNat_nonneg _)

theorem truncate_neg (q : ℚ) : truncate (-q) = -truncate q := by
  unfold truncate
  rw [Rat.neg_num, Rat.neg_den, Int.neg_tdiv]

theorem truncate_abs (q : ℚ) : truncate |q| = |truncate q| := by
  by_cases h : 0 ≤ q
  · rw [abs_of_nonneg h, abs_of_nonneg (truncate_nonneg h)]
  · have hq : q ≤ 0 := le_of_lt (not_le.mp h)
    have h1 : 0 ≤ truncate (-q) := truncate_nonneg (by linarith)
    rw [truncate_neg] at h1
    rw [abs_of_nonpos hq, truncate_neg, abs_of_nonpos (by omega)]

/-- The pivot scan returns the first row, among rows `i..size-1`, whose entry
in column `i` has the largest magnitude after truncation to `int`, together
with that truncated magnitude. -/
theorem findMaxRow_first_largest_truncated {M : Mat} {size i : Nat} (hi : i < size)
    {p : Nat × Int} (h : findMaxRow size i M = some p) :
    i ≤ p.1 ∧ p.1 < size ∧ p.2 = truncate |getEntry M p.1 i| ∧
    (∀ k, i ≤ k → k < size → truncate |getEntry M k i| ≤ p.2) ∧
    (∀ k, i ≤ k → k < p.1 → truncate |getEntry M k i| < p.2) := by
  unfold findMaxRow at h
  have key := forLoop_inv
    (fun K (acc : Option (Nat × Int)) => ∀ st, acc = some st →
      (K = i → st = (i, truncate (getEntry M i i))) ∧
      (i < K → i ≤ st.1 ∧ st.1 < K ∧ st.2 = truncate |getEntry M st.1 i| ∧
        (∀ k, i ≤ k → k < K → truncate |getEntry M k i| ≤ st.2) ∧
        (∀ k, i ≤ k → k < st.1 → truncate |getEntry M k i| < st.2)))
    (fun k (acc : Option (Nat × Int)) =>
      acc.bind fun st =>
      (toInt |getEntry M k i|).bind fun abs_cur_val =>
        if abs_cur_val > st.2 then some (k, abs_cur_val) else some st)
    i size ((toInt (getEntry M i i)).map fun v => (i, v)) (by omega)
    (fun st hst => by
      cases hv : toInt (getEntry M i i) with
      | none => simp [hv] at hst
      | some v =>
        simp only [hv, Option.map_some', Option.some.injEq] at hst
        subst hst
        exact ⟨fun _ => by rw [toInt_eq_some hv], fun hlt => by omega⟩)
    (fun K acc hK1 hK2 hP st hst => by
      cases acc with
      | none => simp at hst
      | some st0 =>
        obtain ⟨h0a, h0b⟩ := hP st0 rfl
        cases hv : toInt |getEntry M K i| with
        | none => simp [hv] at hst
        | some a =>
          have ha := toInt_eq_some hv
          simp only [Option.some_bind, hv] at hst
          refine ⟨fun hKi => by omega, fun _ => ?_⟩
          by_cases hKi : K = i
          · have hst0 := h0a hKi
            have habs : a = |st0.2| := by
              rw [ha, hKi, truncate_abs, hst0]
            by_cases hgt : a > st0.2
            · rw [if_pos hgt] at hst
              have e : st = (K, a) := (Option.some.inj hst).symm
              subst e
              refine ⟨hK1, by simp, by simpa using ha, fun k hk1 hk2 => ?_,
                fun k hk1 hk2 => ?_⟩
              · have : k = K := by omega
                rw [this, ← ha]
              · simp only at hk2
                omega
            · rw [if_neg hgt] at hst
              have e : st = st0 := (Option.some.inj hst).symm
              subst e
              have hpos : a = st.2 := by
                rw [habs]
                rw [habs] at hgt
                have := le_abs_self st.2
                omega
              rw [hst0] at hpos ⊢
              simp only at hpos ⊢
              refine ⟨le_refl _, by omega, ?_, fun k hk1 hk2 => ?_, fun k hk1 hk2 => by omega⟩
              · rw [← hpos, ha, hKi]
              · have : k = i := by omega
                rw [this, ← hpos, ha, hKi]
          · obtain ⟨b1, b2, b3, b4, b5⟩ := h0b (by omega)
            by_cases hgt : a > st0.2
            · rw [if_pos hgt] at hst
              have e : st = (K, a) := (Option.some.inj hst).symm
              subst e
              refine ⟨hK1, by simp, by simpa using ha, fun k hk1 hk2 => ?_,
                fun k hk1 hk2 => ?_⟩
              · simp only
                by_cases hkK : k = K
                · rw [hkK, ← ha]
                · have := b4 k hk1 (by omega)
                  omega
              · simp only at hk2 ⊢
                have := b4 k hk1 hk2
                omega
            · rw [if_neg hgt] at hst
              have e : st = st0 := (Option.some.inj hst).symm
              subst e
              refine ⟨b1, by omega, b3, fun k hk1 hk2 => ?_, b5⟩
              by_cases hkK : k = K
              · rw [hkK, ← ha]
                omega
              · exact b4 k hk1 (by omega))
  obtain ⟨_, hb⟩ := key p h
  obtain ⟨b1, b2, b3, b4, b5⟩ := hb hi
  exact ⟨b1, b2, b3, b4, b5⟩

end NetlistAnalyzer
